import Mathlib

/-!
# okto: a single-host crawler

A shallow embedding of `concurrent_map.go`, `filter.go`, `fetcher.go` and
`crawler.go`.

* Go maps are association lists with one entry per key.
* Go slices of strings are lists; a `nil` slice and an empty slice are both `[]`.
* A `*url.URL` is an `Option URL` (`none` is the `nil` pointer).
* The external libraries (`net/url`, `purell`, the HTML tokenizer, the HTTP
  client) are parameters of the embedding; `goUrl` is a concrete instance of the
  URL library on which the repository tests are replayed.
* Goroutines are tasks of a state machine whose scheduler is an arbitrary
  choice of the next task to run one atomic action.
-/

namespace Okto

/-! ## concurrent_map.go -/

/-- A Go `map[key]value`: an association list with at most one entry per key. Keys are
compared with a decidable equality, as Go compares the string keys the crawler uses. -/
abbrev GoMap (K V : Type) := List (K × V)

namespace GoMap

variable {K V : Type} [DecidableEq K]

/-- The lookup `v, ok := m[k]`: `none` when `ok` is false. -/
def get : GoMap K V → K → Option V
  | [], _ => none
  | (k', v) :: rest, k => if k' = k then some v else get rest k

/-- The deletion `delete(m, k)`. -/
def delete (m : GoMap K V) (k : K) : GoMap K V :=
  m.filter (fun p => decide (p.1 ≠ k))

/-- The assignment `m[k] = v`. -/
def set (m : GoMap K V) (k : K) (v : V) : GoMap K V :=
  (k, v) :: delete m k

/-- The keys of the map. -/
def keys (m : GoMap K V) : List K := m.map Prod.fst

end GoMap

namespace concurrentMap

variable {K V : Type} [DecidableEq K]

/-- The method `SetIfAbsent`: its body runs under `c.mutex.Lock()`, so it is one atomic
action on the `mapping` field; the result is the returned flag and the new mapping. -/
def SetIfAbsent (c : GoMap K V) (k : K) (v : V) : Bool × GoMap K V :=
  match c.get k with
  | some _ => (false, c)
  | none => (true, c.set k v)

/-- The method `Set`. -/
def Set (c : GoMap K V) (k : K) (v : V) : GoMap K V := c.set k v

/-- The method `Remove`. -/
def Remove (c : GoMap K V) (k : K) : GoMap K V := c.delete k

/-- The method `Map`. -/
def Map (c : GoMap K V) : GoMap K V := c

/-- Concurrent `SetIfAbsent(k, v)` calls, one per value of `order`, run one after the
other in the order in which the mutex admits them; the flags are returned in that order. -/
def serialize (c : GoMap K V) (k : K) : List V → List Bool × GoMap K V
  | [] => ([], c)
  | v :: order =>
    let r := SetIfAbsent c k v
    let rest := serialize r.2 k order
    (r.1 :: rest.1, rest.2)

end concurrentMap

/-! ## net/url and purell: the interface used by filter.go and crawler.go -/

/-- The fields of `url.URL` (`User` is the raw userinfo, `none` when absent). -/
structure URL where
  Scheme : String := ""
  Opaque : String := ""
  User : Option String := none
  Host : String := ""
  Path : String := ""
  ForceQuery : Bool := false
  RawQuery : String := ""
  Fragment : String := ""
deriving DecidableEq, Inhabited

/-- The URL library the repository calls: `url.Parse` (`none` is a parse error),
`(*url.URL).String` and `purell.NormalizeURL(·, purellFlags)`. -/
structure UrlLib where
  Parse : String → Option URL
  UrlString : URL → String
  NormalizeURL : URL → String

/-! ## A concrete model of net/url and purell -/

namespace GoUrl

/-- The function `strings.Cut` with a one-byte separator: the text before the first
separator, and the text after it when there is one. -/
def cut (sep : Char) : List Char → List Char × Option (List Char)
  | [] => ([], none)
  | c :: cs =>
    if c = sep then ([], some cs)
    else ((c :: (cut sep cs).1), (cut sep cs).2)

def isAlpha (c : Char) : Bool :=
  (97 ≤ c.toNat && c.toNat ≤ 122) || (65 ≤ c.toNat && c.toNat ≤ 90)

def isSchemeTail (c : Char) : Bool :=
  (48 ≤ c.toNat && c.toNat ≤ 57) || c = '+' || c = '-' || c = '.'

/-- The test `stringContainsCTLByte`. -/
def isCTL (c : Char) : Bool := c.toNat < 32 || c.toNat = 127

/-- The function `strings.ToLower` on ASCII text. -/
def toLower (s : List Char) : List Char := s.map Char.toLower

/-- The scan of `getScheme`: `acc` holds the bytes before the current one;
`none` is the error "missing protocol scheme". -/
def getSchemeAux (raw : List Char) : List Char → List Char → Option (List Char × List Char)
  | _, [] => some ([], raw)
  | acc, c :: cs =>
    if isAlpha c then getSchemeAux raw (acc ++ [c]) cs
    else if isSchemeTail c then
      (if acc = [] then some ([], raw) else getSchemeAux raw (acc ++ [c]) cs)
    else if c = ':' then
      (if acc = [] then none else some (acc, cs))
    else some ([], raw)

def getScheme (raw : List Char) : Option (List Char × List Char) :=
  getSchemeAux raw [] raw

/-- The text before the last `@` (when there is one) and the text after it. -/
def splitUser : List Char → Option (List Char) × List Char
  | [] => (none, [])
  | c :: cs =>
    match splitUser cs with
    | (some u, h) => (some (c :: u), h)
    | (none, h) => if c = '@' then (some [], h) else (none, c :: h)

/-- The function `parse(rawURL, false)` of net/url without percent-decoding and without
host and port validation: the errors kept are a control byte, a missing scheme, and a
colon in the first segment of a relative path. -/
def parse (raw : List Char) : Option URL :=
  if raw.any isCTL then none
  else if raw = ['*'] then some { Path := "*" }
  else
    match getScheme raw with
    | none => none
    | some (scheme, rest0) =>
      let scheme := toLower scheme
      let force : Bool := rest0.getLast? = some '?' ∧ rest0.count '?' = 1
      let rest1 := if force then rest0.dropLast else (cut '?' rest0).1
      let query := if force then [] else ((cut '?' rest0).2).getD []
      if rest1.head? ≠ some '/' ∧ scheme ≠ [] then
        some { Scheme := String.mk scheme, Opaque := String.mk rest1, ForceQuery := force,
               RawQuery := String.mk query }
      else if rest1.head? ≠ some '/' ∧ ':' ∈ (cut '/' rest1).1 then none
      else if (scheme ≠ [] ∨ rest1.take 3 ≠ ['/', '/', '/']) ∧ rest1.take 2 = ['/', '/'] then
        let authority := (cut '/' (rest1.drop 2)).1
        let path := match (cut '/' (rest1.drop 2)).2 with
          | none => []
          | some p => '/' :: p
        let uh := splitUser authority
        some { Scheme := String.mk scheme, User := uh.1.map String.mk, Host := String.mk uh.2,
               Path := String.mk path, ForceQuery := force, RawQuery := String.mk query }
      else
        some { Scheme := String.mk scheme, Path := String.mk rest1, ForceQuery := force,
               RawQuery := String.mk query }

/-- The function `url.Parse`: the fragment is cut off first. -/
def Parse (rawURL : String) : Option URL :=
  match parse (cut '#' rawURL.data).1 with
  | none => none
  | some u => some { u with Fragment := String.mk (((cut '#' rawURL.data).2).getD []) }

/-- The text written after the scheme by `(*url.URL).String` when `Opaque` is empty. -/
def hierPart (u : URL) (slashes : Bool) : List Char :=
  let auth : List Char :=
    if u.Scheme ≠ "" ∨ u.Host ≠ "" ∨ u.User ≠ none then
      (if slashes then ['/', '/'] else []) ++
        (match u.User with
          | none => []
          | some ui => ui.data ++ ['@']) ++ u.Host.data
    else []
  let sep : List Char :=
    if u.Path ≠ "" ∧ u.Path.data.head? ≠ some '/' ∧ u.Host ≠ "" then ['/'] else []
  auth ++ sep

/-- The method `(*url.URL).String` without percent-encoding. -/
def UrlString (u : URL) : String :=
  let scheme : List Char := if u.Scheme ≠ "" then u.Scheme.data ++ [':'] else []
  let body : List Char :=
    if u.Opaque ≠ "" then u.Opaque.data
    else
      let h := hierPart u (u.Host ≠ "" ∨ u.Path ≠ "" ∨ u.User ≠ none)
      let dot : List Char :=
        if scheme = [] ∧ h = [] ∧ ':' ∈ (cut '/' u.Path.data).1 then ['.', '/'] else []
      h ++ dot ++ u.Path.data
  let query : List Char :=
    if u.ForceQuery ∨ u.RawQuery ≠ "" then '?' :: u.RawQuery.data else []
  let frag : List Char := if u.Fragment ≠ "" then '#' :: u.Fragment.data else []
  String.mk (scheme ++ body ++ query ++ frag)

/-- The function `urlesc.Escape`, the printer purell ends with, without percent-encoding:
it writes `//` whenever there is a scheme, host or userinfo, and no bare `?`. -/
def Escape (u : URL) : String :=
  let scheme : List Char := if u.Scheme ≠ "" then u.Scheme.data ++ [':'] else []
  let body : List Char :=
    if u.Opaque ≠ "" then u.Opaque.data else hierPart u true ++ u.Path.data
  let query : List Char := if u.RawQuery ≠ "" then '?' :: u.RawQuery.data else []
  let frag : List Char := if u.Fragment ≠ "" then '#' :: u.Fragment.data else []
  String.mk (scheme ++ body ++ query ++ frag)

/-- The replacement of every run of two or more slashes by one slash. -/
def removeDupSlashes : List Char → List Char
  | [] => []
  | c :: cs =>
    if c = '/' ∧ cs.head? = some '/' then removeDupSlashes cs else c :: removeDupSlashes cs

/-- Byte-wise lexicographic order, the order of `sort.Strings`. -/
def leChars : List Char → List Char → Bool
  | [], _ => true
  | _ :: _, [] => false
  | a :: as, b :: bs =>
    if a.toNat < b.toNat then true
    else if b.toNat < a.toNat then false
    else leChars as bs

def insertSorted (x : List Char) : List (List Char) → List (List Char)
  | [] => [x]
  | y :: ys => if leChars x y then x :: y :: ys else y :: insertSorted x ys

def sortStrings (l : List (List Char)) : List (List Char) :=
  l.foldr insertSorted []

/-- The pieces of a text between occurrences of a separator. -/
def splitOn (sep : Char) : List Char → List (List Char)
  | [] => [[]]
  | c :: cs =>
    if c = sep then [] :: splitOn sep cs
    else
      match splitOn sep cs with
      | [] => [[c]]
      | p :: ps => (c :: p) :: ps

/-- The function `url.ParseQuery` without percent-decoding: the key/value pairs of the
non-empty pieces between `&`. -/
def parseQuery (q : List Char) : List (List Char × List Char) :=
  ((splitOn '&' q).filter (fun p => decide (p ≠ []))).map
    (fun p => ((cut '=' p).1, ((cut '=' p).2).getD []))

def joinAmp : List (List Char) → List Char
  | [] => []
  | [x] => x
  | x :: y :: rest => x ++ '&' :: joinAmp (y :: rest)

/-- The function `sortQuery` of purell: keys in sorted order, the values of one key in
sorted order, each pair written `key=value`. -/
def sortQuery (q : List Char) : List Char :=
  let pairs := parseQuery q
  if pairs = [] then q
  else
    let arKeys := sortStrings ((pairs.map Prod.fst).dedup)
    joinAmp (arKeys.flatMap (fun k =>
      (sortStrings ((pairs.filter (fun p => decide (p.1 = k))).map Prod.snd)).map
        (fun v => k ++ '=' :: v)))

/-- The function `removeTrailingSlash` of purell. -/
def removeTrailingSlash (u : URL) : URL :=
  if u.Path ≠ "" then
    (if u.Path.data.getLast? = some '/' then { u with Path := String.mk u.Path.data.dropLast }
     else u)
  else if u.Host ≠ "" ∧ u.Host.data.getLast? = some '/' then
    { u with Host := String.mk u.Host.data.dropLast }
  else u

/-- The call `purell.NormalizeURL(u, purellFlags)` with the flags of filter.go, applied
in purell's fixed order: lower-case scheme, lower-case host, remove fragment, remove
duplicate slashes, sort query, remove trailing slash; the printer removes an empty
query separator. -/
def NormalizeURL (u : URL) : String :=
  let u1 := { u with Scheme := String.mk (toLower u.Scheme.data) }
  let u2 := { u1 with Host := String.mk (toLower u1.Host.data) }
  let u3 := { u2 with Fragment := "" }
  let u4 := { u3 with Path := String.mk (removeDupSlashes u3.Path.data) }
  let u5 := { u4 with RawQuery := String.mk (sortQuery u4.RawQuery.data) }
  Escape (removeTrailingSlash u5)

end GoUrl

/-- The concrete URL library. -/
def goUrl : UrlLib where
  Parse := GoUrl.Parse
  UrlString := GoUrl.UrlString
  NormalizeURL := GoUrl.NormalizeURL

/-! ## filter.go -/

namespace filter

/-- The method `normalize`: the empty string means "out of scope". -/
def normalize (L : UrlLib) (parent u : URL) : String :=
  -- Inherit host if none, otherwise compare
  match (if u.Host = "" then some { u with Host := parent.Host }
         else if u.Host ≠ parent.Host then none else some u) with
  | none => ""
  | some u =>
    -- Inherit scheme if none, otherwise filter
    match (if u.Scheme = "" then some { u with Scheme := parent.Scheme }
           else if ¬ (u.Scheme = "http" ∨ u.Scheme = "https") then none else some u) with
    | none => ""
    | some u => L.NormalizeURL u

/-- One iteration of the loop of `Filter` on the pair (`result`, `unique`); `unique` is
kept as the list of its keys in insertion order. -/
def step (L : UrlLib) (parent : URL) (acc : List (Option URL) × List String)
    (child : String) : List (Option URL) × List String :=
  match L.Parse child with
  | none => acc
  | some parsed =>
    let normalized := normalize L parent parsed
    if normalized = "" then acc
    else if normalized ∈ acc.2 then acc
    else (acc.1 ++ [L.Parse normalized], acc.2 ++ [normalized])

/-- The loop of `Filter`. -/
def loop (L : UrlLib) (parent : URL) (children : List String) :
    List (Option URL) × List String :=
  children.foldl (step L parent) ([], [])

/-- The method `Filter`: selects, normalizes and deduplicates children of a URL. -/
def Filter (L : UrlLib) (parent : URL) (children : List String) : List (Option URL) :=
  (loop L parent children).1

/-- The canonical strings accepted by `Filter`, in the order of acceptance (the final
contents of `unique`). -/
def FilterKeys (L : UrlLib) (parent : URL) (children : List String) : List String :=
  (loop L parent children).2


/-- The reference reading of one child: `none` when it fails to parse, when its host is
non-empty and differs from the parent host, or when its scheme is non-empty and is
neither http nor https; otherwise the canonical string of the child after it inherited
a missing host and a missing scheme from the parent. -/
def canonicalInScope (L : UrlLib) (parent : URL) (child : String) : Option String :=
  (L.Parse child).bind fun u =>
    if u.Host ≠ "" ∧ u.Host ≠ parent.Host then none
    else if u.Scheme ≠ "" ∧ u.Scheme ≠ "http" ∧ u.Scheme ≠ "https" then none
    else some (L.NormalizeURL
      { u with Host := if u.Host = "" then parent.Host else u.Host,
               Scheme := if u.Scheme = "" then parent.Scheme else u.Scheme })

/-- First occurrences of a list, in order. -/
def firstOccurrences : List String → List String
  | [] => []
  | x :: xs => x :: (firstOccurrences xs).filter (fun y => decide (y ≠ x))

/-- The reference definition of `Filter` read literally: every in-scope canonical string
is kept the first time it occurs. -/
def FilterRefLiteral (L : UrlLib) (parent : URL) (children : List String) :
    List (Option URL) :=
  (firstOccurrences (children.filterMap (canonicalInScope L parent))).map L.Parse

/-- The reference definition of `Filter` in which an empty canonical string is dropped
as well. -/
def FilterRef (L : UrlLib) (parent : URL) (children : List String) : List (Option URL) :=
  (firstOccurrences ((children.filterMap (canonicalInScope L parent)).filter
    (fun k => decide (k ≠ "")))).map L.Parse

/-- The strings of the URLs of a `Filter` result, as `crawl` computes them
(`u.String()` of a `nil` entry does not return). -/
def urlStrings (L : UrlLib) (urls : List (Option URL)) : List String :=
  urls.filterMap (fun u => u.map L.UrlString)

/-- A canonical string is reproduced: it parses, and the URL it parses to, printed,
parsed and normalized again under the same parent, gives the same canonical string. -/
def reproduced (L : UrlLib) (parent : URL) (k : String) : Bool :=
  match L.Parse k with
  | none => false
  | some v =>
    match L.Parse (L.UrlString v) with
    | none => false
    | some w => decide (normalize L parent w = k)

end filter

/-! ## fetcher.go -/

/-- The type `html.Attribute`. -/
structure Attribute where
  Key : String
  Val : String
deriving DecidableEq

/-- The type `html.Token`: the tag name and the attributes. -/
structure Token where
  Data : String
  Attr : List Attribute
deriving DecidableEq

/-- The type `html.TokenType`. -/
inductive TokenType where
  | ErrorToken
  | TextToken
  | StartTagToken
  | EndTagToken
  | SelfClosingTagToken
  | CommentToken
  | DoctypeToken
deriving DecidableEq

/-- The type `FetchResult`. -/
structure FetchResult where
  links : List String
  assets : List String
deriving DecidableEq

/-- The interface `Fetcher`: `none` is the error result. -/
abbrev Fetcher := String → Option FetchResult

namespace fetcher

def linkTags : GoMap String (List String) :=
  [("a", ["href"]), ("head", ["profile"]), ("iframe", ["longdesc", "src"]), ("q", ["cite"])]

def assetTags : GoMap String (List String) :=
  [("link", ["href"]), ("img", ["src"]), ("script", ["src"])]

/-- The loop of `getAttr` over `t.Attr`. -/
def getAttrLoop (key : String) : List Attribute → String
  | [] => ""
  | a :: rest => if a.Key = key then a.Val else getAttrLoop key rest

def getAttr (t : Token) (key : String) : String := getAttrLoop key t.Attr

/-- The loop of `extractAttrs` over `relevantAttributes` (`attrs` is empty on entry and
the loop breaks after the first append). -/
def extractLoop (t : Token) : List String → List String
  | [] => []
  | attr :: rest => if getAttr t attr ≠ "" then [getAttr t attr] else extractLoop t rest

def extractAttrs (t : Token) (tags : GoMap String (List String)) : List String :=
  match tags.get t.Data with
  | some relevantAttributes => extractLoop t relevantAttributes
  | none => []

/-- The loop of `processBody` over the events of the tokenizer (the end of the input is
an `ErrorToken`). -/
def processBodyLoop : List (TokenType × Token) → List String × List String →
    List String × List String
  | [], acc => acc
  | (TokenType.ErrorToken, _) :: _, acc => acc
  | (TokenType.StartTagToken, t) :: rest, acc =>
    processBodyLoop rest (acc.1 ++ extractAttrs t linkTags, acc.2 ++ extractAttrs t assetTags)
  | _ :: rest, acc => processBodyLoop rest acc

def processBody (body : List (TokenType × Token)) : List String × List String :=
  processBodyLoop body ([], [])

/-- The value of an attribute name in a tag: that of its first occurrence. -/
def attrValue (t : Token) (name : String) : Option String :=
  (t.Attr.find? (fun a => decide (a.Key = name))).map Attribute.Val

/-- The reference definition of `extractAttrs` read literally: the first listed name
such that some attribute of the tag has this name and a non-empty value. -/
def extractRefLiteral (t : Token) (tags : GoMap String (List String)) : List String :=
  match tags.get t.Data with
  | none => []
  | some names =>
    (names.findSome? (fun n =>
      (t.Attr.find? (fun a => decide (a.Key = n ∧ a.Val ≠ ""))).map Attribute.Val)).toList

/-- The reference definition of `extractAttrs` where the value of a name is that of its
first occurrence in the tag. -/
def extractRef (t : Token) (tags : GoMap String (List String)) : List String :=
  match tags.get t.Data with
  | none => []
  | some names =>
    (names.findSome? (fun n => (attrValue t n).filter (fun v => decide (v ≠ "")))).toList

/-- The events before the first `ErrorToken`. -/
def beforeError : List (TokenType × Token) → List (TokenType × Token)
  | [] => []
  | e :: rest => if e.1 = TokenType.ErrorToken then [] else e :: beforeError rest

/-- The start tags of a document, in document order. -/
def startTags (body : List (TokenType × Token)) : List Token :=
  ((beforeError body).filter (fun e => decide (e.1 = TokenType.StartTagToken))).map Prod.snd

/-- The events of the document of `TestFetcherProcessBody`. -/
def testBody : List (TokenType × Token) :=
  [ (TokenType.TextToken, ⟨"\n\t", []⟩),
    (TokenType.StartTagToken, ⟨"head", [⟨"profile", "http://head.profile"⟩]⟩),
    (TokenType.TextToken, ⟨"\n\t", []⟩),
    (TokenType.StartTagToken, ⟨"a", [⟨"href", "http://a.href"⟩]⟩),
    (TokenType.TextToken, ⟨" ", []⟩),
    (TokenType.EndTagToken, ⟨"a", []⟩),
    (TokenType.TextToken, ⟨"\n\t", []⟩),
    (TokenType.StartTagToken, ⟨"iframe", [⟨"src", "http://iframe.src"⟩]⟩),
    (TokenType.TextToken, ⟨" ", []⟩),
    (TokenType.EndTagToken, ⟨"iframe", []⟩),
    (TokenType.TextToken, ⟨"\n\t", []⟩),
    (TokenType.StartTagToken, ⟨"q", [⟨"cite", "http://q.cite"⟩]⟩),
    (TokenType.EndTagToken, ⟨"q", []⟩),
    (TokenType.TextToken, ⟨"\n\n\t", []⟩),
    (TokenType.StartTagToken, ⟨"link", [⟨"href", "http://link.href"⟩]⟩),
    (TokenType.TextToken, ⟨"\n\t", []⟩),
    (TokenType.StartTagToken, ⟨"img", [⟨"src", "http://img.src"⟩]⟩),
    (TokenType.TextToken, ⟨"\n\t", []⟩),
    (TokenType.StartTagToken, ⟨"script", [⟨"src", "http://script.src"⟩]⟩),
    (TokenType.TextToken, ⟨"\n\t", []⟩),
    (TokenType.ErrorToken, ⟨"", []⟩) ]

end fetcher

/-! ## crawler.go -/

/-- The value stored in `data` for a fetched page:
`map[string][]string{"links": links, "assets": assets}`. -/
structure PageData where
  links : List String
  assets : List String
deriving DecidableEq

/-- The type `CrawlResult`. -/
structure CrawlResult where
  Seed : URL
  Links : GoMap String (List String)
  Assets : GoMap String (List String)

/-- The fields of `crawler` that do not change during a crawl: the seed, the capacity
`maxConn` with which `make(chan signal, maxConn)` created the channel `connSem`, the
fetcher, and the URL library behind `filter`. -/
structure crawler where
  seed : URL
  maxConn : Nat
  fetcher : Fetcher
  lib : UrlLib

namespace crawler

/-- Whitelist extensions to avoid fetching heavy stuff. -/
def extensionWhiteList : GoMap String Bool := [("", true), (".html", true)]

def isValidSeed (seed : URL) : Bool :=
  if seed.Scheme = "" ∨ seed.Host = "" then false else true

/-- What a call of `NewCrawler` does: it returns a crawler, it returns an error, or it
panics. -/
inductive NewCrawlerResult where
  | ok (c : crawler)
  | error (msg : String)
  | panics (msg : String)

/-- The function `NewCrawler` (the fetcher is passed in, as the test does). The argument
`maxConn` is a `uint64`. In `make(chan signal, maxConn)` the size is converted to `int`:
from `2 ^ 63` on it is negative and `makechan` panics; the element type `signal` has size
zero, so every smaller capacity is allocated. -/
def NewCrawler (L : UrlLib) (fetcher : Fetcher) (seed : URL) (maxConn : Nat) :
    NewCrawlerResult :=
  if ¬ isValidSeed seed then NewCrawlerResult.error "Invalid seed URL"
  else if 2 ^ 63 ≤ maxConn % 2 ^ 64 then NewCrawlerResult.panics "makechan: size out of range"
  else NewCrawlerResult.ok
    { seed := seed, maxConn := maxConn % 2 ^ 64, fetcher := fetcher, lib := L }

/-- The loop of `filepath.Ext` on the reversed path: `acc` is the text after the current
byte. -/
def extLoop : List Char → List Char → List Char
  | [], _ => []
  | c :: before, acc =>
    if c = '/' then []
    else if c = '.' then '.' :: acc
    else extLoop before (c :: acc)

/-- The function `filepath.Ext` (with `/` as the path separator). -/
def Ext (path : String) : String := String.mk (extLoop path.data.reverse [])

def shouldCrawl (u : URL) : Bool :=
  if u.Path ≠ "" ∧ ¬ ((extensionWhiteList.get (Ext u.Path)).getD false) then false else true

/-- A goroutine running `crawl(u, wg)`, at one of its atomic actions. -/
inductive Task where
  /-- Started; the next action is `c.visited.SetIfAbsent(u.String(), struct{}{})`. -/
  | spawned (u : URL)
  /-- The URL was unseen; next is `shouldCrawl` followed by `c.data.Set(u.String(), nil)`
  or by the send `c.connSem <- signal{}` and the call of the fetcher. -/
  | claimed (u : URL)
  /-- Inside `c.fetcher.Fetch`, holding one slot of `connSem`. -/
  | fetching (u : URL)
  /-- The fetch succeeded and the slot is released; next is `Filter` and `c.data.Set`. -/
  | fetched (u : URL) (r : FetchResult)
  /-- The page is recorded; the deferred calls (one spawn per child, then `wg.Done`)
  run next. -/
  | recorded (u : URL) (urls : List URL)
deriving DecidableEq

/-- The state shared by the goroutines of one `Crawl`, with two logs that are not in the
code: the URLs whose claim succeeded and the arguments of the calls of the fetcher. -/
structure State where
  tasks : List Task
  wg : Nat
  visited : GoMap String Unit
  data : GoMap String (Option PageData)
  connSem : Nat
  crashed : Bool
  claimedLog : List URL
  fetchLog : List String

/-- The URLs of a `Filter` result when none is `nil`. -/
def derefAll : List (Option URL) → Option (List URL)
  | [] => some []
  | none :: _ => none
  | some u :: rest => (derefAll rest).map (fun us => u :: us)

/-- One atomic action of a task: the tasks that replace it and the new shared state;
`none` when the task is blocked (the send on a full `connSem`). -/
def fire (c : crawler) (s : State) : Task → Option (List Task × State)
  | Task.spawned u =>
    -- No-op if we've already visited this URL.
    match concurrentMap.SetIfAbsent s.visited (c.lib.UrlString u) () with
    | (true, visited) =>
      some ([Task.claimed u], { s with visited := visited, claimedLog := s.claimedLog ++ [u] })
    | (false, _) => some ([], { s with wg := s.wg - 1 })
  | Task.claimed u =>
    -- Check if the URL should be crawled.
    if ¬ shouldCrawl u then
      some ([], { s with data := concurrentMap.Set s.data (c.lib.UrlString u) none,
                         wg := s.wg - 1 })
    else if s.connSem < c.maxConn then
      some ([Task.fetching u], { s with connSem := s.connSem + 1,
                                        fetchLog := s.fetchLog ++ [c.lib.UrlString u] })
    else none
  | Task.fetching u =>
    -- If fetching fails, log and move on.
    match c.fetcher (c.lib.UrlString u) with
    | none => some ([], { s with connSem := s.connSem - 1, wg := s.wg - 1 })
    | some r => some ([Task.fetched u r], { s with connSem := s.connSem - 1 })
  | Task.fetched u r =>
    -- Filter child URLs, convert them to strings, record links and assets.
    match derefAll (filter.Filter c.lib u r.links) with
    -- `u.String()` on a `nil` URL panics: the deferred `wg.Done()` runs and the
    -- program dies.
    | none => some ([], { s with crashed := true, wg := s.wg - 1 })
    | some urls =>
      some ([Task.recorded u urls],
        { s with data := concurrentMap.Set s.data (c.lib.UrlString u)
                   (some { links := urls.map c.lib.UrlString, assets := r.assets }) })
  | Task.recorded _ urls =>
    -- The deferred calls run last-in first-out: the spawns, then `wg.Done()`.
    some (urls.reverse.map Task.spawned, { s with wg := s.wg + urls.length - 1 })

/-- The scheduler runs task number `i` for one atomic action. -/
def stepAt (c : crawler) (i : Nat) (s : State) : Option State :=
  if s.crashed then none
  else
    match s.tasks[i]? with
    | none => none
    | some t =>
      match fire c s t with
      | none => none
      | some r => some { r.2 with tasks := s.tasks.take i ++ r.1 ++ s.tasks.drop (i + 1) }

/-- The state in which `Crawl` starts: `wg.Add(1); go c.crawl(c.seed, &wg)`. -/
def init (c : crawler) : State :=
  { tasks := [Task.spawned c.seed], wg := 1, visited := [], data := [], connSem := 0,
    crashed := false, claimedLog := [], fetchLog := [] }

/-- One step of the crawl: some task runs one atomic action. -/
def Step (c : crawler) (s s' : State) : Prop := ∃ i, stepAt c i s = some s'

/-- The states a crawl can be in. -/
def Reachable (c : crawler) (s : State) : Prop := Relation.ReflTransGen (Step c) (init c) s

/-- The condition under which `wg.Wait()` returns. -/
def joined (s : State) : Bool := decide (s.wg = 0) && !s.crashed

/-- The body of the loop of `buildResult` for one entry of the map. -/
def buildStep (result : CrawlResult) (entry : String × Option PageData) : CrawlResult :=
  match entry.2 with
  | some v =>
    { result with Links := result.Links.set entry.1 v.links,
                  Assets := result.Assets.set entry.1 v.assets }
  | none =>
    { result with Links := result.Links.set entry.1 [],
                  Assets := result.Assets.set entry.1 [] }

/-- The method `buildResult` on the map returned by `c.data.Map()`. -/
def buildResult (c : crawler) (data : GoMap String (Option PageData)) : CrawlResult :=
  data.foldl buildStep { Seed := c.seed, Links := [], Assets := [] }

/-- The method `Crawl` returns `result`: some run of the goroutines from the initial
state reaches a state in which `wg.Wait()` returns, and `result` is built from it. -/
def CrawlReturns (c : crawler) (result : CrawlResult) : Prop :=
  ∃ s, Reachable c s ∧ joined s = true ∧ result = buildResult c s.data

/-- The run of a schedule: the list of the tasks chosen one after the other. -/
def runSchedule (c : crawler) : List Nat → State → Option State
  | [], s => some s
  | i :: rest, s => (stepAt c i s).bind (runSchedule c rest)

/-- The URLs reachable from the seed through filtered child links. -/
inductive Reach (c : crawler) : URL → Prop where
  | seed : Reach c c.seed
  | child (u v : URL) (r : FetchResult) : Reach c u → shouldCrawl u = true →
      c.fetcher (c.lib.UrlString u) = some r → some v ∈ filter.Filter c.lib u r.links →
      Reach c v

/-- The record `Crawl` is to produce for a URL: none when its fetch fails, the `nil`
record when the whitelist skips it, its filtered links and raw assets otherwise. -/
def outcome (c : crawler) (u : URL) : Option (Option PageData) :=
  if shouldCrawl u then
    match c.fetcher (c.lib.UrlString u) with
    | none => none
    | some r =>
      (derefAll (filter.Filter c.lib u r.links)).map
        (fun urls => some { links := urls.map c.lib.UrlString, assets := r.assets })
  else some none

/-- The list `R` contains the seed and, with every URL that is fetched successfully, its
filtered children, none of which is `nil`. -/
def closedUnder (c : crawler) (R : List URL) : Bool :=
  decide (c.seed ∈ R) &&
  R.all (fun u =>
    !shouldCrawl u ||
    match c.fetcher (c.lib.UrlString u) with
    | none => true
    | some r => (filter.Filter c.lib u r.links).all (fun v =>
        match v with
        | none => false
        | some v => decide (v ∈ R)))

/-- The table `data` of the mock fetcher of `TestCrawler`. -/
def mockData : GoMap String FetchResult :=
  [ ("http://abcd.com",
      { links := ["http://abcd.com/a", "http://external.com/a", "mailto://a@abcd.com"],
        assets := ["http://abcd.com/img.png", "http://cdn.com/img.png"] }),
    ("http://abcd.com/a",
      { links := ["http://abcd.com/b"], assets := ["http://abcd.com/img.png"] }) ]

/-- The fetcher of `TestCrawler`. -/
def mockFetcher : Fetcher := fun rawURL =>
  match GoMap.get mockData rawURL with
  | some v => some v
  | none => some { links := [], assets := [] }

/-- The crawler of `TestCrawler`: `NewCrawler(seed, time.Duration(1), 1, 0)` with the mock
fetcher. -/
def testCrawler : crawler :=
  { seed := { Scheme := "http", Host := "abcd.com" }, maxConn := 1, fetcher := mockFetcher,
    lib := goUrl }

end crawler

namespace crawler

/-- The URL of a task that has claimed its URL. -/
def Task.active? : Task → Option URL
  | Task.spawned _ => none
  | Task.claimed u => some u
  | Task.fetching u => some u
  | Task.fetched u _ => some u
  | Task.recorded u _ => some u

/-- The task is inside `c.fetcher.Fetch`. -/
def Task.isFetching : Task → Bool
  | Task.fetching _ => true
  | _ => false

/-- The strings under which the running tasks have claimed their URLs. -/
def activeKeys (c : crawler) (tasks : List Task) : List String :=
  tasks.filterMap (fun t => t.active?.map c.lib.UrlString)

/-- No running task has claimed `u`. -/
def finished (s : State) (u : URL) : Prop := ∀ t ∈ s.tasks, t.active? ≠ some u

/-- What the logs and the results store hold for a task at each of its actions: the
fetcher is called once the task leaves `claimed`, and the record of its URL is written
when it enters `recorded`. -/
def phaseOk (c : crawler) (fetchLog : List String) (data : GoMap String (Option PageData)) :
    Task → Prop
  | Task.spawned _ => True
  | Task.claimed u =>
    c.lib.UrlString u ∉ fetchLog ∧ data.get (c.lib.UrlString u) = none
  | Task.fetching u =>
    shouldCrawl u = true ∧ c.lib.UrlString u ∈ fetchLog ∧ data.get (c.lib.UrlString u) = none
  | Task.fetched u r =>
    shouldCrawl u = true ∧ c.lib.UrlString u ∈ fetchLog ∧
      data.get (c.lib.UrlString u) = none ∧ c.fetcher (c.lib.UrlString u) = some r
  | Task.recorded u urls =>
    shouldCrawl u = true ∧ c.lib.UrlString u ∈ fetchLog ∧
      ∃ r, c.fetcher (c.lib.UrlString u) = some r ∧
        derefAll (filter.Filter c.lib u r.links) = some urls ∧
        data.get (c.lib.UrlString u) =
          some (some { links := urls.map c.lib.UrlString, assets := r.assets })

/-- The invariant of a crawl. -/
structure Inv (c : crawler) (s : State) : Prop where
  wg_eq : s.wg = s.tasks.length
  visited_iff : ∀ k, s.visited.get k ≠ none ↔ k ∈ s.claimedLog.map c.lib.UrlString
  claimed_nodup : (s.claimedLog.map c.lib.UrlString).Nodup
  active_nodup : (activeKeys c s.tasks).Nodup
  active_claimed : ∀ t ∈ s.tasks, ∀ u, t.active? = some u → u ∈ s.claimedLog
  fetch_nodup : s.fetchLog.Nodup
  fetch_claimed : ∀ k ∈ s.fetchLog,
    ∃ u ∈ s.claimedLog, c.lib.UrlString u = k ∧ shouldCrawl u = true
  phase : ∀ t ∈ s.tasks, phaseOk c s.fetchLog s.data t
  done : ∀ u ∈ s.claimedLog, finished s u →
    s.data.get (c.lib.UrlString u) = outcome c u ∧
      (shouldCrawl u = true → c.lib.UrlString u ∈ s.fetchLog)
  done_deref : s.crashed = false → ∀ u ∈ s.claimedLog, finished s u → shouldCrawl u = true →
    ∀ r, c.fetcher (c.lib.UrlString u) = some r →
      derefAll (filter.Filter c.lib u r.links) ≠ none
  data_claimed : ∀ k, s.data.get k ≠ none → k ∈ s.claimedLog.map c.lib.UrlString
  data_nodup : s.data.keys.Nodup
  sem_eq : s.connSem = s.tasks.countP Task.isFetching
  sem_le : s.connSem ≤ c.maxConn

/-- A spawned task for `v` is waiting, or `v` is claimed. -/
def pending (s : State) (v : URL) : Prop := Task.spawned v ∈ s.tasks ∨ v ∈ s.claimedLog

/-- The invariant of a crawl whose reachable URLs lie in a list closed under filtered
children. -/
structure InvR (c : crawler) (s : State) : Prop where
  spawned_reach : ∀ u, Task.spawned u ∈ s.tasks → Reach c u
  claimed_reach : ∀ u ∈ s.claimedLog, Reach c u
  no_crash : s.crashed = false
  seed_pending : pending s c.seed
  children_pending : ∀ u ∈ s.claimedLog, finished s u → shouldCrawl u = true →
    ∀ r, c.fetcher (c.lib.UrlString u) = some r →
      ∀ v, some v ∈ filter.Filter c.lib u r.links → pending s v

/-- The number of filtered children of a URL (zero when its fetch fails). -/
def childCount (c : crawler) (u : URL) : Nat :=
  match c.fetcher (c.lib.UrlString u) with
  | none => 0
  | some r => (filter.Filter c.lib u r.links).length

/-- A bound on the number of actions a task and the tasks it spawns can still take
without claiming a URL. -/
def weight (c : crawler) : Task → Nat
  | Task.spawned _ => 1
  | Task.claimed u => 5 + childCount c u
  | Task.fetching u => 4 + childCount c u
  | Task.fetched u r => 3 + (filter.Filter c.lib u r.links).length
  | Task.recorded _ urls => 2 + urls.length

def totalWeight (c : crawler) (s : State) : Nat := (s.tasks.map (weight c)).sum

end crawler

namespace crawler

/-- The part of a text after its last separator (the whole text when there is none). -/
def afterLast (sep : Char) (l : List Char) : List Char :=
  l.foldl (fun acc ch => if ch = sep then [] else acc ++ [ch]) []

/-- The suffix of a text that starts at its last separator, when there is one. -/
def fromLast (sep : Char) (l : List Char) : Option (List Char) :=
  l.foldl (fun acc ch => if ch = sep then some [ch] else acc.map (fun e => e ++ [ch])) none

/-- The extension of a path as the specification words it: the suffix starting at the
last `.` of the part of the path after the last `/`, empty when that part has no `.`. -/
def extensionOf (path : String) : String :=
  String.mk ((fromLast '.' (afterLast '/' path.data)).getD [])

/-- The schedule that always runs the first task. -/
def firstTask (n : Nat) : List Nat := List.replicate n 0

/-- The state `TestCrawler` ends in when the first task is run at every step. -/
def testFinal : State :=
  (runSchedule testCrawler (firstTask 15) (init testCrawler)).getD (init testCrawler)

/-- A fetcher for a site whose front page links to a PDF, to a page whose fetch fails,
and to a page without links. -/
def demoFetcher : Fetcher := fun rawURL =>
  if rawURL = "http://abcd.com" then
    some { links := ["/report.pdf", "/x.html", "/ok"], assets := ["/logo.png"] }
  else if rawURL = "http://abcd.com/x.html" then none
  else some { links := [], assets := ["/img.png"] }

def demoCrawler : crawler :=
  { seed := { Scheme := "http", Host := "abcd.com" }, maxConn := 2, fetcher := demoFetcher,
    lib := goUrl }

/-- The state the demo crawl ends in when the first task is run at every step. -/
def demoFinal : State :=
  (runSchedule demoCrawler (firstTask 15) (init demoCrawler)).getD (init demoCrawler)

/-- A crawler whose seed has a trailing slash and whose pages all link to the seed. -/
def slashCrawler : crawler :=
  { seed := { Scheme := "http", Host := "abcd.com", Path := "/" }, maxConn := 1,
    fetcher := fun _ => some { links := ["http://abcd.com/"], assets := [] }, lib := goUrl }

/-- The state the crawl of `slashCrawler` ends in. -/
def slashFinal : State :=
  (runSchedule slashCrawler (firstTask 11) (init slashCrawler)).getD (init slashCrawler)

/-- The crawler of `TestCrawler` with a semaphore of capacity zero. -/
def zeroCrawler : crawler := { testCrawler with maxConn := 0 }

end crawler

namespace crawler

/-- The URLs reachable in `TestCrawler`. -/
def testReach : List URL :=
  [{ Scheme := "http", Host := "abcd.com" }, { Scheme := "http", Host := "abcd.com", Path := "/a" },
   { Scheme := "http", Host := "abcd.com", Path := "/b" }]

end crawler

namespace crawler

/-- The number of calls of `c.fetcher.Fetch` in flight: the tasks inside the fetcher. -/
def inFlight (s : State) : Nat := s.tasks.countP Task.isFetching

/-- The demo crawler with a semaphore of capacity one. -/
def narrowCrawler : crawler := { demoCrawler with maxConn := 1 }

/-- A state of `narrowCrawler` in which the fetch of `/ok` is in flight while the task of
`/x.html` has claimed its URL and waits for the slot. -/
def narrowBusy : State :=
  (runSchedule narrowCrawler [0, 0, 0, 0, 0, 0, 1, 0] (init narrowCrawler)).getD
    (init narrowCrawler)

end crawler

namespace crawler

/-- The whitelist decision for a claimed URL is carried out: the fetcher has been called
for it when it passes the whitelist, and the `nil` record is stored for it otherwise. -/
def decided (c : crawler) (s : State) (u : URL) : Prop :=
  (shouldCrawl u = true → c.lib.UrlString u ∈ s.fetchLog) ∧
  (shouldCrawl u = false → s.data.get (c.lib.UrlString u) = some none)

/-- A run of the scheduler that goes on as long as some task can take a step: each state
is followed by the state after one step, and the run stays where it is only when no task
can take a step. -/
def MaximalRun (c : crawler) (run : Nat → State) : Prop :=
  ∀ n, Step c (run n) (run (n + 1)) ∨ ((∀ s', ¬ Step c (run n) s') ∧ run (n + 1) = run n)

end crawler

namespace crawler

/-- A state of `narrowCrawler` in which the fetch of `/ok` is in flight, the task of
`/x.html` has claimed its URL and waits for the slot, and `/report.pdf` is skipped. -/
def narrowWaiting : State :=
  (runSchedule narrowCrawler [0, 0, 0, 0, 0, 0, 1, 0, 2, 2] (init narrowCrawler)).getD
    (init narrowCrawler)

/-- A state of `narrowCrawler` in which the fetch of `/x.html`, which fails, is in flight
and the task of `/ok` has claimed its URL and waits for the slot. -/
def narrowFailing : State :=
  (runSchedule narrowCrawler [0, 0, 0, 0, 0, 0, 1, 1] (init narrowCrawler)).getD
    (init narrowCrawler)

end crawler

namespace GoUrl

/-- The text `userinfo@host` of `Escape`. -/
def authText (user : Option (List Char)) (H : List Char) : List Char :=
  (match user with
    | none => []
    | some ui => ui ++ ['@']) ++ H

/-- The text `?query` of `Escape`. -/
def queryText (Q : List Char) : List Char := if Q = [] then [] else '?' :: Q

/-- No two slashes in a row. -/
def noDupSlash (l : List Char) : Prop := List.Chain' (fun a b => ¬ (a = '/' ∧ b = '/')) l

/-- A key has no `=` and no `&`, a value has no `&`. -/
def goodPair (p : List Char × List Char) : Prop := '=' ∉ p.1 ∧ '&' ∉ p.1 ∧ '&' ∉ p.2

/-- The keys of a query in the order in which `sortQuery` writes them. -/
def queryKeys (pairs : List (List Char × List Char)) : List (List Char) :=
  sortStrings ((pairs.map Prod.fst).dedup)

/-- The values of one key in the order in which `sortQuery` writes them. -/
def queryVals (pairs : List (List Char × List Char)) (k : List Char) : List (List Char) :=
  sortStrings ((pairs.filter (fun p => decide (p.1 = k))).map Prod.snd)

/-- The pairs of a query in the order in which `sortQuery` writes them. -/
def sortedPairs (pairs : List (List Char × List Char)) : List (List Char × List Char) :=
  (queryKeys pairs).flatMap (fun k => (queryVals pairs k).map (fun v => (k, v)))

/-- The text `key=value`. -/
def renderPair (p : List Char × List Char) : List Char := p.1 ++ '=' :: p.2

/-- The bytes of the userinfo of a URL. -/
def userChars (u : URL) : List Char :=
  match u.User with
  | none => []
  | some ui => ui.data

/-- The URL with an authority that a canonical string is parsed to. -/
def hierURL (S : List Char) (user : Option (List Char)) (H P Q : List Char) : URL :=
  { Scheme := String.mk S, User := user.map String.mk, Host := String.mk H,
    Path := String.mk P, RawQuery := String.mk Q }

/-- The canonical string of a URL with an authority. -/
def hierText (S : List Char) (user : Option (List Char)) (H P Q : List Char) : List Char :=
  S ++ ':' :: '/' :: '/' :: (authText user H ++ P ++ queryText Q)

/-- The URL with an opaque part that a canonical string is parsed to. -/
def opaqueURL (S O Q : List Char) : URL :=
  { Scheme := String.mk S, Opaque := String.mk O, RawQuery := String.mk Q }

/-- The canonical string of a URL with an opaque part. -/
def opaqueText (S O Q : List Char) : List Char := S ++ ':' :: (O ++ queryText Q)

/-- The path after `removeDupSlashes` and `removeTrailingSlash`. -/
def cleanPath (P : List Char) : List Char :=
  if (removeDupSlashes P).getLast? = some '/' then (removeDupSlashes P).dropLast
  else removeDupSlashes P

/-- The slash that `Escape` writes between the host and a relative path. -/
def pathSep (P H : List Char) : List Char :=
  if P ≠ [] ∧ P.head? ≠ some '/' ∧ H ≠ [] then ['/'] else []

/-- A host as it stands in a canonical string: not empty, made of ASCII bytes, with no
upper-case letter, no control byte, none of the delimiters `/`, `?`, `#`, `@` and no
percent sign. -/
def cleanHost (h : String) : Bool :=
  decide (h ≠ "") && h.data.all (fun c => decide (c.toNat < 128) && decide (c.toLower = c) &&
    !isCTL c && decide (c ≠ '/') && decide (c ≠ '?') && decide (c ≠ '#') && decide (c ≠ '@') &&
    decide (c ≠ '%'))

/-- What `url.Parse` guarantees about the URL it returns: no control byte and no `#`
outside the fragment, no `?` outside the query, no `/` in the userinfo, and an opaque
part that does not start with a slash. -/
def wellFormed (u : URL) : Prop :=
  (∀ c ∈ u.Opaque.data ++ userChars u ++ u.Path.data ++ u.RawQuery.data,
    isCTL c = false ∧ c ≠ '#') ∧
  '?' ∉ u.Opaque.data ++ userChars u ++ u.Path.data ∧
  '/' ∉ userChars u ∧
  u.Opaque.data.head? ≠ some '/'

end GoUrl

end Okto

namespace Okto

/-! # Theorems -/

/-! ## Go maps -/

namespace GoMap

variable {K V : Type} [DecidableEq K]

theorem get_delete (m : GoMap K V) (k k' : K) :
    (m.delete k).get k' = if k' = k then none else m.get k' := by
  induction m with
  | nil => simp [delete, get]
  | cons p rest ih =>
    obtain ⟨a, b⟩ := p
    simp only [delete, ne_eq, decide_not] at ih ⊢
    by_cases h : a = k
    · subst h
      by_cases h' : a = k'
      · subst h'; simpa [get] using ih
      · have h'' : ¬ k' = a := fun e => h' e.symm
        simpa [get, h', h''] using ih
    · by_cases h' : a = k'
      · subst h'; simp [get, h]
      · simpa [get, h, h'] using ih

theorem get_set (m : GoMap K V) (k k' : K) (v : V) :
    (m.set k v).get k' = if k' = k then some v else m.get k' := by
  by_cases h : k = k'
  · subst h; simp [set, get]
  · have h' : ¬ k' = k := fun e => h e.symm
    simp [set, get, h, h', get_delete]

theorem get_eq_none_iff (m : GoMap K V) (k : K) : m.get k = none ↔ k ∉ m.keys := by
  induction m with
  | nil => simp [get, keys]
  | cons p rest ih =>
    obtain ⟨a, b⟩ := p
    simp only [keys] at ih
    by_cases h : a = k
    · subst h; simp [get, keys]
    · have h' : ¬ k = a := fun e => h e.symm
      simp [get, keys, h, h', ih]

theorem mem_keys_iff (m : GoMap K V) (k : K) : k ∈ m.keys ↔ ∃ v, m.get k = some v := by
  by_cases h : m.get k = none
  · have := (get_eq_none_iff m k).1 h
    simp [h, this]
  · have hk : k ∈ m.keys := by
      by_contra hk
      exact h ((get_eq_none_iff m k).2 hk)
    obtain ⟨v, hv⟩ := Option.ne_none_iff_exists'.1 h
    simp [hk, hv]

end GoMap

/-! ## concurrent_map.go -/

namespace concurrentMap

variable {K V : Type} [DecidableEq K]

theorem SetIfAbsent_fst (c : GoMap K V) (k : K) (v : V) :
    (SetIfAbsent c k v).1 = true ↔ c.get k = none := by
  unfold SetIfAbsent
  cases h : c.get k <;> simp

theorem SetIfAbsent_of_absent (c : GoMap K V) (k : K) (v : V) (h : c.get k = none) :
    SetIfAbsent c k v = (true, c.set k v) := by
  unfold SetIfAbsent
  simp [h]

theorem SetIfAbsent_of_present (c : GoMap K V) (k : K) (v : V) (h : c.get k ≠ none) :
    SetIfAbsent c k v = (false, c) := by
  unfold SetIfAbsent
  cases h' : c.get k with
  | none => exact absurd h' h
  | some x => rfl

theorem serialize_present (c : GoMap K V) (k : K) (order : List V) (h : c.get k ≠ none) :
    (serialize c k order).1 = List.replicate order.length false := by
  induction order with
  | nil => rfl
  | cons v rest ih =>
    simp only [serialize, SetIfAbsent_of_present c k v h, List.length_cons,
      List.replicate_succ, ih]

theorem serialize_absent (c : GoMap K V) (k : K) (v : V) (order : List V)
    (h : c.get k = none) :
    (serialize c k (v :: order)).1 = true :: List.replicate order.length false := by
  have hp : (c.set k v).get k ≠ none := by simp [GoMap.get_set]
  simp only [serialize, SetIfAbsent_of_absent c k v h, serialize_present _ k order hp]

/-- C7: `SetIfAbsent(k, v)` returns true exactly when `k` is absent beforehand; when it
returns true the store afterwards maps `k` to `v` and every other key as before; when it
returns false the store is unchanged. -/
theorem SetIfAbsent_contract (c : GoMap K V) (k : K) (v : V) :
    ((SetIfAbsent c k v).1 = true ↔ c.get k = none) ∧
    ((SetIfAbsent c k v).1 = true →
      ∀ k', (SetIfAbsent c k v).2.get k' = if k' = k then some v else c.get k') ∧
    ((SetIfAbsent c k v).1 = false → (SetIfAbsent c k v).2 = c) := by
  refine ⟨SetIfAbsent_fst c k v, ?_, ?_⟩
  · intro h k'
    rw [SetIfAbsent_of_absent c k v ((SetIfAbsent_fst c k v).1 h)]
    exact GoMap.get_set c k k' v
  · intro h
    have hne : c.get k ≠ none := by
      intro hn
      rw [(SetIfAbsent_fst c k v).2 hn] at h
      exact Bool.noConfusion h
    rw [SetIfAbsent_of_present c k v hne]

/-- C6: when the key is absent and the calls on it are serialized in any order, exactly
one call returns true (the first one admitted) and all the others return false. -/
theorem SetIfAbsent_exactly_one (c : GoMap K V) (k : K) (calls order : List V)
    (hperm : order.Perm calls) (habsent : c.get k = none) (hne : calls ≠ []) :
    (serialize c k order).1.count true = 1 ∧
    (serialize c k order).1.count false = calls.length - 1 ∧
    (serialize c k order).1.head? = some true := by
  have hlen : order.length = calls.length := hperm.length_eq
  cases order with
  | nil =>
    have : calls = [] := List.length_eq_zero.1 (by simpa using hlen.symm)
    exact absurd this hne
  | cons v rest =>
    rw [serialize_absent c k v rest habsent]
    simp only [List.length_cons] at hlen
    refine ⟨?_, ?_, rfl⟩
    · simp [List.count_cons, List.count_replicate]
    · simp [List.count_cons, List.count_replicate]
      omega

theorem SetIfAbsent_exactly_one_witness :
    (serialize ([(1, "x")] : GoMap Nat String) 2 ["b", "c", "a"]).1.count true = 1 ∧
    (serialize ([(1, "x")] : GoMap Nat String) 2 ["b", "c", "a"]).1.count false = 3 - 1 ∧
    (serialize ([(1, "x")] : GoMap Nat String) 2 ["b", "c", "a"]).1.head? = some true :=
  SetIfAbsent_exactly_one [(1, "x")] 2 ["a", "b", "c"] ["b", "c", "a"] (by decide) (by decide)
    (by decide)

end concurrentMap

end Okto

namespace Okto

/-! ## filter.go -/

namespace filter

/-- The canonical string under which the loop of `Filter` considers a child, if any. -/
theorem step_eq (L : UrlLib) (parent : URL) (acc : List (Option URL) × List String)
    (child : String) :
    step L parent acc child =
      match ((L.Parse child).map (normalize L parent)).filter (fun k => decide (k ≠ "")) with
      | none => acc
      | some k => if k ∈ acc.2 then acc else (acc.1 ++ [L.Parse k], acc.2 ++ [k]) := by
  unfold step
  cases h : L.Parse child with
  | none => simp
  | some parsed =>
    by_cases hn : normalize L parent parsed = ""
    · simp [hn, Option.filter]
    · simp [hn, Option.filter]

theorem normalize_eq (L : UrlLib) (parent u : URL) :
    normalize L parent u =
      if u.Host ≠ "" ∧ u.Host ≠ parent.Host then ""
      else if u.Scheme ≠ "" ∧ u.Scheme ≠ "http" ∧ u.Scheme ≠ "https" then ""
      else L.NormalizeURL
        { u with Host := if u.Host = "" then parent.Host else u.Host,
                 Scheme := if u.Scheme = "" then parent.Scheme else u.Scheme } := by
  obtain ⟨sch, op, us, host, path, fq, rq, fr⟩ := u
  simp only [normalize]
  by_cases h1 : host = ""
  · subst h1
    by_cases h2 : sch = ""
    · subst h2; simp
    · by_cases h3 : sch = "http"
      · subst h3; simp
      · by_cases h4 : sch = "https"
        · subst h4; simp
        · simp [h2, h3, h4]
  · by_cases h0 : host = parent.Host
    · subst h0
      by_cases h2 : sch = ""
      · subst h2; simp [h1]
      · by_cases h3 : sch = "http"
        · subst h3; simp [h1]
        · by_cases h4 : sch = "https"
          · subst h4; simp [h1]
          · simp [h1, h2, h3, h4]
    · simp [h1, h0]

theorem key_eq (L : UrlLib) (parent : URL) (child : String) :
    ((L.Parse child).map (normalize L parent)).filter (fun k => decide (k ≠ "")) =
      (canonicalInScope L parent child).filter (fun k => decide (k ≠ "")) := by
  unfold canonicalInScope
  cases h : L.Parse child with
  | none => rfl
  | some u =>
    simp only [Option.map_some', Option.some_bind, normalize_eq]
    by_cases h1 : u.Host ≠ "" ∧ u.Host ≠ parent.Host
    · rw [if_pos h1, if_pos h1]
      rfl
    · rw [if_neg h1, if_neg h1]
      by_cases h2 : u.Scheme ≠ "" ∧ u.Scheme ≠ "http" ∧ u.Scheme ≠ "https"
      · rw [if_pos h2, if_pos h2]
        rfl
      · rw [if_neg h2, if_neg h2]

theorem mem_firstOccurrences (l : List String) (x : String) :
    x ∈ firstOccurrences l ↔ x ∈ l := by
  induction l with
  | nil => simp [firstOccurrences]
  | cons a rest ih =>
    by_cases h : x = a
    · simp [firstOccurrences, h]
    · simp [firstOccurrences, h, ih]

theorem firstOccurrences_nodup (l : List String) : (firstOccurrences l).Nodup := by
  induction l with
  | nil => simp [firstOccurrences]
  | cons a rest ih =>
    simp only [firstOccurrences, List.nodup_cons]
    exact ⟨by simp, ih.filter _⟩

theorem firstOccurrences_of_nodup (l : List String) (h : l.Nodup) :
    firstOccurrences l = l := by
  induction l with
  | nil => rfl
  | cons a rest ih =>
    rw [List.nodup_cons] at h
    simp only [firstOccurrences, ih h.2]
    congr 1
    apply List.filter_eq_self.2
    intro y hy
    have : y ≠ a := fun e => h.1 (e ▸ hy)
    simpa using this

/-- The state of the loop of `Filter` after a list of children, from any state. -/
theorem foldl_step (L : UrlLib) (parent : URL) (children : List String)
    (acc : List (Option URL) × List String) :
    children.foldl (step L parent) acc =
      (acc.1 ++ (((firstOccurrences (children.filterMap (fun c =>
          (canonicalInScope L parent c).filter (fun k => decide (k ≠ ""))))).filter
          (fun k => decide (k ∉ acc.2))).map L.Parse),
       acc.2 ++ ((firstOccurrences (children.filterMap (fun c =>
          (canonicalInScope L parent c).filter (fun k => decide (k ≠ ""))))).filter
          (fun k => decide (k ∉ acc.2)))) := by
  induction children generalizing acc with
  | nil => simp [firstOccurrences]
  | cons c cs ih =>
    rw [List.foldl_cons, ih, step_eq, key_eq]
    cases hk : (canonicalInScope L parent c).filter (fun k => decide (k ≠ "")) with
    | none => simp only [List.filterMap_cons, hk]
    | some k =>
      simp only [List.filterMap_cons, hk, firstOccurrences]
      by_cases hmem : k ∈ acc.2
      · have hfil : ∀ l : List String,
            (l.filter (fun y => decide (y ≠ k))).filter (fun y => decide (y ∉ acc.2)) =
              l.filter (fun y => decide (y ∉ acc.2)) := by
          intro l
          rw [List.filter_filter]
          apply List.filter_congr
          intro y _
          by_cases hy : y ∈ acc.2
          · simp [hy]
          · have : y ≠ k := fun e => hy (e ▸ hmem)
            simp [hy, this]
        simp only [hmem, if_true, List.filter_cons, not_true_eq_false, decide_False,
          Bool.false_eq_true, if_false, hfil]
      · have hfil : ∀ l : List String,
            l.filter (fun y => decide (y ∉ acc.2 ++ [k])) =
              (l.filter (fun y => decide (y ≠ k))).filter (fun y => decide (y ∉ acc.2)) := by
          intro l
          rw [List.filter_filter]
          apply List.filter_congr
          intro y _
          by_cases hy : y ∈ acc.2 <;> by_cases hyk : y = k <;> simp [hy, hyk]
        simp only [hmem, if_false, List.filter_cons, not_false_eq_true, decide_True, if_true,
          hfil, List.map_cons, List.append_assoc, List.singleton_append]

theorem FilterKeys_eq (L : UrlLib) (parent : URL) (children : List String) :
    FilterKeys L parent children =
      firstOccurrences (children.filterMap (fun c =>
        (canonicalInScope L parent c).filter (fun k => decide (k ≠ "")))) := by
  simp [FilterKeys, loop, foldl_step]

theorem Filter_eq_map (L : UrlLib) (parent : URL) (children : List String) :
    Filter L parent children = (FilterKeys L parent children).map L.Parse := by
  simp [Filter, FilterKeys, loop, foldl_step]

theorem FilterKeys_nodup (L : UrlLib) (parent : URL) (children : List String) :
    (FilterKeys L parent children).Nodup := by
  rw [FilterKeys_eq]
  exact firstOccurrences_nodup _

theorem mem_FilterKeys (L : UrlLib) (parent : URL) (children : List String) (k : String)
    (h : k ∈ FilterKeys L parent children) :
    k ≠ "" ∧ ∃ c ∈ children, canonicalInScope L parent c = some k := by
  rw [FilterKeys_eq, mem_firstOccurrences, List.mem_filterMap] at h
  obtain ⟨c, hc, hk⟩ := h
  cases hcs : canonicalInScope L parent c with
  | none => simp [hcs] at hk
  | some k' =>
    rw [hcs] at hk
    by_cases hne : k' = ""
    · simp [Option.filter, hne] at hk
    · simp [Option.filter, hne] at hk
      subst hk
      exact ⟨hne, c, hc, hcs⟩

theorem mem_Filter (L : UrlLib) (parent : URL) (children : List String) (v : Option URL)
    (h : v ∈ Filter L parent children) :
    ∃ k ∈ FilterKeys L parent children, L.Parse k = v := by
  rw [Filter_eq_map, List.mem_map] at h
  exact h

theorem FilterRef_eq (L : UrlLib) (parent : URL) (children : List String) :
    Filter L parent children = FilterRef L parent children := by
  rw [Filter_eq_map, FilterKeys_eq, FilterRef, List.filter_filterMap]

/-- C1 (amended): `Filter` equals the reference definition in which a child is dropped
when it fails to parse, when its non-empty host differs from the parent host, when its
non-empty scheme is neither http nor https, and when its canonical string is empty, and
in which a canonical string is kept only the first time it occurs; the accepted canonical
strings are pairwise distinct and the result lists their URLs in first-occurrence
order; on the input of `TestFilter` the result is the expected list. -/
theorem Filter_eq_reference :
    (∀ (L : UrlLib) (parent : URL) (children : List String),
      Filter L parent children = FilterRef L parent children ∧
      Filter L parent children = (FilterKeys L parent children).map L.Parse ∧
      (FilterKeys L parent children).Nodup) ∧
    (goUrl.Parse "http://abcd.com").map (fun parent => Filter goUrl parent
        ["http://abcd.com", "http://abcd.com/", "http://abcd.com/", "http://abcd.com/path",
         "http://abcd.com/path?param=1", "http://xyz.abcd.com/path?param=1",
         "http://notabcd.com"]) =
      some (["http://abcd.com", "http://abcd.com/path", "http://abcd.com/path?param=1"].map
        goUrl.Parse) :=
  ⟨fun L parent children =>
    ⟨FilterRef_eq L parent children, Filter_eq_map L parent children,
      FilterKeys_nodup L parent children⟩, by decide⟩

/-- C1 as stated fails: for a parent without scheme and host the empty child reference
is in scope and has the empty canonical string; the literal reference definition keeps
it, `Filter` drops it. -/
theorem Filter_ne_literal_reference :
    Filter goUrl {} [""] = [] ∧ FilterRefLiteral goUrl {} [""] = [goUrl.Parse ""] ∧
    Filter goUrl {} [""] ≠ FilterRefLiteral goUrl {} [""] := by
  decide

/-- C2 (amended): when the parent scheme is http or https, and the library parses the
canonical string of an http(s) URL back to an http(s) URL, every URL returned by
`Filter` has scheme http or https. -/
theorem Filter_scheme (L : UrlLib)
    (hlaw : ∀ u v, (u.Scheme = "http" ∨ u.Scheme = "https") →
      L.Parse (L.NormalizeURL u) = some v → (v.Scheme = "http" ∨ v.Scheme = "https"))
    (parent : URL) (hparent : parent.Scheme = "http" ∨ parent.Scheme = "https")
    (children : List String) (v : URL) (hv : some v ∈ Filter L parent children) :
    v.Scheme = "http" ∨ v.Scheme = "https" := by
  obtain ⟨k, hk, hpk⟩ := mem_Filter L parent children _ hv
  obtain ⟨_, c, _, hc⟩ := mem_FilterKeys L parent children k hk
  unfold canonicalInScope at hc
  cases hp : L.Parse c with
  | none => simp [hp] at hc
  | some u =>
    rw [hp, Option.some_bind] at hc
    by_cases h1 : u.Host ≠ "" ∧ u.Host ≠ parent.Host
    · rw [if_pos h1] at hc
      exact Option.noConfusion hc
    · rw [if_neg h1] at hc
      by_cases h2 : u.Scheme ≠ "" ∧ u.Scheme ≠ "http" ∧ u.Scheme ≠ "https"
      · rw [if_pos h2] at hc
        exact Option.noConfusion hc
      · rw [if_neg h2] at hc
        have hk' := Option.some.inj hc
        rw [← hk'] at hpk
        refine hlaw _ v ?_ hpk
        by_cases h3 : u.Scheme = ""
        · simpa [h3] using hparent
        · simp only [h3, if_false]
          by_contra hcon
          exact h2 ⟨h3, fun e => hcon (Or.inl e), fun e => hcon (Or.inr e)⟩

/-- C2 as stated fails: a relative reference inherits the scheme of the parent unchecked,
so under an ftp parent `Filter` returns an ftp URL. -/
theorem Filter_scheme_counterexample :
    ∃ v, some v ∈ Filter goUrl { Scheme := "ftp", Host := "abcd.com" } ["/x"] ∧
      ¬ (v.Scheme = "http" ∨ v.Scheme = "https") :=
  ⟨{ Scheme := "ftp", Host := "abcd.com", Path := "/x" }, by decide, by decide⟩

theorem filterMap_reproduced (L : UrlLib) (parent : URL) (l : List String)
    (h : ∀ k ∈ l, k ≠ "" ∧ reproduced L parent k = true) :
    (urlStrings L (l.map L.Parse)).filterMap (fun c =>
      ((L.Parse c).map (normalize L parent)).filter (fun k => decide (k ≠ ""))) = l := by
  induction l with
  | nil => rfl
  | cons k rest ih =>
    have hk := h k (List.mem_cons_self _ _)
    have ih' := ih (fun x hx => h x (List.mem_cons_of_mem _ hx))
    unfold urlStrings at ih' ⊢
    obtain ⟨hne, hr⟩ := hk
    unfold reproduced at hr
    cases hp : L.Parse k with
    | none => simp [hp] at hr
    | some v =>
      simp only [hp] at hr
      cases hw : L.Parse (L.UrlString v) with
      | none => simp [hw] at hr
      | some w =>
        simp only [hw] at hr
        have hn : normalize L parent w = k := by simpa using hr
        simp only [List.map_cons, hp, List.filterMap_cons, Option.map_some', hw, hn,
          Option.filter, ne_eq, hne, not_false_eq_true, decide_True, if_true]
        exact congrArg (fun t => k :: t) ih'

/-- When every canonical string accepted by `Filter(parent, children)` is reproduced,
filtering the strings of the returned URLs with the same parent returns the same list. -/
theorem Filter_refilter (L : UrlLib) (parent : URL) (children : List String)
    (h : ∀ k ∈ FilterKeys L parent children, reproduced L parent k = true) :
    Filter L parent (urlStrings L (Filter L parent children)) =
      Filter L parent children := by
  have hall : ∀ k ∈ FilterKeys L parent children, k ≠ "" ∧ reproduced L parent k = true :=
    fun k hk => ⟨(mem_FilterKeys L parent children k hk).1, h k hk⟩
  have hkeys : FilterKeys L parent (urlStrings L (Filter L parent children)) =
      FilterKeys L parent children := by
    rw [FilterKeys_eq L parent (urlStrings _ _)]
    have := filterMap_reproduced L parent _ hall
    simp only [key_eq] at this
    rw [Filter_eq_map, this]
    exact firstOccurrences_of_nodup _ (FilterKeys_nodup L parent children)
  rw [Filter_eq_map L parent (urlStrings _ _), hkeys, ← Filter_eq_map]

end filter

end Okto

namespace Okto

/-! ## The concrete URL library: the scheme survives canonicalization -/

namespace GoUrl

theorem parse_scheme (raw sch rest : List Char) (v : URL)
    (hs : getScheme raw = some (sch, rest)) (hne : raw ≠ ['*']) (h : parse raw = some v) :
    v.Scheme = String.mk (toLower sch) := by
  unfold parse at h
  rw [hs] at h
  simp only [hne, if_false] at h
  split_ifs at h <;> first
    | exact Option.noConfusion h
    | (cases h; rfl)

theorem Parse_scheme (s : String) (sch rest : List Char) (v : URL)
    (hs : getScheme (cut '#' s.data).1 = some (sch, rest)) (hne : (cut '#' s.data).1 ≠ ['*'])
    (h : Parse s = some v) : v.Scheme = String.mk (toLower sch) := by
  unfold Parse at h
  cases hp : parse (cut '#' s.data).1 with
  | none => simp [hp] at h
  | some u =>
    simp only [hp] at h
    cases h
    exact parse_scheme _ sch rest u hs hne hp

theorem removeTrailingSlash_scheme (u : URL) : (removeTrailingSlash u).Scheme = u.Scheme := by
  unfold removeTrailingSlash
  split_ifs <;> rfl

theorem Escape_data (x : URL) (h : x.Scheme ≠ "") :
    ∃ tail : List Char, (Escape x).data = x.Scheme.data ++ ':' :: tail := by
  unfold Escape
  simp only [h, ne_eq, not_false_eq_true, if_true, List.append_assoc, List.singleton_append]
  exact ⟨_, rfl⟩

theorem NormalizeURL_scheme (u : URL) (h : toLower u.Scheme.data ≠ []) :
    ∃ tail : List Char, (NormalizeURL u).data = toLower u.Scheme.data ++ ':' :: tail := by
  unfold NormalizeURL
  have hne : String.mk (toLower u.Scheme.data) ≠ "" := by
    intro e
    exact h (congrArg String.data e)
  obtain ⟨tail, ht⟩ := Escape_data (removeTrailingSlash
    { Scheme := String.mk (toLower u.Scheme.data), Opaque := u.Opaque, User := u.User,
      Host := String.mk (toLower u.Host.data), Path := String.mk (removeDupSlashes u.Path.data),
      ForceQuery := u.ForceQuery, RawQuery := String.mk (sortQuery u.RawQuery.data),
      Fragment := "" }) (by rw [removeTrailingSlash_scheme]; exact hne)
  rw [removeTrailingSlash_scheme] at ht
  exact ⟨tail, ht⟩

theorem Parse_http (tail : List Char) (s : String) (v : URL)
    (hs : s.data = 'h' :: 't' :: 't' :: 'p' :: ':' :: tail) (h : Parse s = some v) :
    v.Scheme = "http" := by
  have hcut : (cut '#' s.data).1 = 'h' :: 't' :: 't' :: 'p' :: ':' :: (cut '#' tail).1 := by
    rw [hs]
    simp [cut]
  have := Parse_scheme s ['h', 't', 't', 'p'] (cut '#' tail).1 v
    (by rw [hcut]; simp [getScheme, getSchemeAux, isAlpha, isSchemeTail])
    (by rw [hcut]; simp) h
  rw [this]
  decide

theorem Parse_https (tail : List Char) (s : String) (v : URL)
    (hs : s.data = 'h' :: 't' :: 't' :: 'p' :: 's' :: ':' :: tail) (h : Parse s = some v) :
    v.Scheme = "https" := by
  have hcut : (cut '#' s.data).1 =
      'h' :: 't' :: 't' :: 'p' :: 's' :: ':' :: (cut '#' tail).1 := by
    rw [hs]
    simp [cut]
  have := Parse_scheme s ['h', 't', 't', 'p', 's'] (cut '#' tail).1 v
    (by rw [hcut]; simp [getScheme, getSchemeAux, isAlpha, isSchemeTail])
    (by rw [hcut]; simp) h
  rw [this]
  decide

/-- The concrete library parses the canonical string of an http(s) URL back to an
http(s) URL. -/
theorem scheme_law (u v : URL) (hu : u.Scheme = "http" ∨ u.Scheme = "https")
    (h : goUrl.Parse (goUrl.NormalizeURL u) = some v) :
    v.Scheme = "http" ∨ v.Scheme = "https" := by
  change Parse (NormalizeURL u) = some v at h
  rcases hu with hu | hu
  · obtain ⟨tail, ht⟩ := NormalizeURL_scheme u (by rw [hu]; decide)
    rw [hu] at ht
    exact Or.inl (Parse_http tail _ v ht h)
  · obtain ⟨tail, ht⟩ := NormalizeURL_scheme u (by rw [hu]; decide)
    rw [hu] at ht
    exact Or.inr (Parse_https tail _ v ht h)

end GoUrl

namespace filter

theorem Filter_scheme_witness :
    some { Scheme := "http", Host := "abcd.com", Path := "/path" } ∈
      Filter goUrl { Scheme := "http", Host := "abcd.com" }
        ["http://abcd.com", "/path/", "mailto:a@abcd.com"] ∧
    (({ Scheme := "http", Host := "abcd.com", Path := "/path" } : URL).Scheme = "http" ∨
     ({ Scheme := "http", Host := "abcd.com", Path := "/path" } : URL).Scheme = "https") :=
  ⟨by decide,
   Filter_scheme goUrl GoUrl.scheme_law { Scheme := "http", Host := "abcd.com" } (by decide)
    ["http://abcd.com", "/path/", "mailto:a@abcd.com"]
    { Scheme := "http", Host := "abcd.com", Path := "/path" } (by decide)⟩

end filter

end Okto

namespace Okto

/-! ## fetcher.go -/

namespace fetcher

theorem getAttrLoop_eq (key : String) (attrs : List Attribute) :
    getAttrLoop key attrs =
      ((attrs.find? (fun a => decide (a.Key = key))).map Attribute.Val).getD "" := by
  induction attrs with
  | nil => rfl
  | cons a rest ih =>
    by_cases h : a.Key = key
    · simp [getAttrLoop, List.find?, h]
    · simp [getAttrLoop, List.find?, h, ih]

theorem extractLoop_eq (t : Token) (names : List String) :
    extractLoop t names =
      (names.findSome? (fun n => (attrValue t n).filter (fun v => decide (v ≠ "")))).toList := by
  induction names with
  | nil => rfl
  | cons n rest ih =>
    have hg : getAttr t n = (attrValue t n).getD "" := getAttrLoop_eq n t.Attr
    rw [extractLoop, List.findSome?_cons, hg]
    cases attrValue t n with
    | none =>
      have h0 : Option.filter (fun v : String => decide (v ≠ "")) none = none := rfl
      rw [h0]
      simp only [Option.getD_none, ne_eq, not_true_eq_false, if_false]
      exact ih
    | some v =>
      by_cases hv : v = ""
      · have h0 : Option.filter (fun v : String => decide (v ≠ "")) (some v) = none := by
          simp [Option.filter, hv]
        rw [h0]
        simp only [Option.getD_some, hv, ne_eq, not_true_eq_false, if_false]
        exact ih
      · have h0 : Option.filter (fun v : String => decide (v ≠ "")) (some v) = some v := by
          simp [Option.filter, hv]
        rw [h0]
        simp [hv]

theorem toList_length_le (o : Option String) : o.toList.length ≤ 1 := by
  cases o <;> simp

theorem extractAttrs_eq (t : Token) (tags : GoMap String (List String)) :
    extractAttrs t tags = extractRef t tags := by
  unfold extractAttrs extractRef
  cases tags.get t.Data with
  | none => rfl
  | some names => exact extractLoop_eq t names

theorem processBodyLoop_eq (body : List (TokenType × Token)) (acc : List String × List String) :
    processBodyLoop body acc =
      (acc.1 ++ (startTags body).flatMap (fun t => extractAttrs t linkTags),
       acc.2 ++ (startTags body).flatMap (fun t => extractAttrs t assetTags)) := by
  induction body generalizing acc with
  | nil => simp [processBodyLoop, startTags, beforeError]
  | cons e rest ih =>
    obtain ⟨ty, t⟩ := e
    cases ty <;>
      simp [processBodyLoop, startTags, beforeError, ih, List.flatMap_cons]

theorem find_nonEmpty_of_nodup (n : String) (attrs : List Attribute)
    (h : (attrs.map Attribute.Key).Nodup) :
    (attrs.find? (fun a => decide (a.Key = n ∧ a.Val ≠ ""))).map Attribute.Val =
      ((attrs.find? (fun a => decide (a.Key = n))).map Attribute.Val).filter
        (fun v => decide (v ≠ "")) := by
  induction attrs with
  | nil => rfl
  | cons a rest ih =>
    rw [List.map_cons, List.nodup_cons] at h
    by_cases hk : a.Key = n
    · by_cases hv : a.Val = ""
      · have hnone : rest.find? (fun a => decide (a.Key = n ∧ a.Val ≠ "")) = none := by
          rw [List.find?_eq_none]
          intro x hx hp
          have hxk : x.Key = n := by simpa using (of_decide_eq_true hp).1
          exact h.1 (List.mem_map.2 ⟨x, hx, by rw [hxk, hk]⟩)
        have hall : ∀ x ∈ rest, x.Key = n → x.Val = "" := by
          intro x hx hxk
          exact absurd (List.mem_map.2 ⟨x, hx, by rw [hxk, hk]⟩) h.1
        simpa [List.find?, hk, hv, Option.filter] using hall
      · simp [List.find?, hk, hv, Option.filter]
    · simpa [List.find?, hk] using ih h.2

/-- C10 (amended): for every tag and every table, `extractAttrs` returns the one-element
list holding the value of the first attribute name, in the listed order of the table for
the tag name, whose value in the tag is non-empty, where the value of a name in a tag is
that of its first occurrence (on a tag that repeats no attribute name this is the literal
reading); it returns the empty list when the tag name is not in the table or no listed
name has a non-empty value. `processBody` appends these contributions
of the start tags in document order, and the document of `TestFetcherProcessBody` gives
the expected links and assets. -/
theorem extractAttrs_processBody :
    (∀ (t : Token) (tags : GoMap String (List String)),
      extractAttrs t tags = extractRef t tags ∧ (extractAttrs t tags).length ≤ 1 ∧
      ((t.Attr.map Attribute.Key).Nodup → extractAttrs t tags = extractRefLiteral t tags)) ∧
    (∀ body : List (TokenType × Token),
      processBody body =
        ((startTags body).flatMap (fun t => extractAttrs t linkTags),
         (startTags body).flatMap (fun t => extractAttrs t assetTags))) ∧
    processBody testBody =
      (["http://head.profile", "http://a.href", "http://iframe.src", "http://q.cite"],
       ["http://link.href", "http://img.src", "http://script.src"]) := by
  refine ⟨fun t tags => ⟨extractAttrs_eq t tags, ?_, ?_⟩, fun body => ?_, by decide⟩
  · rw [extractAttrs_eq]
    unfold extractRef
    cases tags.get t.Data with
    | none => simp
    | some names => exact toList_length_le _
  · intro hnd
    rw [extractAttrs_eq]
    unfold extractRef extractRefLiteral attrValue
    cases tags.get t.Data with
    | none => rfl
    | some names =>
      simp only [find_nonEmpty_of_nodup _ t.Attr hnd]
  · simpa [processBody] using processBodyLoop_eq body ([], [])

/-- C10 as stated fails on a tag that repeats an attribute name: the tag carries `href`
with a non-empty value, yet `extractAttrs` reads the first `href`, which is empty, and
returns nothing. -/
theorem extractAttrs_counterexample :
    extractAttrs ⟨"a", [⟨"href", ""⟩, ⟨"href", "http://x"⟩]⟩ linkTags = [] ∧
    extractRefLiteral ⟨"a", [⟨"href", ""⟩, ⟨"href", "http://x"⟩]⟩ linkTags = ["http://x"] := by
  decide

end fetcher

end Okto

namespace Okto

/-! ## crawler.go: the atomic actions -/

namespace crawler

theorem getElem?_split {α : Type} (l : List α) (i : Nat) (t : α) (h : l[i]? = some t) :
    l = l.take i ++ t :: l.drop (i + 1) := by
  induction l generalizing i with
  | nil => simp at h
  | cons a rest ih =>
    cases i with
    | zero =>
      simp at h
      simp [h]
    | succ j =>
      simp at h
      simpa using ih j h

/-- Every step runs one task of the list for one action. -/
theorem Step_split (c : crawler) (s s' : State) (h : Step c s s') :
    s.crashed = false ∧ ∃ pre t post ts r, s.tasks = pre ++ t :: post ∧
      fire c s t = some (ts, r) ∧ s' = { r with tasks := pre ++ ts ++ post } := by
  obtain ⟨i, hi⟩ := h
  unfold stepAt at hi
  by_cases hc : s.crashed = true
  · simp [hc] at hi
  · have hc' : s.crashed = false := by simpa using hc
    rw [if_neg hc] at hi
    refine ⟨hc', ?_⟩
    cases ht : s.tasks[i]? with
    | none => rw [ht] at hi; exact Option.noConfusion hi
    | some t =>
      rw [ht] at hi
      dsimp only at hi
      cases hf : fire c s t with
      | none => rw [hf] at hi; exact Option.noConfusion hi
      | some r =>
        rw [hf] at hi
        obtain ⟨ts, r'⟩ := r
        exact ⟨s.tasks.take i, t, s.tasks.drop (i + 1), ts, r', getElem?_split _ _ _ ht,
          hf, (Option.some.inj hi).symm⟩

end crawler

end Okto

namespace Okto

namespace crawler

/-- The nine atomic actions: every step of a crawl is one of them. -/
theorem Step_cases (c : crawler) (s s' : State) (h : Step c s s') {P : Prop}
    (claimOk : ∀ pre post u, s.crashed = false → s.tasks = pre ++ Task.spawned u :: post →
      s.visited.get (c.lib.UrlString u) = none →
      s' = { s with tasks := pre ++ [Task.claimed u] ++ post,
                    visited := s.visited.set (c.lib.UrlString u) (),
                    claimedLog := s.claimedLog ++ [u] } → P)
    (claimFail : ∀ pre post u, s.crashed = false → s.tasks = pre ++ Task.spawned u :: post →
      s.visited.get (c.lib.UrlString u) ≠ none →
      s' = { s with tasks := pre ++ [] ++ post, wg := s.wg - 1 } → P)
    (skip : ∀ pre post u, s.crashed = false → s.tasks = pre ++ Task.claimed u :: post →
      shouldCrawl u = false →
      s' = { s with tasks := pre ++ [] ++ post,
                    data := s.data.set (c.lib.UrlString u) none, wg := s.wg - 1 } → P)
    (acquire : ∀ pre post u, s.crashed = false → s.tasks = pre ++ Task.claimed u :: post →
      shouldCrawl u = true → s.connSem < c.maxConn →
      s' = { s with tasks := pre ++ [Task.fetching u] ++ post, connSem := s.connSem + 1,
                    fetchLog := s.fetchLog ++ [c.lib.UrlString u] } → P)
    (fetchErr : ∀ pre post u, s.crashed = false → s.tasks = pre ++ Task.fetching u :: post →
      c.fetcher (c.lib.UrlString u) = none →
      s' = { s with tasks := pre ++ [] ++ post, connSem := s.connSem - 1, wg := s.wg - 1 } → P)
    (fetchOk : ∀ pre post u r, s.crashed = false → s.tasks = pre ++ Task.fetching u :: post →
      c.fetcher (c.lib.UrlString u) = some r →
      s' = { s with tasks := pre ++ [Task.fetched u r] ++ post, connSem := s.connSem - 1 } → P)
    (crash : ∀ pre post u r, s.crashed = false → s.tasks = pre ++ Task.fetched u r :: post →
      derefAll (filter.Filter c.lib u r.links) = none →
      s' = { s with tasks := pre ++ [] ++ post, crashed := true, wg := s.wg - 1 } → P)
    (record : ∀ pre post u r urls, s.crashed = false →
      s.tasks = pre ++ Task.fetched u r :: post →
      derefAll (filter.Filter c.lib u r.links) = some urls →
      s' = { s with tasks := pre ++ [Task.recorded u urls] ++ post,
                    data := s.data.set (c.lib.UrlString u)
                      (some { links := urls.map c.lib.UrlString, assets := r.assets }) } → P)
    (spawn : ∀ pre post u urls, s.crashed = false →
      s.tasks = pre ++ Task.recorded u urls :: post →
      s' = { s with tasks := pre ++ urls.reverse.map Task.spawned ++ post,
                    wg := s.wg + urls.length - 1 } → P) : P := by
  obtain ⟨hc, pre, t, post, ts, r, htasks, hfire, hs'⟩ := Step_split c s s' h
  cases t with
  | spawned u =>
    rw [fire] at hfire
    cases hv : s.visited.get (c.lib.UrlString u) with
    | none =>
      rw [concurrentMap.SetIfAbsent_of_absent _ _ _ hv] at hfire
      have := Option.some.inj hfire
      obtain ⟨h1, h2⟩ := Prod.mk.inj this
      subst h1 h2
      exact claimOk pre post u hc htasks hv hs'
    | some x =>
      have hv' : s.visited.get (c.lib.UrlString u) ≠ none := by simp [hv]
      rw [concurrentMap.SetIfAbsent_of_present _ _ _ hv'] at hfire
      have := Option.some.inj hfire
      obtain ⟨h1, h2⟩ := Prod.mk.inj this
      subst h1 h2
      exact claimFail pre post u hc htasks hv' hs'
  | claimed u =>
    rw [fire] at hfire
    by_cases hsc : shouldCrawl u = true
    · simp only [hsc, not_true_eq_false, if_false] at hfire
      by_cases hlt : s.connSem < c.maxConn
      · simp only [hlt, if_true] at hfire
        obtain ⟨h1, h2⟩ := Prod.mk.inj (Option.some.inj hfire)
        subst h1 h2
        exact acquire pre post u hc htasks hsc hlt hs'
      · simp only [hlt, if_false] at hfire
        exact Option.noConfusion hfire
    · have hsc' : shouldCrawl u = false := by simpa using hsc
      simp only [hsc', Bool.false_eq_true, not_false_eq_true, if_true] at hfire
      obtain ⟨h1, h2⟩ := Prod.mk.inj (Option.some.inj hfire)
      subst h1 h2
      exact skip pre post u hc htasks hsc' hs'
  | fetching u =>
    rw [fire] at hfire
    cases hf : c.fetcher (c.lib.UrlString u) with
    | none =>
      simp only [hf] at hfire
      obtain ⟨h1, h2⟩ := Prod.mk.inj (Option.some.inj hfire)
      subst h1 h2
      exact fetchErr pre post u hc htasks hf hs'
    | some r =>
      simp only [hf] at hfire
      obtain ⟨h1, h2⟩ := Prod.mk.inj (Option.some.inj hfire)
      subst h1 h2
      exact fetchOk pre post u r hc htasks hf hs'
  | fetched u r0 =>
    rw [fire] at hfire
    cases hd : derefAll (filter.Filter c.lib u r0.links) with
    | none =>
      simp only [hd] at hfire
      obtain ⟨h1, h2⟩ := Prod.mk.inj (Option.some.inj hfire)
      subst h1 h2
      exact crash pre post u r0 hc htasks hd hs'
    | some urls =>
      simp only [hd] at hfire
      obtain ⟨h1, h2⟩ := Prod.mk.inj (Option.some.inj hfire)
      subst h1 h2
      exact record pre post u r0 urls hc htasks hd hs'
  | recorded u urls =>
    rw [fire] at hfire
    obtain ⟨h1, h2⟩ := Prod.mk.inj (Option.some.inj hfire)
    subst h1 h2
    exact spawn pre post u urls hc htasks hs'

end crawler

end Okto

namespace Okto

namespace crawler

/-! ## crawler.go: the invariant -/

theorem GoMap.keys_set_nodup {K V : Type} [DecidableEq K] (m : GoMap K V) (k : K) (v : V)
    (h : m.keys.Nodup) : (m.set k v).keys.Nodup := by
  unfold GoMap.set GoMap.keys GoMap.delete
  rw [List.map_cons, List.nodup_cons]
  refine ⟨?_, ?_⟩
  · intro hmem
    obtain ⟨p, hp, hpk⟩ := List.mem_map.1 hmem
    have := (List.mem_filter.1 hp).2
    simp at this
    exact this hpk
  · exact (h.sublist (List.Sublist.map _ (List.filter_sublist _)))

theorem activeKeys_append (c : crawler) (l1 l2 : List Task) :
    activeKeys c (l1 ++ l2) = activeKeys c l1 ++ activeKeys c l2 := by
  simp [activeKeys]

theorem mem_activeKeys (c : crawler) (l : List Task) (k : String) :
    k ∈ activeKeys c l ↔ ∃ t ∈ l, ∃ u, t.active? = some u ∧ c.lib.UrlString u = k := by
  simp only [activeKeys, List.mem_filterMap, Option.map_eq_some']

theorem activeKeys_spawned (c : crawler) (urls : List URL) :
    activeKeys c (urls.map Task.spawned) = [] := by
  induction urls with
  | nil => rfl
  | cons u rest ih =>
    simp only [activeKeys, List.map_cons, List.filterMap_cons, Task.active?, Option.map_none']
    exact ih

theorem inj_of_nodup_map {α β : Type} (f : α → β) (l : List α) (h : (l.map f).Nodup)
    (a b : α) (ha : a ∈ l) (hb : b ∈ l) (hab : f a = f b) : a = b :=
  List.inj_on_of_nodup_map h ha hb hab

/-- The other running tasks hold other strings than the task that takes the step. -/
theorem Inv.others {c : crawler} {s : State} (inv : Inv c s) {pre post : List Task}
    {t : Task} {u : URL} (htasks : s.tasks = pre ++ t :: post) (ht : t.active? = some u)
    (t' : Task) (hmem : t' ∈ pre ∨ t' ∈ post) (u' : URL) (ht' : t'.active? = some u') :
    c.lib.UrlString u' ≠ c.lib.UrlString u := by
  have hnd := inv.active_nodup
  rw [htasks, activeKeys_append] at hnd
  have hcons : activeKeys c (t :: post) = c.lib.UrlString u :: activeKeys c post := by
    simp [activeKeys, ht]
  rw [hcons] at hnd
  have hnd' := List.nodup_append.1 hnd
  intro e
  rcases hmem with h | h
  · have h1 : c.lib.UrlString u' ∈ activeKeys c pre := (mem_activeKeys c pre _).2 ⟨t', h, u', ht', rfl⟩
    exact hnd'.2.2 h1 (by rw [e]; exact List.mem_cons_self _ _)
  · have h1 : c.lib.UrlString u' ∈ activeKeys c post := (mem_activeKeys c post _).2 ⟨t', h, u', ht', rfl⟩
    rw [e] at h1
    exact (List.nodup_cons.1 hnd'.2.1).1 h1

/-- The strings of the other running tasks stay pairwise distinct. -/
theorem Inv.others_nodup {c : crawler} {s : State} (inv : Inv c s) {pre post : List Task}
    {t : Task} (htasks : s.tasks = pre ++ t :: post) :
    (activeKeys c pre ++ activeKeys c post).Nodup := by
  have hnd := inv.active_nodup
  rw [htasks, activeKeys_append] at hnd
  have hsub : (activeKeys c pre ++ activeKeys c post).Sublist
      (activeKeys c pre ++ activeKeys c (t :: post)) := by
    apply List.Sublist.append_left
    unfold activeKeys
    rw [List.filterMap_cons]
    cases (t.active?.map c.lib.UrlString) with
    | none => exact List.Sublist.refl _
    | some k => exact List.sublist_cons_self _ _
  exact hnd.sublist hsub

/-- A URL that no task runs after the step was run by no task before it, or by the task
that takes the step. -/
theorem finished_before {s : State} {pre post ts : List Task} {t : Task}
    (htasks : s.tasks = pre ++ t :: post) (u : URL)
    (h : ∀ t' ∈ pre ++ ts ++ post, t'.active? ≠ some u) :
    finished s u ∨ t.active? = some u := by
  by_cases ht : t.active? = some u
  · exact Or.inr ht
  · left
    intro t' ht'
    rw [htasks] at ht'
    simp only [List.mem_append, List.mem_cons] at ht'
    rcases ht' with h1 | h1 | h1
    · exact h t' (by simp [h1])
    · rw [h1]; exact ht
    · exact h t' (by simp [h1])

theorem Inv_init (c : crawler) : Inv c (init c) where
  wg_eq := rfl
  visited_iff := by intro k; simp [init, GoMap.get]
  claimed_nodup := by simp [init]
  active_nodup := by simp [init, activeKeys, Task.active?]
  active_claimed := by intro t ht u hu; simp [init] at ht; subst ht; simp [Task.active?] at hu
  fetch_nodup := by simp [init]
  fetch_claimed := by intro k hk; simp [init] at hk
  phase := by intro t ht; simp [init] at ht; subst ht; exact True.intro
  done := by intro u hu; simp [init] at hu
  done_deref := by intro _ u hu; simp [init] at hu
  data_claimed := by intro k hk; simp [init, GoMap.get] at hk
  data_nodup := by simp [init, GoMap.keys]
  sem_eq := by simp [init, Task.isFetching]
  sem_le := by simp [init]

end crawler

end Okto

namespace Okto

namespace crawler

theorem mem_of_mem_others {s : State} {pre post : List Task} {t : Task}
    (htasks : s.tasks = pre ++ t :: post) (t' : Task) (h : t' ∈ pre ∨ t' ∈ post) :
    t' ∈ s.tasks := by
  rw [htasks]
  rcases h with h | h
  · exact List.mem_append_left _ h
  · exact List.mem_append_right _ (List.mem_cons_of_mem _ h)

theorem mem_replace {pre post ts : List Task} {t' : Task} (h : t' ∈ pre ++ ts ++ post) :
    t' ∈ ts ∨ (t' ∈ pre ∨ t' ∈ post) := by
  simp only [List.mem_append] at h
  tauto

theorem Inv_claimOk {c : crawler} {s : State} (inv : Inv c s) {pre post : List Task} {u : URL}
    (htasks : s.tasks = pre ++ Task.spawned u :: post)
    (hv : s.visited.get (c.lib.UrlString u) = none) :
    Inv c { s with tasks := pre ++ [Task.claimed u] ++ post,
                   visited := s.visited.set (c.lib.UrlString u) (),
                   claimedLog := s.claimedLog ++ [u] } := by
  have hk : c.lib.UrlString u ∉ s.claimedLog.map c.lib.UrlString := by
    intro hmem
    exact (inv.visited_iff _).2 hmem hv
  have hsub := mem_of_mem_others htasks
  have hfin : ∀ u', (∀ t' ∈ pre ++ [Task.claimed u] ++ post, t'.active? ≠ some u') →
      finished s u' ∧ u' ≠ u := by
    intro u' h
    refine ⟨?_, ?_⟩
    · rcases finished_before htasks u' h with h1 | h1
      · exact h1
      · simp [Task.active?] at h1
    · intro e
      exact h (Task.claimed u) (by simp) (by simp [Task.active?, e])
  refine
    { wg_eq := ?_, visited_iff := ?_, claimed_nodup := ?_, active_nodup := ?_,
      active_claimed := ?_, fetch_nodup := inv.fetch_nodup, fetch_claimed := ?_,
      phase := ?_,
      done := ?_, done_deref := ?_, data_claimed := ?_, data_nodup := inv.data_nodup,
      sem_eq := ?_, sem_le := inv.sem_le }
  · have := inv.wg_eq
    rw [htasks] at this
    simpa using this
  · intro k
    show (s.visited.set (c.lib.UrlString u) ()).get k ≠ none ↔ _
    rw [GoMap.get_set]
    by_cases hku : k = c.lib.UrlString u
    · simp [hku]
    · have := inv.visited_iff k
      simp only [hku, if_false, List.map_append, List.mem_append, List.map_cons, List.map_nil,
        List.mem_singleton, or_false]
      exact this
  · show ((s.claimedLog ++ [u]).map c.lib.UrlString).Nodup
    rw [List.map_append, List.nodup_append]
    refine ⟨inv.claimed_nodup, by simp, ?_⟩
    intro a ha hb
    simp at hb
    exact hk (hb ▸ ha)
  · show (activeKeys c (pre ++ [Task.claimed u] ++ post)).Nodup
    have hnd := inv.others_nodup htasks
    rw [activeKeys_append, activeKeys_append]
    have h1 : activeKeys c [Task.claimed u] = [c.lib.UrlString u] := rfl
    rw [h1]
    have hnot : ∀ l, (∀ t' ∈ l, t' ∈ s.tasks) → c.lib.UrlString u ∉ activeKeys c l := by
      intro l hl hmem
      obtain ⟨t', ht', u', hu', hku⟩ := (mem_activeKeys c l _).1 hmem
      exact hk (List.mem_map.2 ⟨u', inv.active_claimed t' (hl t' ht') u' hu', hku⟩)
    have hpre := hnot pre (fun t' h => hsub t' (Or.inl h))
    have hpost := hnot post (fun t' h => hsub t' (Or.inr h))
    rw [List.nodup_append] at hnd ⊢
    refine ⟨?_, hnd.2.1, ?_⟩
    · rw [List.nodup_append]
      refine ⟨hnd.1, by simp, ?_⟩
      intro a ha hb
      simp at hb
      exact hpre (hb ▸ ha)
    · intro a ha hb
      simp only [List.mem_append, List.mem_singleton] at ha
      rcases ha with ha | ha
      · exact hnd.2.2 ha hb
      · exact hpost (ha ▸ hb)
  · intro t' ht' u' hu'
    show u' ∈ s.claimedLog ++ [u]
    rcases mem_replace ht' with h | h
    · simp at h
      subst h
      simp [Task.active?] at hu'
      simp [hu']
    · exact List.mem_append_left _ (inv.active_claimed t' (hsub t' h) u' hu')
  · intro k hk'
    obtain ⟨u', hu', h⟩ := inv.fetch_claimed k hk'
    exact ⟨u', List.mem_append_left _ hu', h⟩
  · intro t' ht'
    rcases mem_replace ht' with h | h
    · simp at h
      subst h
      refine ⟨?_, ?_⟩
      · intro hmem
        obtain ⟨u'', hu'', h, _⟩ := inv.fetch_claimed _ hmem
        exact hk (List.mem_map.2 ⟨u'', hu'', h⟩)
      · by_contra hne
        exact hk (inv.data_claimed _ hne)
    · exact inv.phase t' (hsub _ h)
  · intro u' hu' hf
    obtain ⟨hf', hne⟩ := hfin u' hf
    have hmem : u' ∈ s.claimedLog := by
      rcases List.mem_append.1 hu' with h | h
      · exact h
      · simp at h; exact absurd h hne
    exact inv.done u' hmem hf'
  · intro hcr u' hu' hf
    obtain ⟨hf', hne⟩ := hfin u' hf
    have hmem : u' ∈ s.claimedLog := by
      rcases List.mem_append.1 hu' with h | h
      · exact h
      · simp at h; exact absurd h hne
    exact inv.done_deref hcr u' hmem hf'
  · intro k hk'
    have := inv.data_claimed k hk'
    show k ∈ (s.claimedLog ++ [u]).map c.lib.UrlString
    rw [List.map_append]
    exact List.mem_append_left _ this
  · have := inv.sem_eq
    rw [htasks] at this
    simpa [List.countP_append, List.countP_cons, Task.isFetching] using this

end crawler

end Okto

namespace Okto

namespace crawler

theorem phaseOk_data_set (c : crawler) (fl : List String)
    (data : GoMap String (Option PageData)) (k : String) (v : Option PageData) (t : Task)
    (hne : ∀ u, t.active? = some u → c.lib.UrlString u ≠ k) (h : phaseOk c fl data t) :
    phaseOk c fl (data.set k v) t := by
  cases t with
  | spawned u => exact True.intro
  | claimed u =>
    have := hne u rfl
    simp only [phaseOk, GoMap.get_set, this, if_false] at h ⊢
    exact h
  | fetching u =>
    have := hne u rfl
    simp only [phaseOk, GoMap.get_set, this, if_false] at h ⊢
    exact h
  | fetched u r =>
    have := hne u rfl
    simp only [phaseOk, GoMap.get_set, this, if_false] at h ⊢
    exact h
  | recorded u urls =>
    have := hne u rfl
    simp only [phaseOk, GoMap.get_set, this, if_false] at h ⊢
    exact h

theorem phaseOk_fetchLog_append (c : crawler) (fl : List String)
    (data : GoMap String (Option PageData)) (k : String) (t : Task)
    (hne : ∀ u, t.active? = some u → c.lib.UrlString u ≠ k) (h : phaseOk c fl data t) :
    phaseOk c (fl ++ [k]) data t := by
  cases t with
  | spawned u => exact True.intro
  | claimed u =>
    have := hne u rfl
    simp only [phaseOk, List.mem_append, List.mem_singleton, this, or_false] at h ⊢
    exact h
  | fetching u =>
    simp only [phaseOk, List.mem_append] at h ⊢
    exact ⟨h.1, Or.inl h.2.1, h.2.2⟩
  | fetched u r =>
    simp only [phaseOk, List.mem_append] at h ⊢
    exact ⟨h.1, Or.inl h.2.1, h.2.2⟩
  | recorded u urls =>
    simp only [phaseOk, List.mem_append] at h ⊢
    exact ⟨h.1, Or.inl h.2.1, h.2.2⟩

/-- The invariant is kept by a step that leaves the visited store alone: the running
task is replaced by tasks for the same URL or by spawned tasks, the fetch log grows by
at most the string of the task, and the results store changes at most there. -/
theorem Inv_frame {c : crawler} {s : State} (inv : Inv c s) {pre post ts : List Task}
    {t : Task} (htasks : s.tasks = pre ++ t :: post)
    (w n : Nat) (b : Bool) (fl : List String) (d : GoMap String (Option PageData))
    (hw : w = (pre ++ ts ++ post).length)
    (hkeys : ∀ t' ∈ ts, ∀ u', t'.active? = some u' → t.active? = some u')
    (hlen : (activeKeys c ts).length ≤ 1)
    (hfl : fl = s.fetchLog ∨
      ∃ u, t = Task.claimed u ∧ shouldCrawl u = true ∧ fl = s.fetchLog ++ [c.lib.UrlString u])
    (hd : d = s.data ∨ ∃ u v, t.active? = some u ∧ d = s.data.set (c.lib.UrlString u) v)
    (hphase : ∀ t' ∈ ts, phaseOk c fl d t')
    (hdone : ∀ u, t.active? = some u → (∀ t' ∈ ts, t'.active? ≠ some u) →
      d.get (c.lib.UrlString u) = outcome c u ∧
      (shouldCrawl u = true → c.lib.UrlString u ∈ fl) ∧
      (b = false → shouldCrawl u = true → ∀ r, c.fetcher (c.lib.UrlString u) = some r →
        derefAll (filter.Filter c.lib u r.links) ≠ none))
    (hcr : b = false → s.crashed = false)
    (hn : n = (pre ++ ts ++ post).countP Task.isFetching) (hnle : n ≤ c.maxConn) :
    Inv c { s with tasks := pre ++ ts ++ post, wg := w, data := d, connSem := n,
                   crashed := b, fetchLog := fl } := by
  have hsub := mem_of_mem_others htasks
  have htmem : t ∈ s.tasks := by rw [htasks]; simp
  have hflsub : ∀ k, k ∈ s.fetchLog → k ∈ fl := by
    intro k hk
    rcases hfl with h | ⟨u, _, _, h⟩
    · rw [h]; exact hk
    · rw [h]; exact List.mem_append_left _ hk
  -- a finished URL differs in its string from the URL of the task that takes the step
  have hother : ∀ u u', u' ∈ s.claimedLog → finished s u' → t.active? = some u →
      c.lib.UrlString u' ≠ c.lib.UrlString u := by
    intro u u' hu' hf ht e
    have hu : u ∈ s.claimedLog := inv.active_claimed t htmem u ht
    have := inj_of_nodup_map _ _ inv.claimed_nodup u' u hu' hu e
    exact hf t htmem (this ▸ ht)
  have hdget : ∀ u', u' ∈ s.claimedLog → finished s u' →
      d.get (c.lib.UrlString u') = s.data.get (c.lib.UrlString u') := by
    intro u' hu' hf
    rcases hd with h | ⟨u, v, ht, h⟩
    · rw [h]
    · rw [h, GoMap.get_set, if_neg (hother u u' hu' hf ht)]
  refine
    { wg_eq := hw, visited_iff := inv.visited_iff, claimed_nodup := inv.claimed_nodup,
      active_nodup := ?_, active_claimed := ?_, fetch_nodup := ?_, fetch_claimed := ?_,
      phase := ?_, done := ?_, done_deref := ?_, data_claimed := ?_, data_nodup := ?_,
      sem_eq := hn, sem_le := hnle }
  · show (activeKeys c (pre ++ ts ++ post)).Nodup
    rw [activeKeys_append, activeKeys_append]
    cases hk : activeKeys c ts with
    | nil => simpa using inv.others_nodup htasks
    | cons k rest =>
      have hrest : rest = [] := by
        rw [hk] at hlen
        simpa using hlen
      subst hrest
      have hmem : k ∈ activeKeys c ts := by rw [hk]; simp
      obtain ⟨t', ht', u', hu', hku⟩ := (mem_activeKeys c ts k).1 hmem
      have ht := hkeys t' ht' u' hu'
      have hnd := inv.active_nodup
      rw [htasks, activeKeys_append] at hnd
      have hcons : activeKeys c (t :: post) = k :: activeKeys c post := by
        simp [activeKeys, ht, hku]
      rw [hcons] at hnd
      simpa using hnd
  · intro t' ht' u' hu'
    rcases mem_replace ht' with h | h
    · exact inv.active_claimed t htmem u' (hkeys t' h u' hu')
    · exact inv.active_claimed t' (hsub t' h) u' hu'
  · show fl.Nodup
    rcases hfl with h | ⟨u, ht, _, h⟩
    · rw [h]; exact inv.fetch_nodup
    · rw [h, List.nodup_append]
      refine ⟨inv.fetch_nodup, by simp, ?_⟩
      intro a ha hb
      simp at hb
      have := inv.phase t htmem
      rw [ht] at this
      exact this.1 (hb ▸ ha)
  · intro k hk
    show ∃ u ∈ s.claimedLog, _
    rcases hfl with h | ⟨u, ht, hsc, h⟩
    · rw [h] at hk; exact inv.fetch_claimed k hk
    · rw [h] at hk
      rcases List.mem_append.1 hk with h1 | h1
      · exact inv.fetch_claimed k h1
      · simp at h1
        exact ⟨u, inv.active_claimed t htmem u (by rw [ht]; rfl), h1.symm, hsc⟩
  · intro t' ht'
    show phaseOk c fl d t'
    rcases mem_replace ht' with h | h
    · exact hphase t' h
    · have h0 := inv.phase t' (hsub t' h)
      have h1 : phaseOk c fl s.data t' := by
        rcases hfl with hf | ⟨u, ht, _, hf⟩
        · rw [hf]; exact h0
        · rw [hf]
          exact phaseOk_fetchLog_append c _ _ _ t'
            (fun u' hu' => inv.others htasks (by rw [ht]; rfl) t' h u' hu') h0
      rcases hd with hd' | ⟨u, v, ht, hd'⟩
      · rw [hd']; exact h1
      · rw [hd']
        exact phaseOk_data_set c _ _ _ _ t' (fun u' hu' => inv.others htasks ht t' h u' hu') h1
  · intro u' hu' hf
    show d.get (c.lib.UrlString u') = outcome c u' ∧ (shouldCrawl u' = true → _ ∈ fl)
    rcases finished_before htasks u' hf with h1 | h1
    · have := inv.done u' hu' h1
      rw [hdget u' hu' h1]
      exact ⟨this.1, fun hsc => hflsub _ (this.2 hsc)⟩
    · have := hdone u' h1 (fun t' ht' => hf t' (by simp [ht']))
      exact ⟨this.1, this.2.1⟩
  · intro hb u' hu' hf
    rcases finished_before htasks u' hf with h1 | h1
    · exact inv.done_deref (hcr hb) u' hu' h1
    · exact (hdone u' h1 (fun t' ht' => hf t' (by simp [ht']))).2.2 hb
  · intro k hk
    show k ∈ s.claimedLog.map c.lib.UrlString
    rcases hd with h | ⟨u, v, ht, h⟩
    · rw [h] at hk; exact inv.data_claimed k hk
    · change d.get k ≠ none at hk
      rw [h, GoMap.get_set] at hk
      by_cases hku : k = c.lib.UrlString u
      · rw [hku]
        exact List.mem_map.2 ⟨u, inv.active_claimed t htmem u ht, rfl⟩
      · rw [if_neg hku] at hk
        exact inv.data_claimed k hk
  · show d.keys.Nodup
    rcases hd with h | ⟨u, v, _, h⟩
    · rw [h]; exact inv.data_nodup
    · rw [h]; exact GoMap.keys_set_nodup _ _ _ inv.data_nodup

end crawler

end Okto

namespace Okto

namespace crawler

theorem countP_spawned (urls : List URL) :
    (urls.map Task.spawned).countP Task.isFetching = 0 := by
  induction urls with
  | nil => rfl
  | cons u rest ih =>
    rw [List.map_cons, List.countP_cons, ih]
    rfl

theorem outcome_skip (c : crawler) (u : URL) (h : shouldCrawl u = false) :
    outcome c u = some none := by
  simp [outcome, h]

theorem outcome_fetched (c : crawler) (u : URL) (r : FetchResult) (h : shouldCrawl u = true)
    (hf : c.fetcher (c.lib.UrlString u) = some r) :
    outcome c u = (derefAll (filter.Filter c.lib u r.links)).map
      (fun urls => some { links := urls.map c.lib.UrlString, assets := r.assets }) := by
  simp [outcome, h, hf]

theorem outcome_failed (c : crawler) (u : URL) (h : shouldCrawl u = true)
    (hf : c.fetcher (c.lib.UrlString u) = none) : outcome c u = none := by
  simp [outcome, h, hf]

/-- Every step keeps the invariant. -/
theorem Inv_step (c : crawler) (s s' : State) (inv : Inv c s) (h : Step c s s') :
    Inv c s' := by
  have hwg := inv.wg_eq
  have hsem := inv.sem_eq
  have hle := inv.sem_le
  refine Step_cases c s s' h ?claimOk ?claimFail ?skip ?acquire ?fetchErr ?fetchOk ?crash
    ?record ?spawn
  case claimOk =>
    intro pre post u _ htasks hv hs'
    subst hs'
    exact Inv_claimOk inv htasks hv
  case claimFail =>
    intro pre post u _ htasks hv hs'
    subst hs'
    rw [htasks] at hwg hsem
    refine Inv_frame inv htasks (s.wg - 1) s.connSem s.crashed s.fetchLog s.data ?_ ?_ ?_
      (Or.inl rfl) (Or.inl rfl) ?_ ?_ id ?_ hle
    · simp at hwg ⊢; omega
    · intro t' ht'; simp at ht'
    · simp [activeKeys]
    · intro t' ht'; simp at ht'
    · intro u' hu'; simp [Task.active?] at hu'
    · simpa [List.countP_append, List.countP_cons, Task.isFetching] using hsem
  case skip =>
    intro pre post u _ htasks hsc hs'
    subst hs'
    rw [htasks] at hwg hsem
    refine Inv_frame inv htasks (s.wg - 1) s.connSem s.crashed s.fetchLog
      (s.data.set (c.lib.UrlString u) none) ?_ ?_ ?_
      (Or.inl rfl) (Or.inr ⟨u, none, rfl, rfl⟩) ?_ ?_ id ?_ hle
    · simp at hwg ⊢; omega
    · intro t' ht'; simp at ht'
    · simp [activeKeys]
    · intro t' ht'; simp at ht'
    · intro u' hu' _
      simp [Task.active?] at hu'
      subst hu'
      refine ⟨?_, ?_, ?_⟩
      · rw [GoMap.get_set, if_pos rfl, outcome_skip c u hsc]
      · intro h1; rw [hsc] at h1; exact Bool.noConfusion h1
      · intro _ h1; rw [hsc] at h1; exact Bool.noConfusion h1
    · simpa [List.countP_append, List.countP_cons, Task.isFetching] using hsem
  case acquire =>
    intro pre post u _ htasks hsc hlt hs'
    subst hs'
    have hph := inv.phase (Task.claimed u) (by rw [htasks]; simp)
    rw [htasks] at hwg hsem
    refine Inv_frame inv htasks s.wg (s.connSem + 1) s.crashed
      (s.fetchLog ++ [c.lib.UrlString u]) s.data ?_ ?_ ?_
      (Or.inr ⟨u, rfl, hsc, rfl⟩) (Or.inl rfl) ?_ ?_ id ?_ (by omega)
    · simp at hwg ⊢; omega
    · intro t' ht' u' hu'
      simp at ht'
      subst ht'
      exact hu'
    · simp [activeKeys, Task.active?]
    · intro t' ht'
      simp at ht'
      subst ht'
      exact ⟨hsc, by simp, hph.2⟩
    · intro u' hu' hno
      simp [Task.active?] at hu'
      subst hu'
      exact absurd rfl (hno (Task.fetching u) (by simp))
    · simp [List.countP_append, List.countP_cons, Task.isFetching] at hsem ⊢
      omega
  case fetchErr =>
    intro pre post u _ htasks hf hs'
    subst hs'
    have hph := inv.phase (Task.fetching u) (by rw [htasks]; simp)
    rw [htasks] at hwg hsem
    refine Inv_frame inv htasks (s.wg - 1) (s.connSem - 1) s.crashed s.fetchLog s.data ?_ ?_ ?_
      (Or.inl rfl) (Or.inl rfl) ?_ ?_ id ?_ (by omega)
    · simp at hwg ⊢; omega
    · intro t' ht'; simp at ht'
    · simp [activeKeys]
    · intro t' ht'; simp at ht'
    · intro u' hu' _
      simp [Task.active?] at hu'
      subst hu'
      refine ⟨?_, ?_, ?_⟩
      · rw [hph.2.2, outcome_failed c u hph.1 hf]
      · intro _; exact hph.2.1
      · intro _ _ r hr; rw [hf] at hr; exact Option.noConfusion hr
    · simp [List.countP_append, List.countP_cons, Task.isFetching] at hsem ⊢
      omega
  case fetchOk =>
    intro pre post u r _ htasks hf hs'
    subst hs'
    have hph := inv.phase (Task.fetching u) (by rw [htasks]; simp)
    rw [htasks] at hwg hsem
    refine Inv_frame inv htasks s.wg (s.connSem - 1) s.crashed s.fetchLog s.data ?_ ?_ ?_
      (Or.inl rfl) (Or.inl rfl) ?_ ?_ id ?_ (by omega)
    · simp at hwg ⊢; omega
    · intro t' ht' u' hu'
      simp at ht'
      subst ht'
      exact hu'
    · simp [activeKeys, Task.active?]
    · intro t' ht'
      simp at ht'
      subst ht'
      exact ⟨hph.1, hph.2.1, hph.2.2, hf⟩
    · intro u' hu' hno
      simp [Task.active?] at hu'
      subst hu'
      exact absurd rfl (hno (Task.fetched u r) (by simp))
    · simp [List.countP_append, List.countP_cons, Task.isFetching] at hsem ⊢
      omega
  case crash =>
    intro pre post u r _ htasks hd hs'
    subst hs'
    have hph := inv.phase (Task.fetched u r) (by rw [htasks]; simp)
    rw [htasks] at hwg hsem
    refine Inv_frame inv htasks (s.wg - 1) s.connSem true s.fetchLog s.data ?_ ?_ ?_
      (Or.inl rfl) (Or.inl rfl) ?_ ?_ (fun h => Bool.noConfusion h) ?_ hle
    · simp at hwg ⊢; omega
    · intro t' ht'; simp at ht'
    · simp [activeKeys]
    · intro t' ht'; simp at ht'
    · intro u' hu' _
      simp [Task.active?] at hu'
      subst hu'
      refine ⟨?_, ?_, ?_⟩
      · rw [hph.2.2.1, outcome_fetched c u r hph.1 hph.2.2.2, hd]; rfl
      · intro _; exact hph.2.1
      · intro hb; exact Bool.noConfusion hb
    · simpa [List.countP_append, List.countP_cons, Task.isFetching] using hsem
  case record =>
    intro pre post u r urls _ htasks hd hs'
    subst hs'
    have hph := inv.phase (Task.fetched u r) (by rw [htasks]; simp)
    rw [htasks] at hwg hsem
    refine Inv_frame inv htasks s.wg s.connSem s.crashed s.fetchLog
      (s.data.set (c.lib.UrlString u)
        (some { links := urls.map c.lib.UrlString, assets := r.assets })) ?_ ?_ ?_
      (Or.inl rfl) (Or.inr ⟨u, _, rfl, rfl⟩) ?_ ?_ id ?_ hle
    · simp at hwg ⊢; omega
    · intro t' ht' u' hu'
      simp at ht'
      subst ht'
      exact hu'
    · simp [activeKeys, Task.active?]
    · intro t' ht'
      simp at ht'
      subst ht'
      exact ⟨hph.1, hph.2.1, r, hph.2.2.2, hd, by rw [GoMap.get_set, if_pos rfl]⟩
    · intro u' hu' hno
      simp [Task.active?] at hu'
      subst hu'
      exact absurd rfl (hno (Task.recorded u urls) (by simp))
    · simpa [List.countP_append, List.countP_cons, Task.isFetching] using hsem
  case spawn =>
    intro pre post u urls _ htasks hs'
    subst hs'
    have hph := inv.phase (Task.recorded u urls) (by rw [htasks]; simp)
    obtain ⟨hsc, hfl, r, hf, hd, hdata⟩ := hph
    rw [htasks] at hwg hsem
    refine Inv_frame inv htasks (s.wg + urls.length - 1) s.connSem s.crashed s.fetchLog s.data
      ?_ ?_ ?_ (Or.inl rfl) (Or.inl rfl) ?_ ?_ id ?_ hle
    · simp at hwg ⊢; omega
    · intro t' ht' u' hu'
      obtain ⟨v, _, hv⟩ := List.mem_map.1 ht'
      subst hv
      simp [Task.active?] at hu'
    · rw [activeKeys_spawned]; simp
    · intro t' ht'
      obtain ⟨v, _, hv⟩ := List.mem_map.1 ht'
      subst hv
      exact True.intro
    · intro u' hu' _
      simp [Task.active?] at hu'
      subst hu'
      refine ⟨?_, ?_, ?_⟩
      · rw [hdata, outcome_fetched c u r hsc hf, hd]; rfl
      · intro _; exact hfl
      · intro _ _ r' hr'
        rw [hf] at hr'
        cases hr'
        rw [hd]
        exact Option.some_ne_none _
    · rw [List.countP_append, List.countP_append, countP_spawned]
      simpa [List.countP_append, List.countP_cons, Task.isFetching] using hsem

/-- The invariant holds in every state a crawl can be in. -/
theorem Inv_reachable (c : crawler) (s : State) (h : Reachable c s) : Inv c s := by
  induction h with
  | refl => exact Inv_init c
  | tail _ hstep ih => exact Inv_step c _ _ ih hstep

end crawler

end Okto

namespace Okto

namespace crawler

/-! ## crawler.go: the result, the schedule and the whitelist -/

theorem buildResult_foldl_get (l : GoMap String (Option PageData)) (acc : CrawlResult)
    (k : String) (h : (GoMap.keys l).Nodup) :
    ((l.foldl buildStep acc).Links.get k =
      match l.get k with
      | some d => some ((d.map PageData.links).getD [])
      | none => acc.Links.get k) ∧
    ((l.foldl buildStep acc).Assets.get k =
      match l.get k with
      | some d => some ((d.map PageData.assets).getD [])
      | none => acc.Assets.get k) := by
  induction l generalizing acc with
  | nil => exact ⟨rfl, rfl⟩
  | cons e rest ih =>
    obtain ⟨a, d⟩ := e
    have hnd : (GoMap.keys rest).Nodup ∧ a ∉ GoMap.keys rest := by
      simp only [GoMap.keys, List.map_cons, List.nodup_cons] at h
      exact ⟨h.2, h.1⟩
    rw [List.foldl_cons]
    have ih' := ih (buildStep acc (a, d)) hnd.1
    rw [ih'.1, ih'.2]
    by_cases hak : a = k
    · subst hak
      have hnone : GoMap.get rest a = none := (GoMap.get_eq_none_iff rest a).2 hnd.2
      have hget : GoMap.get ((a, d) :: rest) a = some d := by simp [GoMap.get]
      rw [hnone, hget]
      cases d with
      | none => simp only [buildStep, GoMap.get_set, if_true]; exact ⟨rfl, rfl⟩
      | some v => simp only [buildStep, GoMap.get_set, if_true]; exact ⟨rfl, rfl⟩
    · have hka : ¬ k = a := fun e => hak e.symm
      have hget : GoMap.get ((a, d) :: rest) k = GoMap.get rest k := by simp [GoMap.get, hak]
      rw [hget]
      cases hr : GoMap.get rest k with
      | some d' => exact ⟨rfl, rfl⟩
      | none =>
        cases d with
        | none => simp only [buildStep, GoMap.get_set, hka, if_false]; exact ⟨True.intro, True.intro⟩
        | some v => simp only [buildStep, GoMap.get_set, hka, if_false]; exact ⟨True.intro, True.intro⟩

/-- The result maps hold, for every key of the results store, the links and the assets
of its record, and the empty lists for the `nil` record. -/
theorem buildResult_get (c : crawler) (data : GoMap String (Option PageData)) (k : String)
    (h : (GoMap.keys data).Nodup) :
    (buildResult c data).Links.get k =
      (data.get k).map (fun d => (d.map PageData.links).getD []) ∧
    (buildResult c data).Assets.get k =
      (data.get k).map (fun d => (d.map PageData.assets).getD []) := by
  have := buildResult_foldl_get data { Seed := c.seed, Links := [], Assets := [] } k h
  unfold buildResult
  rw [this.1, this.2]
  cases data.get k <;> exact ⟨rfl, rfl⟩

theorem runSchedule_steps (c : crawler) (sched : List Nat) (s s' : State)
    (h : runSchedule c sched s = some s') : Relation.ReflTransGen (Step c) s s' := by
  induction sched generalizing s with
  | nil =>
    simp only [runSchedule, Option.some.injEq] at h
    subst h
    exact Relation.ReflTransGen.refl
  | cons i rest ih =>
    simp only [runSchedule] at h
    cases hs : stepAt c i s with
    | none => simp [hs] at h
    | some s1 =>
      rw [hs] at h
      exact Relation.ReflTransGen.head ⟨i, hs⟩ (ih s1 h)

/-- The state a schedule ends in is a state of the crawl. -/
theorem runSchedule_reachable (c : crawler) (sched : List Nat) :
    Reachable c ((runSchedule c sched (init c)).getD (init c)) := by
  cases h : runSchedule c sched (init c) with
  | none => exact Relation.ReflTransGen.refl
  | some s => exact runSchedule_steps c sched _ s h

theorem joined_iff (c : crawler) (s : State) (inv : Inv c s) :
    joined s = true ↔ s.tasks = [] ∧ s.crashed = false := by
  unfold joined
  rw [inv.wg_eq]
  simp [List.length_eq_zero]

theorem finished_of_joined (c : crawler) (s : State) (inv : Inv c s) (h : joined s = true)
    (u : URL) : finished s u := by
  intro t ht
  rw [((joined_iff c s inv).1 h).1] at ht
  simp at ht

theorem afterLast_append (sep ch : Char) (l : List Char) :
    afterLast sep (l ++ [ch]) = if ch = sep then [] else afterLast sep l ++ [ch] := by
  simp [afterLast, List.foldl_append]

theorem fromLast_append (sep ch : Char) (l : List Char) :
    fromLast sep (l ++ [ch]) =
      if ch = sep then some [ch] else (fromLast sep l).map (fun e => e ++ [ch]) := by
  simp [fromLast, List.foldl_append]

theorem extLoop_eq (l acc : List Char) :
    extLoop l.reverse acc =
      match fromLast '.' (afterLast '/' l) with
      | some e => e ++ acc
      | none => [] := by
  induction l using List.reverseRecOn generalizing acc with
  | nil => rfl
  | append_singleton l ch ih =>
    rw [List.reverse_append, List.reverse_singleton, List.singleton_append, extLoop,
      afterLast_append]
    by_cases h1 : ch = '/'
    · subst h1
      rfl
    · rw [if_neg h1, if_neg h1, fromLast_append]
      by_cases h2 : ch = '.'
      · subst h2
        rfl
      · rw [if_neg h2, if_neg h2, ih]
        cases fromLast '.' (afterLast '/' l) with
        | none => rfl
        | some e => simp

/-- The function `filepath.Ext` computes the extension as the specification words it. -/
theorem Ext_eq (path : String) : Ext path = extensionOf path := by
  unfold Ext extensionOf
  rw [extLoop_eq]
  cases fromLast '.' (afterLast '/' path.data) with
  | none => rfl
  | some e => simp

theorem shouldCrawl_iff (u : URL) :
    shouldCrawl u = true ↔ (extensionOf u.Path = "" ∨ extensionOf u.Path = ".html") := by
  unfold shouldCrawl
  rw [Ext_eq]
  by_cases h1 : extensionOf u.Path = ""
  · simp [h1, extensionWhiteList, GoMap.get]
  · by_cases h2 : extensionOf u.Path = ".html"
    · simp [h2, extensionWhiteList, GoMap.get]
    · have h1' : ¬ "" = extensionOf u.Path := fun e => h1 e.symm
      have h2' : ¬ ".html" = extensionOf u.Path := fun e => h2 e.symm
      have hp : u.Path ≠ "" := by
        intro e
        apply h1
        rw [e]
        rfl
      simp [h1, h2, h1', h2', hp, extensionWhiteList, GoMap.get]

end crawler

end Okto

namespace Okto

namespace crawler

/-! ## crawler.go: each URL string is fetched at most once -/

/-- C5 (amended): in every state of a crawl, whatever the seed and the fetcher, the
fetcher has been called at most once for each URL string; every string it was called for
is the string `u.String()` of a claimed URL, and the claimed URLs have pairwise distinct
strings. The seed is claimed under its raw string. -/
theorem fetch_once (c : crawler) (s : State) (hreach : Reachable c s) :
    s.fetchLog.Nodup ∧
    (∀ k ∈ s.fetchLog, ∃ u ∈ s.claimedLog, c.lib.UrlString u = k) ∧
    (s.claimedLog.map c.lib.UrlString).Nodup := by
  have inv := Inv_reachable c s hreach
  refine ⟨inv.fetch_nodup, ?_, inv.claimed_nodup⟩
  intro k hk
  obtain ⟨u, hu, h, _⟩ := inv.fetch_claimed k hk
  exact ⟨u, hu, h⟩

theorem fetch_once_witness :
    testFinal.fetchLog = ["http://abcd.com", "http://abcd.com/a", "http://abcd.com/b"] ∧
    (testFinal.fetchLog.Nodup ∧
      (∀ k ∈ testFinal.fetchLog, ∃ u ∈ testFinal.claimedLog, testCrawler.lib.UrlString u = k) ∧
      (testFinal.claimedLog.map testCrawler.lib.UrlString).Nodup) :=
  ⟨by decide, fetch_once testCrawler testFinal (runSchedule_reachable testCrawler (firstTask 15))⟩

/-- C5 as stated fails: the seed `http://abcd.com/` is claimed and fetched under its raw
string, the link back to it is claimed and fetched under its canonical string
`http://abcd.com`; the two strings have the same canonical string. -/
theorem fetch_once_counterexample :
    Reachable slashCrawler slashFinal ∧ joined slashFinal = true ∧
    slashFinal.fetchLog = ["http://abcd.com/", "http://abcd.com"] ∧
    (goUrl.Parse "http://abcd.com/").map goUrl.NormalizeURL =
      (goUrl.Parse "http://abcd.com").map goUrl.NormalizeURL :=
  ⟨runSchedule_reachable slashCrawler (firstTask 11), by decide, by decide, by decide⟩

theorem derefAll_map (L : UrlLib) (l : List (Option URL)) (urls : List URL)
    (h : derefAll l = some urls) :
    l = urls.map some ∧ filter.urlStrings L l = urls.map L.UrlString := by
  induction l generalizing urls with
  | nil =>
    simp only [derefAll, Option.some.injEq] at h
    subst h
    exact ⟨rfl, rfl⟩
  | cons a rest ih =>
    cases a with
    | none => simp [derefAll] at h
    | some v =>
      simp only [derefAll, Option.map_eq_some'] at h
      obtain ⟨us, hus, hcons⟩ := h
      subst hcons
      obtain ⟨h1, h2⟩ := ih us hus
      refine ⟨by rw [List.map_cons, h1], ?_⟩
      unfold filter.urlStrings at h2 ⊢
      rw [List.filterMap_cons]
      simp only [Option.map_some', List.map_cons]
      rw [h2]

end crawler

end Okto

namespace Okto

namespace crawler

/-! ## crawler.go: the crawl visits the reachable URLs -/

theorem closedUnder_seed (c : crawler) (R : List URL) (h : closedUnder c R = true) :
    c.seed ∈ R := by
  unfold closedUnder at h
  simp only [Bool.and_eq_true, decide_eq_true_eq] at h
  exact h.1

theorem closedUnder_child (c : crawler) (R : List URL) (h : closedUnder c R = true)
    (u : URL) (hu : u ∈ R) (hsc : shouldCrawl u = true) (r : FetchResult)
    (hf : c.fetcher (c.lib.UrlString u) = some r) (v : Option URL)
    (hv : v ∈ filter.Filter c.lib u r.links) : ∃ v', v = some v' ∧ v' ∈ R := by
  unfold closedUnder at h
  simp only [Bool.and_eq_true, decide_eq_true_eq, List.all_eq_true, Bool.or_eq_true,
    Bool.not_eq_true'] at h
  have h1 := h.2 u hu
  rw [hsc, hf] at h1
  simp only [Bool.true_eq_false, false_or, List.all_eq_true] at h1
  have h2 := h1 v hv
  cases v with
  | none => exact absurd h2 (by simp)
  | some v' => exact ⟨v', rfl, by simpa using h2⟩

theorem Reach_mem (c : crawler) (R : List URL) (h : closedUnder c R = true) (u : URL)
    (hu : Reach c u) : u ∈ R := by
  induction hu with
  | seed => exact closedUnder_seed c R h
  | child u v r _ hsc hf hv ih =>
    obtain ⟨v', hv', hmem⟩ := closedUnder_child c R h u ih hsc r hf _ hv
    cases hv'
    exact hmem

theorem derefAll_of_all_some (l : List (Option URL)) (h : ∀ v ∈ l, ∃ v', v = some v') :
    ∃ urls, derefAll l = some urls := by
  induction l with
  | nil => exact ⟨[], rfl⟩
  | cons a rest ih =>
    obtain ⟨v', hv'⟩ := h a (List.mem_cons_self _ _)
    obtain ⟨us, hus⟩ := ih (fun v hv => h v (List.mem_cons_of_mem _ hv))
    subst hv'
    exact ⟨v' :: us, by simp [derefAll, hus]⟩

theorem InvR_init (c : crawler) : InvR c (init c) where
  spawned_reach := by
    intro u hu
    simp [init] at hu
    subst hu
    exact Reach.seed
  claimed_reach := by intro u hu; simp [init] at hu
  no_crash := rfl
  seed_pending := Or.inl (by simp [init])
  children_pending := by intro u hu; simp [init] at hu

/-- The second invariant is kept by a step that does not crash: what it spawns is
reachable, what it claims is reachable and runs, a spawned task that ends has its URL
claimed, and a task that finishes a URL has spawned its children. -/
theorem InvR_frame {c : crawler} {s s' : State} (invR : InvR c s) {pre post ts : List Task}
    {t : Task} (htasks : s.tasks = pre ++ t :: post) (htasks' : s'.tasks = pre ++ ts ++ post)
    (hcrash : s'.crashed = false)
    (hlog : ∀ x ∈ s.claimedLog, x ∈ s'.claimedLog)
    (h1 : ∀ v, Task.spawned v ∈ ts → Reach c v)
    (h2 : ∀ u ∈ s'.claimedLog, u ∉ s.claimedLog →
      Reach c u ∧ ∃ t' ∈ ts, t'.active? = some u)
    (h3 : ∀ v, t = Task.spawned v → v ∈ s'.claimedLog)
    (h4 : ∀ u, t.active? = some u → (∀ t' ∈ ts, t'.active? ≠ some u) →
      shouldCrawl u = true → ∀ r, c.fetcher (c.lib.UrlString u) = some r →
      ∀ v, some v ∈ filter.Filter c.lib u r.links → Task.spawned v ∈ ts ∨ v ∈ s'.claimedLog) :
    InvR c s' := by
  have hpend : ∀ v, pending s v → pending s' v := by
    intro v hv
    rcases hv with hv | hv
    · rw [htasks] at hv
      simp only [List.mem_append, List.mem_cons] at hv
      rcases hv with hv | hv | hv
      · exact Or.inl (by rw [htasks']; simp [hv])
      · exact Or.inr (h3 v hv.symm)
      · exact Or.inl (by rw [htasks']; simp [hv])
    · exact Or.inr (hlog v hv)
  refine
    { spawned_reach := ?_, claimed_reach := ?_, no_crash := hcrash,
      seed_pending := hpend _ invR.seed_pending, children_pending := ?_ }
  · intro u hu
    rw [htasks'] at hu
    rcases mem_replace hu with h | h
    · exact h1 u h
    · exact invR.spawned_reach u (mem_of_mem_others htasks _ h)
  · intro u hu
    by_cases hold : u ∈ s.claimedLog
    · exact invR.claimed_reach u hold
    · exact (h2 u hu hold).1
  · intro u hu hf hsc r hr v hv
    have hf' : ∀ t' ∈ pre ++ ts ++ post, t'.active? ≠ some u := by
      intro t' ht'
      exact hf t' (by rw [htasks']; exact ht')
    by_cases hold : u ∈ s.claimedLog
    · rcases finished_before htasks u hf' with h | h
      · exact hpend v (invR.children_pending u hold h hsc r hr v hv)
      · rcases h4 u h (fun t' ht' => hf' t' (by simp [ht'])) hsc r hr v hv with h5 | h5
        · exact Or.inl (by rw [htasks']; simp [h5])
        · exact Or.inr h5
    · obtain ⟨_, t', ht', hact⟩ := h2 u hu hold
      exact absurd hact (hf' t' (by simp [ht']))

end crawler

end Okto

namespace Okto

namespace crawler

/-- Every step of a crawl whose reachable URLs lie in a closed list with pairwise
distinct strings keeps the second invariant. -/
theorem InvR_step (c : crawler) (R : List URL) (hclosed : closedUnder c R = true)
    (hinj : (R.map c.lib.UrlString).Nodup) (s s' : State) (inv : Inv c s) (invR : InvR c s)
    (h : Step c s s') : InvR c s' := by
  have hcr := invR.no_crash
  refine Step_cases c s s' h ?claimOk ?claimFail ?skip ?acquire ?fetchErr ?fetchOk ?crash
    ?record ?spawn
  case claimOk =>
    intro pre post u _ htasks hv hs'
    subst hs'
    have hru : Reach c u := invR.spawned_reach u (by rw [htasks]; simp)
    refine InvR_frame invR htasks rfl hcr (fun x hx => List.mem_append_left _ hx) ?_ ?_ ?_ ?_
    · intro v hv'; simp at hv'
    · intro u' hu' hnot
      rcases List.mem_append.1 hu' with h1 | h1
      · exact absurd h1 hnot
      · simp at h1
        subst h1
        exact ⟨hru, Task.claimed u', by simp, rfl⟩
    · intro v hv'
      cases hv'
      exact List.mem_append_right _ (by simp)
    · intro u' hu'; simp [Task.active?] at hu'
  case claimFail =>
    intro pre post u _ htasks hv hs'
    subst hs'
    have hru : Reach c u := invR.spawned_reach u (by rw [htasks]; simp)
    refine InvR_frame invR htasks rfl hcr (fun x hx => hx) ?_ ?_ ?_ ?_
    · intro v hv'; simp at hv'
    · intro u' hu' hnot; exact absurd hu' hnot
    · intro v hv'
      have hvu : u = v := by injection hv'
      subst hvu
      obtain ⟨u', hu', hstr⟩ := List.mem_map.1 ((inv.visited_iff _).1 hv)
      have h1 := Reach_mem c R hclosed u' (invR.claimed_reach u' hu')
      have h2 := Reach_mem c R hclosed u hru
      have := inj_of_nodup_map _ _ hinj u' u h1 h2 hstr
      exact this ▸ hu'
    · intro u' hu'; simp [Task.active?] at hu'
  case skip =>
    intro pre post u _ htasks hsc hs'
    subst hs'
    refine InvR_frame invR htasks rfl hcr (fun x hx => hx) ?_ ?_ ?_ ?_
    · intro v hv'; simp at hv'
    · intro u' hu' hnot; exact absurd hu' hnot
    · intro v hv'; cases hv'
    · intro u' hu' _ hsc'
      simp [Task.active?] at hu'
      subst hu'
      rw [hsc] at hsc'
      exact Bool.noConfusion hsc'
  case acquire =>
    intro pre post u _ htasks hsc hlt hs'
    subst hs'
    refine InvR_frame invR htasks rfl hcr (fun x hx => hx) ?_ ?_ ?_ ?_
    · intro v hv'; simp at hv'
    · intro u' hu' hnot; exact absurd hu' hnot
    · intro v hv'; cases hv'
    · intro u' hu' hno
      simp [Task.active?] at hu'
      subst hu'
      exact absurd rfl (hno (Task.fetching u) (by simp))
  case fetchErr =>
    intro pre post u _ htasks hf hs'
    subst hs'
    refine InvR_frame invR htasks rfl hcr (fun x hx => hx) ?_ ?_ ?_ ?_
    · intro v hv'; simp at hv'
    · intro u' hu' hnot; exact absurd hu' hnot
    · intro v hv'; cases hv'
    · intro u' hu' _ _ r hr
      simp [Task.active?] at hu'
      subst hu'
      rw [hf] at hr
      exact Option.noConfusion hr
  case fetchOk =>
    intro pre post u r _ htasks hf hs'
    subst hs'
    refine InvR_frame invR htasks rfl hcr (fun x hx => hx) ?_ ?_ ?_ ?_
    · intro v hv'; simp at hv'
    · intro u' hu' hnot; exact absurd hu' hnot
    · intro v hv'; cases hv'
    · intro u' hu' hno
      simp [Task.active?] at hu'
      subst hu'
      exact absurd rfl (hno (Task.fetched u r) (by simp))
  case crash =>
    intro pre post u r _ htasks hd hs'
    exfalso
    have hmem : Task.fetched u r ∈ s.tasks := by rw [htasks]; simp
    have hph := inv.phase _ hmem
    have hru : Reach c u := invR.claimed_reach u (inv.active_claimed _ hmem u rfl)
    have huR := Reach_mem c R hclosed u hru
    obtain ⟨urls, hurls⟩ := derefAll_of_all_some (filter.Filter c.lib u r.links)
      (fun v hv => by
        obtain ⟨v', hv', _⟩ := closedUnder_child c R hclosed u huR hph.1 r hph.2.2.2 v hv
        exact ⟨v', hv'⟩)
    rw [hd] at hurls
    exact Option.noConfusion hurls
  case record =>
    intro pre post u r urls _ htasks hd hs'
    subst hs'
    refine InvR_frame invR htasks rfl hcr (fun x hx => hx) ?_ ?_ ?_ ?_
    · intro v hv'; simp at hv'
    · intro u' hu' hnot; exact absurd hu' hnot
    · intro v hv'; cases hv'
    · intro u' hu' hno
      simp [Task.active?] at hu'
      subst hu'
      exact absurd rfl (hno (Task.recorded u urls) (by simp))
  case spawn =>
    intro pre post u urls _ htasks hs'
    subst hs'
    have hmem : Task.recorded u urls ∈ s.tasks := by rw [htasks]; simp
    obtain ⟨hsc, _, r, hf, hd, _⟩ := inv.phase _ hmem
    have hru : Reach c u := invR.claimed_reach u (inv.active_claimed _ hmem u rfl)
    have hfil := (derefAll_map c.lib _ urls hd).1
    refine InvR_frame invR htasks rfl hcr (fun x hx => hx) ?_ ?_ ?_ ?_
    · intro v hv'
      have hv : v ∈ urls := by simpa using hv'
      exact Reach.child u v r hru hsc hf (by rw [hfil]; exact List.mem_map.2 ⟨v, hv, rfl⟩)
    · intro u' hu' hnot; exact absurd hu' hnot
    · intro v hv'; cases hv'
    · intro u' hu' _ _ r' hr' v hv
      simp [Task.active?] at hu'
      subst hu'
      rw [hf] at hr'
      cases hr'
      rw [hfil] at hv
      have hv' : v ∈ urls := by simpa using hv
      exact Or.inl (by simp [hv'])

/-- Both invariants hold in every state of such a crawl. -/
theorem InvR_reachable (c : crawler) (R : List URL) (hclosed : closedUnder c R = true)
    (hinj : (R.map c.lib.UrlString).Nodup) (s : State) (h : Reachable c s) :
    Inv c s ∧ InvR c s := by
  induction h with
  | refl => exact ⟨Inv_init c, InvR_init c⟩
  | tail _ hstep ih =>
    exact ⟨Inv_step c _ _ ih.1 hstep, InvR_step c R hclosed hinj _ _ ih.1 ih.2 hstep⟩

end crawler

end Okto

namespace Okto

namespace crawler

/-! ## crawler.go: the crawl ends -/

theorem fire_of_lt (c : crawler) (s : State) (t : Task) (h : s.connSem < c.maxConn) :
    ∃ r, fire c s t = some r := by
  cases t with
  | spawned u =>
    rw [fire]
    cases hv : s.visited.get (c.lib.UrlString u) with
    | none =>
      rw [concurrentMap.SetIfAbsent_of_absent _ _ _ hv]
      exact ⟨_, rfl⟩
    | some x =>
      rw [concurrentMap.SetIfAbsent_of_present _ _ _ (by simp [hv])]
      exact ⟨_, rfl⟩
  | claimed u =>
    rw [fire]
    by_cases hsc : shouldCrawl u = true
    · simp only [hsc, not_true_eq_false, if_false, h, if_true]
      exact ⟨_, rfl⟩
    · simp only [hsc, not_false_eq_true, if_true]
      exact ⟨_, rfl⟩
  | fetching u =>
    rw [fire]
    cases c.fetcher (c.lib.UrlString u) <;> exact ⟨_, rfl⟩
  | fetched u r =>
    rw [fire]
    cases derefAll (filter.Filter c.lib u r.links) <;> exact ⟨_, rfl⟩
  | recorded u urls =>
    rw [fire]
    exact ⟨_, rfl⟩

theorem fire_fetching (c : crawler) (s : State) (u : URL) :
    ∃ r, fire c s (Task.fetching u) = some r := by
  rw [fire]
  cases c.fetcher (c.lib.UrlString u) <;> exact ⟨_, rfl⟩

theorem Step_of_fire (c : crawler) (s : State) (i : Nat) (t : Task) (r : List Task × State)
    (hc : s.crashed = false) (ht : s.tasks[i]? = some t) (hf : fire c s t = some r) :
    ∃ s', Step c s s' := by
  have hst : stepAt c i s =
      some { r.2 with tasks := s.tasks.take i ++ r.1 ++ s.tasks.drop (i + 1) } := by
    unfold stepAt
    rw [hc, ht]
    simp only [Bool.false_eq_true, if_false, hf]
  exact ⟨_, i, hst⟩

/-- While tasks are left and the program has not died, some task can take a step: with
a semaphore of positive capacity, either a slot is free or a task holds one and can
leave the fetcher. -/
theorem progress (c : crawler) (s : State) (inv : Inv c s) (hconn : 0 < c.maxConn)
    (hcr : s.crashed = false) (hne : s.tasks ≠ []) : ∃ s', Step c s s' := by
  by_cases hlt : s.connSem < c.maxConn
  · cases htasks : s.tasks with
    | nil => exact absurd htasks hne
    | cons t rest =>
      obtain ⟨r, hr⟩ := fire_of_lt c s t hlt
      exact Step_of_fire c s 0 t r hcr (by rw [htasks]; simp) hr
  · have hpos : 0 < s.tasks.countP Task.isFetching := by
      rw [← inv.sem_eq]
      omega
    obtain ⟨t, ht, hfetch⟩ := List.countP_pos_iff.1 hpos
    obtain ⟨i, hi⟩ := List.mem_iff_getElem?.1 ht
    cases t with
    | fetching u =>
      obtain ⟨r, hr⟩ := fire_fetching c s u
      exact Step_of_fire c s i _ r hcr hi hr
    | spawned u => simp [Task.isFetching] at hfetch
    | claimed u => simp [Task.isFetching] at hfetch
    | fetched u r => simp [Task.isFetching] at hfetch
    | recorded u urls => simp [Task.isFetching] at hfetch

theorem totalWeight_replace (c : crawler) (s : State) (pre post ts : List Task) (t : Task)
    (htasks : s.tasks = pre ++ t :: post) (tasks' : List Task)
    (htasks' : tasks' = pre ++ ts ++ post) (h : (ts.map (weight c)).sum < weight c t) :
    (tasks'.map (weight c)).sum < totalWeight c s := by
  unfold totalWeight
  rw [htasks, htasks']
  simp only [List.map_append, List.sum_append, List.map_cons, List.sum_cons]
  omega

theorem weight_spawned (c : crawler) (urls : List URL) :
    ((urls.map Task.spawned).map (weight c)).sum = urls.length := by
  induction urls with
  | nil => rfl
  | cons u rest ih =>
    simp only [List.map_cons, List.sum_cons, List.length_cons, ih, weight]
    omega

/-- Every step claims a URL or lowers the total weight of the tasks. -/
theorem step_measure (c : crawler) (s s' : State) (h : Step c s s') :
    s'.claimedLog.length = s.claimedLog.length + 1 ∨
    (s'.claimedLog = s.claimedLog ∧ totalWeight c s' < totalWeight c s) := by
  refine Step_cases c s s' h ?claimOk ?claimFail ?skip ?acquire ?fetchErr ?fetchOk ?crash
    ?record ?spawn
  case claimOk =>
    intro pre post u _ htasks hv hs'
    subst hs'
    left
    simp
  case claimFail =>
    intro pre post u _ htasks hv hs'
    subst hs'
    exact Or.inr ⟨rfl, totalWeight_replace c s pre post [] _ htasks _ rfl (by simp [weight])⟩
  case skip =>
    intro pre post u _ htasks hsc hs'
    subst hs'
    exact Or.inr ⟨rfl, totalWeight_replace c s pre post [] _ htasks _ rfl (by simp [weight])⟩
  case acquire =>
    intro pre post u _ htasks hsc hlt hs'
    subst hs'
    exact Or.inr ⟨rfl, totalWeight_replace c s pre post _ _ htasks _ rfl (by simp [weight])⟩
  case fetchErr =>
    intro pre post u _ htasks hf hs'
    subst hs'
    exact Or.inr ⟨rfl, totalWeight_replace c s pre post [] _ htasks _ rfl (by simp [weight])⟩
  case fetchOk =>
    intro pre post u r _ htasks hf hs'
    subst hs'
    exact Or.inr ⟨rfl, totalWeight_replace c s pre post _ _ htasks _ rfl
      (by simp [weight, childCount, hf])⟩
  case crash =>
    intro pre post u r _ htasks hd hs'
    subst hs'
    exact Or.inr ⟨rfl, totalWeight_replace c s pre post [] _ htasks _ rfl (by simp [weight])⟩
  case record =>
    intro pre post u r urls _ htasks hd hs'
    subst hs'
    have hlen : (filter.Filter c.lib u r.links).length = urls.length := by
      rw [(derefAll_map c.lib _ urls hd).1, List.length_map]
    exact Or.inr ⟨rfl, totalWeight_replace c s pre post _ _ htasks _ rfl
      (by simp [weight, hlen])⟩
  case spawn =>
    intro pre post u urls _ htasks hs'
    subst hs'
    exact Or.inr ⟨rfl, totalWeight_replace c s pre post _ _ htasks _ rfl
      (by rw [weight_spawned]; simp [weight])⟩

end crawler

end Okto

namespace Okto

namespace crawler

theorem claimed_le (c : crawler) (R : List URL) (hclosed : closedUnder c R = true) (s : State)
    (inv : Inv c s) (invR : InvR c s) : s.claimedLog.length ≤ R.length := by
  have hnd : s.claimedLog.Nodup := List.Nodup.of_map _ inv.claimed_nodup
  exact (hnd.subperm (fun u hu => Reach_mem c R hclosed u (invR.claimed_reach u hu))).length_le

/-- Along a step the number of unclaimed URLs of the closed list and then the total
weight of the tasks decrease lexicographically. -/
theorem measure_decreases (c : crawler) (R : List URL) (hclosed : closedUnder c R = true)
    (hinj : (R.map c.lib.UrlString).Nodup) (s s' : State) (hs : Reachable c s)
    (h : Step c s s') :
    Prod.Lex (fun a b : Nat => a < b) (fun a b : Nat => a < b)
      (R.length - s'.claimedLog.length, totalWeight c s')
      (R.length - s.claimedLog.length, totalWeight c s) := by
  have hs' : Reachable c s' := Relation.ReflTransGen.tail hs h
  obtain ⟨inv', invR'⟩ := InvR_reachable c R hclosed hinj s' hs'
  have hle := claimed_le c R hclosed s' inv' invR'
  rcases step_measure c s s' h with h1 | ⟨h1, h2⟩
  · apply Prod.Lex.left
    omega
  · rw [h1]
    exact Prod.Lex.right _ h2

theorem measure_wf (c : crawler) (R : List URL) :
    WellFounded (InvImage (Prod.Lex (fun a b : Nat => a < b) (fun a b : Nat => a < b))
      (fun s : State => (R.length - s.claimedLog.length, totalWeight c s))) :=
  InvImage.wf _ (WellFounded.prod_lex Nat.lt_wfRel.wf Nat.lt_wfRel.wf)

/-- From every state of the crawl some run reaches a state in which `wg.Wait()`
returns. -/
theorem reaches_joined (c : crawler) (R : List URL) (hclosed : closedUnder c R = true)
    (hinj : (R.map c.lib.UrlString).Nodup) (hconn : 0 < c.maxConn) (s : State)
    (hs : Reachable c s) :
    ∃ s', Relation.ReflTransGen (Step c) s s' ∧ joined s' = true := by
  induction s using (measure_wf c R).induction with
  | _ s ih =>
    obtain ⟨inv, invR⟩ := InvR_reachable c R hclosed hinj s hs
    by_cases hj : joined s = true
    · exact ⟨s, Relation.ReflTransGen.refl, hj⟩
    · have hne : s.tasks ≠ [] := fun e => hj ((joined_iff c s inv).2 ⟨e, invR.no_crash⟩)
      obtain ⟨s1, hstep⟩ := progress c s inv hconn invR.no_crash hne
      obtain ⟨s', hrun, hj'⟩ := ih s1 (measure_decreases c R hclosed hinj s s1 hs hstep)
        (Relation.ReflTransGen.tail hs hstep)
      exact ⟨s', Relation.ReflTransGen.head hstep hrun, hj'⟩

/-- No run of the crawl goes on for ever. -/
theorem no_infinite_run (c : crawler) (R : List URL) (hclosed : closedUnder c R = true)
    (hinj : (R.map c.lib.UrlString).Nodup) (run : Nat → State) (h0 : run 0 = init c) :
    ∃ n, ¬ Step c (run n) (run (n + 1)) := by
  by_contra hall
  have hall' : ∀ n, Step c (run n) (run (n + 1)) := by
    intro n
    by_contra hn
    exact hall ⟨n, hn⟩
  have hreach : ∀ n, Reachable c (run n) := by
    intro n
    induction n with
    | zero => rw [h0]; exact Relation.ReflTransGen.refl
    | succ k ih => exact Relation.ReflTransGen.tail ih (hall' k)
  have key : ∀ s, ∀ n, run n = s → False := by
    intro s
    induction s using (measure_wf c R).induction with
    | _ s ih =>
      intro n hn
      have hlt := measure_decreases c R hclosed hinj (run n) (run (n + 1)) (hreach n) (hall' n)
      rw [hn] at hlt
      exact ih (run (n + 1)) hlt (n + 1) rfl
  exact key (run 0) 0 rfl

/-- When `wg.Wait()` returns, the claimed URLs are the reachable ones. -/
theorem claimed_iff_reach (c : crawler) (s : State) (inv : Inv c s) (invR : InvR c s)
    (hj : joined s = true) (u : URL) : u ∈ s.claimedLog ↔ Reach c u := by
  have hnil := ((joined_iff c s inv).1 hj).1
  have hpend : ∀ v, pending s v → v ∈ s.claimedLog := by
    intro v hv
    rcases hv with hv | hv
    · rw [hnil] at hv
      simp at hv
    · exact hv
  refine ⟨invR.claimed_reach u, ?_⟩
  intro hr
  induction hr with
  | seed => exact hpend _ invR.seed_pending
  | child u v r _ hsc hf hv ih =>
    exact hpend v (invR.children_pending u ih (finished_of_joined c s inv hj u) hsc r hf v hv)

end crawler

end Okto

namespace Okto

namespace crawler

/-! ## crawler.go: the result of `Crawl` -/

/-- The entries of the result maps for a claimed URL whose task has run. -/
theorem result_of_finished (c : crawler) (s : State) (inv : Inv c s) (u : URL)
    (hu : u ∈ s.claimedLog) (hf : finished s u) :
    (buildResult c s.data).Links.get (c.lib.UrlString u) =
      (outcome c u).map (fun d => (d.map PageData.links).getD []) ∧
    (buildResult c s.data).Assets.get (c.lib.UrlString u) =
      (outcome c u).map (fun d => (d.map PageData.assets).getD []) := by
  have hres := buildResult_get c s.data (c.lib.UrlString u) inv.data_nodup
  rw [(inv.done u hu hf).1] at hres
  exact hres

/-- C4 (amended): for every valid seed, every semaphore capacity `maxConn` with
`1 ≤ maxConn < 2 ^ 63` and every fetcher under which a finite list `R` holds the
reachable URLs (it contains the seed and, with each URL that passes the whitelist and is
fetched successfully, its filtered children, none of them `nil`) and `u.String()` is
injective on `R`: `NewCrawler` returns the crawler (the seed is valid and `make` accepts
the capacity), no run of the tasks goes on for ever, a run that has not ended can always take a step, `wg.Wait()` returns
exactly when no task is left, so `Crawl` returns;
and whatever the order in which the tasks ran, the keys of `Links` and of `Assets` are
exactly the strings of the URLs reachable from the seed through filtered child links
that were fetched successfully or skipped by the whitelist; for a successfully fetched
URL `u`, `Links[u]` is the list of the strings of `Filter(u, fetch(u).links)` in that
order and `Assets[u]` is `fetch(u).assets` unchanged; for a skipped URL both are empty. -/
theorem Crawl_result (c : crawler) (hvalid : isValidSeed c.seed = true)
    (hconn : 0 < c.maxConn) (hcap : c.maxConn < 2 ^ 63) (R : List URL)
    (hclosed : closedUnder c R = true) (hinj : (R.map c.lib.UrlString).Nodup) :
    NewCrawler c.lib c.fetcher c.seed c.maxConn = NewCrawlerResult.ok c ∧
    (∀ run : Nat → State, run 0 = init c → ∃ n, ¬ Step c (run n) (run (n + 1))) ∧
    (∀ s, Reachable c s → joined s = true ∨ ∃ s', Step c s s') ∧
    (∀ s, Reachable c s → (joined s = true ↔ s.tasks = [])) ∧
    (∃ result, CrawlReturns c result) ∧
    (∀ result, CrawlReturns c result →
      (∀ k, result.Links.get k ≠ none ↔
        ∃ u, Reach c u ∧ c.lib.UrlString u = k ∧
          (shouldCrawl u = false ∨ ∃ r, c.fetcher k = some r)) ∧
      (∀ k, result.Assets.get k ≠ none ↔
        ∃ u, Reach c u ∧ c.lib.UrlString u = k ∧
          (shouldCrawl u = false ∨ ∃ r, c.fetcher k = some r)) ∧
      (∀ u, Reach c u → shouldCrawl u = true → ∀ r, c.fetcher (c.lib.UrlString u) = some r →
        result.Links.get (c.lib.UrlString u) =
          some (filter.urlStrings c.lib (filter.Filter c.lib u r.links)) ∧
        result.Assets.get (c.lib.UrlString u) = some r.assets) ∧
      (∀ u, Reach c u → shouldCrawl u = false →
        result.Links.get (c.lib.UrlString u) = some [] ∧
        result.Assets.get (c.lib.UrlString u) = some [])) := by
  refine ⟨?_, no_infinite_run c R hclosed hinj, ?_, ?_, ?_, ?_⟩
  · have hmod : c.maxConn % 2 ^ 64 = c.maxConn := Nat.mod_eq_of_lt (by omega)
    unfold NewCrawler
    rw [hmod, if_neg (by simp [hvalid]), if_neg (by omega)]
  · intro s hs
    obtain ⟨inv, invR⟩ := InvR_reachable c R hclosed hinj s hs
    by_cases hj : joined s = true
    · exact Or.inl hj
    · have hne : s.tasks ≠ [] := fun e => hj ((joined_iff c s inv).2 ⟨e, invR.no_crash⟩)
      exact Or.inr (progress c s inv hconn invR.no_crash hne)
  · intro s hs
    obtain ⟨inv, invR⟩ := InvR_reachable c R hclosed hinj s hs
    rw [joined_iff c s inv]
    exact ⟨fun h => h.1, fun h => ⟨h, invR.no_crash⟩⟩
  · obtain ⟨s, hrun, hj⟩ := reaches_joined c R hclosed hinj hconn (init c)
      Relation.ReflTransGen.refl
    exact ⟨_, s, hrun, hj, rfl⟩
  · rintro result ⟨s, hs, hj, rfl⟩
    obtain ⟨inv, invR⟩ := InvR_reachable c R hclosed hinj s hs
    have hfin := finished_of_joined c s inv hj
    -- the outcome of a reachable URL that passes the whitelist and is fetched
    have hok : ∀ u, Reach c u → shouldCrawl u = true → ∀ r,
        c.fetcher (c.lib.UrlString u) = some r →
        outcome c u = some (some
          { links := (filter.urlStrings c.lib (filter.Filter c.lib u r.links)),
            assets := r.assets }) := by
      intro u hu hsc r hr
      obtain ⟨urls, hurls⟩ := derefAll_of_all_some (filter.Filter c.lib u r.links)
        (fun v hv => by
          obtain ⟨v', hv', _⟩ :=
            closedUnder_child c R hclosed u (Reach_mem c R hclosed u hu) hsc r hr v hv
          exact ⟨v', hv'⟩)
      rw [outcome_fetched c u r hsc hr, hurls, (derefAll_map c.lib _ urls hurls).2]
      rfl
    have hkeys : ∀ k, s.data.get k ≠ none ↔
        ∃ u, Reach c u ∧ c.lib.UrlString u = k ∧
          (shouldCrawl u = false ∨ ∃ r, c.fetcher k = some r) := by
      intro k
      constructor
      · intro hk
        obtain ⟨u, hu, hstr⟩ := List.mem_map.1 (inv.data_claimed k hk)
        refine ⟨u, invR.claimed_reach u hu, hstr, ?_⟩
        by_cases hsc : shouldCrawl u = true
        · right
          cases hf : c.fetcher k with
          | some r => exact ⟨r, rfl⟩
          | none =>
            exfalso
            apply hk
            rw [← hstr, (inv.done u hu (hfin u)).1]
            exact outcome_failed c u hsc (by rw [hstr]; exact hf)
        · left
          simpa using hsc
      · rintro ⟨u, hu, hstr, hcond⟩
        have hcl := (claimed_iff_reach c s inv invR hj u).2 hu
        rw [← hstr, (inv.done u hcl (hfin u)).1]
        by_cases hsc : shouldCrawl u = true
        · rcases hcond with h | ⟨r, hr⟩
          · rw [hsc] at h; exact Bool.noConfusion h
          · rw [hok u hu hsc r (by rw [hstr]; exact hr)]
            exact Option.some_ne_none _
        · rw [outcome_skip c u (by simpa using hsc)]
          exact Option.some_ne_none _
    refine ⟨?_, ?_, ?_, ?_⟩
    · intro k
      rw [← hkeys k, (buildResult_get c s.data k inv.data_nodup).1]
      cases s.data.get k <;> simp
    · intro k
      rw [← hkeys k, (buildResult_get c s.data k inv.data_nodup).2]
      cases s.data.get k <;> simp
    · intro u hu hsc r hr
      have hcl := (claimed_iff_reach c s inv invR hj u).2 hu
      have hres := result_of_finished c s inv u hcl (hfin u)
      rw [hok u hu hsc r hr] at hres
      exact hres
    · intro u hu hsc
      have hcl := (claimed_iff_reach c s inv invR hj u).2 hu
      have hres := result_of_finished c s inv u hcl (hfin u)
      rw [outcome_skip c u hsc] at hres
      exact hres

theorem testReach_iff (u : URL) : Reach testCrawler u ↔ u ∈ testReach := by
  constructor
  · exact Reach_mem testCrawler testReach (by decide) u
  · intro hu
    have hseed : Reach testCrawler { Scheme := "http", Host := "abcd.com" } := Reach.seed
    have ha : Reach testCrawler { Scheme := "http", Host := "abcd.com", Path := "/a" } :=
      Reach.child _ _
        ⟨["http://abcd.com/a", "http://external.com/a", "mailto://a@abcd.com"],
          ["http://abcd.com/img.png", "http://cdn.com/img.png"]⟩ hseed (by decide)
        (by decide) (by decide)
    have hb : Reach testCrawler { Scheme := "http", Host := "abcd.com", Path := "/b" } :=
      Reach.child _ _ { links := ["http://abcd.com/b"], assets := ["http://abcd.com/img.png"] }
        ha (by decide) (by decide) (by decide)
    simp only [testReach, List.mem_cons, List.mem_singleton, List.not_mem_nil, or_false] at hu
    rcases hu with h | h | h
    · rw [h]; exact hseed
    · rw [h]; exact ha
    · rw [h]; exact hb

theorem Crawl_result_witness :
    (isValidSeed testCrawler.seed = true ∧ 0 < testCrawler.maxConn ∧
      testCrawler.maxConn < 2 ^ 63 ∧ closedUnder testCrawler testReach = true ∧
      (testReach.map testCrawler.lib.UrlString).Nodup) ∧
    CrawlReturns testCrawler (buildResult testCrawler testFinal.data) ∧
    ∀ result, CrawlReturns testCrawler result →
      (∀ k, result.Links.get k ≠ none ↔
        k = "http://abcd.com" ∨ k = "http://abcd.com/a" ∨ k = "http://abcd.com/b") ∧
      (∀ k, result.Assets.get k ≠ none ↔
        k = "http://abcd.com" ∨ k = "http://abcd.com/a" ∨ k = "http://abcd.com/b") ∧
      result.Links.get "http://abcd.com" = some ["http://abcd.com/a"] ∧
      result.Links.get "http://abcd.com/a" = some ["http://abcd.com/b"] ∧
      result.Links.get "http://abcd.com/b" = some [] ∧
      result.Assets.get "http://abcd.com" =
        some ["http://abcd.com/img.png", "http://cdn.com/img.png"] ∧
      result.Assets.get "http://abcd.com/a" = some ["http://abcd.com/img.png"] ∧
      result.Assets.get "http://abcd.com/b" = some [] := by
  have hmain := Crawl_result testCrawler (by decide) (by decide) (by decide) testReach
    (by decide) (by decide)
  refine ⟨⟨by decide, by decide, by decide, by decide, by decide⟩,
    ⟨testFinal, runSchedule_reachable testCrawler (firstTask 15), by decide, rfl⟩, ?_⟩
  intro result hret
  obtain ⟨hlinks, hassets, hfetched, _⟩ := hmain.2.2.2.2.2 result hret
  have hkeys : ∀ k, (∃ u, Reach testCrawler u ∧ testCrawler.lib.UrlString u = k ∧
      (shouldCrawl u = false ∨ ∃ r, testCrawler.fetcher k = some r)) ↔
      k = "http://abcd.com" ∨ k = "http://abcd.com/a" ∨ k = "http://abcd.com/b" := by
    intro k
    have hfetch : ∃ r, testCrawler.fetcher k = some r := by
      show ∃ r, mockFetcher k = some r
      unfold mockFetcher
      cases GoMap.get mockData k <;> exact ⟨_, rfl⟩
    constructor
    · rintro ⟨u, hu, hstr, _⟩
      have hmem := (testReach_iff u).1 hu
      simp only [testReach, List.mem_cons, List.mem_singleton, List.not_mem_nil, or_false]
        at hmem
      rcases hmem with h | h | h
      · left; rw [← hstr, h]; decide
      · right; left; rw [← hstr, h]; decide
      · right; right; rw [← hstr, h]; decide
    · intro hk
      rcases hk with h | h | h
      · exact ⟨{ Scheme := "http", Host := "abcd.com" }, (testReach_iff _).2 (by decide),
          by rw [h]; decide, Or.inr hfetch⟩
      · exact ⟨{ Scheme := "http", Host := "abcd.com", Path := "/a" },
          (testReach_iff _).2 (by decide), by rw [h]; decide, Or.inr hfetch⟩
      · exact ⟨{ Scheme := "http", Host := "abcd.com", Path := "/b" },
          (testReach_iff _).2 (by decide), by rw [h]; decide, Or.inr hfetch⟩
  have h0 := hfetched { Scheme := "http", Host := "abcd.com" } ((testReach_iff _).2 (by decide))
    (by decide)
    ⟨["http://abcd.com/a", "http://external.com/a", "mailto://a@abcd.com"],
      ["http://abcd.com/img.png", "http://cdn.com/img.png"]⟩ (by decide)
  have h1 := hfetched { Scheme := "http", Host := "abcd.com", Path := "/a" }
    ((testReach_iff _).2 (by decide)) (by decide)
    { links := ["http://abcd.com/b"], assets := ["http://abcd.com/img.png"] } (by decide)
  have h2 := hfetched { Scheme := "http", Host := "abcd.com", Path := "/b" }
    ((testReach_iff _).2 (by decide)) (by decide) { links := [], assets := [] } (by decide)
  refine ⟨fun k => (hlinks k).trans (hkeys k), fun k => (hassets k).trans (hkeys k), ?_, ?_, ?_,
    ?_, ?_, ?_⟩
  · exact h0.1.trans (by decide)
  · exact h1.1.trans (by decide)
  · exact h2.1.trans (by decide)
  · exact h0.2
  · exact h1.2
  · exact h2.2

theorem zero_stuck_step (s1 s2 : State)
    (ih : s1.wg = 1 ∧ s1.crashed = false ∧
      ((s1.tasks = [Task.spawned zeroCrawler.seed] ∧ s1.visited = []) ∨
        s1.tasks = [Task.claimed zeroCrawler.seed]))
    (hstep : Step zeroCrawler s1 s2) :
    s2.wg = 1 ∧ s2.crashed = false ∧
    ((s2.tasks = [Task.spawned zeroCrawler.seed] ∧ s2.visited = []) ∨
      s2.tasks = [Task.claimed zeroCrawler.seed]) := by
  obtain ⟨hwg, hcr, htask⟩ := ih
  have hsingle : ∀ (pre post : List Task) (t x : Task), s1.tasks = [x] →
      s1.tasks = pre ++ t :: post → pre = [] ∧ post = [] ∧ t = x := by
    intro pre post t x hx hsplit
    rw [hx] at hsplit
    have hlen := congrArg List.length hsplit
    simp only [List.length_cons, List.length_nil, List.length_append] at hlen
    have hpre : pre = [] := List.length_eq_zero.1 (by omega)
    have hpost : post = [] := List.length_eq_zero.1 (by omega)
    subst hpre hpost
    simp only [List.nil_append, List.cons.injEq, and_true] at hsplit
    exact ⟨rfl, rfl, hsplit.symm⟩
  have hx : ∃ x, s1.tasks = [x] ∧
      (x = Task.spawned zeroCrawler.seed ∨ x = Task.claimed zeroCrawler.seed) := by
    rcases htask with h | h
    · exact ⟨_, h.1, Or.inl rfl⟩
    · exact ⟨_, h, Or.inr rfl⟩
  obtain ⟨x, hx1, hx2⟩ := hx
  refine Step_cases zeroCrawler s1 s2 hstep ?claimOk ?claimFail ?skip ?acquire ?fetchErr
    ?fetchOk ?crash ?record ?spawn
  case claimOk =>
    intro pre post u _ htasks hv hs'
    obtain ⟨hpre, hpost, ht⟩ := hsingle pre post _ x hx1 htasks
    subst hs' hpre hpost
    rcases hx2 with h | h
    · rw [h] at ht
      cases ht
      exact ⟨hwg, hcr, Or.inr rfl⟩
    · rw [h] at ht
      exact Task.noConfusion ht
  case claimFail =>
    intro pre post u _ htasks hv hs'
    obtain ⟨hpre, hpost, ht⟩ := hsingle pre post _ x hx1 htasks
    exfalso
    rcases htask with h | h
    · rw [h.2] at hv
      exact hv rfl
    · rw [h] at hx1
      cases hx1
      exact Task.noConfusion ht
  case skip =>
    intro pre post u _ htasks hsc hs'
    obtain ⟨hpre, hpost, ht⟩ := hsingle pre post _ x hx1 htasks
    exfalso
    rcases hx2 with h | h
    · rw [h] at ht
      exact Task.noConfusion ht
    · rw [h] at ht
      cases ht
      revert hsc
      decide
  case acquire =>
    intro pre post u _ htasks hsc hlt hs'
    exact absurd hlt (Nat.not_lt_zero _)
  case fetchErr =>
    intro pre post u _ htasks hf hs'
    obtain ⟨hpre, hpost, ht⟩ := hsingle pre post _ x hx1 htasks
    rcases hx2 with h | h <;> (rw [h] at ht; exact Task.noConfusion ht)
  case fetchOk =>
    intro pre post u r _ htasks hf hs'
    obtain ⟨hpre, hpost, ht⟩ := hsingle pre post _ x hx1 htasks
    rcases hx2 with h | h <;> (rw [h] at ht; exact Task.noConfusion ht)
  case crash =>
    intro pre post u r _ htasks hd hs'
    obtain ⟨hpre, hpost, ht⟩ := hsingle pre post _ x hx1 htasks
    rcases hx2 with h | h <;> (rw [h] at ht; exact Task.noConfusion ht)
  case record =>
    intro pre post u r urls _ htasks hd hs'
    obtain ⟨hpre, hpost, ht⟩ := hsingle pre post _ x hx1 htasks
    rcases hx2 with h | h <;> (rw [h] at ht; exact Task.noConfusion ht)
  case spawn =>
    intro pre post u urls _ htasks hs'
    obtain ⟨hpre, hpost, ht⟩ := hsingle pre post _ x hx1 htasks
    rcases hx2 with h | h <;> (rw [h] at ht; exact Task.noConfusion ht)

/-- With a semaphore of capacity zero the crawl of `TestCrawler` is stuck after the seed
is claimed: its only task waits for a slot for ever. -/
theorem zero_stuck (s : State) (h : Reachable zeroCrawler s) :
    s.wg = 1 ∧ s.crashed = false ∧
    ((s.tasks = [Task.spawned zeroCrawler.seed] ∧ s.visited = []) ∨
      s.tasks = [Task.claimed zeroCrawler.seed]) := by
  induction h with
  | refl => exact ⟨rfl, rfl, Or.inl ⟨rfl, rfl⟩⟩
  | tail _ hstep ih => exact zero_stuck_step _ _ ih hstep

/-- C4 as stated fails: the seed of `TestCrawler` is valid and finitely many URLs are
reachable under the mock fetcher, yet with `maxConn = 0` `NewCrawler` returns a crawler
whose send on the semaphore never succeeds, so `Crawl` does not return; and with
`maxConn = 2 ^ 63` the call of `make` in `NewCrawler` panics, so there is no crawler to
call `Crawl` on. -/
theorem Crawl_result_counterexample :
    (isValidSeed zeroCrawler.seed = true ∧ closedUnder zeroCrawler testReach = true ∧
      (testReach.map zeroCrawler.lib.UrlString).Nodup ∧
      NewCrawler goUrl mockFetcher testCrawler.seed 0 = NewCrawlerResult.ok zeroCrawler ∧
      ¬ ∃ result, CrawlReturns zeroCrawler result) ∧
    NewCrawler goUrl mockFetcher testCrawler.seed (2 ^ 63) =
      NewCrawlerResult.panics "makechan: size out of range" := by
  refine ⟨⟨by decide, by decide, by decide, rfl, ?_⟩, rfl⟩
  rintro ⟨result, s, hs, hj, _⟩
  have h := zero_stuck s hs
  unfold joined at hj
  rw [h.1] at hj
  simp at hj

end crawler

end Okto

namespace Okto

namespace crawler

/-! ## crawler.go: the bound on concurrent fetches -/

/-- A task enters the fetcher only from `claimed`, by a send on `connSem` that found a free
slot, and the send takes the slot. -/
theorem enter_fetcher (c : crawler) (s : State) (t : Task) (ts : List Task) (r : State)
    (h : fire c s t = some (ts, r)) (u : URL) (hin : Task.fetching u ∈ ts) :
    t = Task.claimed u ∧ s.connSem < c.maxConn ∧ r.connSem = s.connSem + 1 := by
  cases t with
  | spawned v =>
    rw [fire] at h
    cases hv : s.visited.get (c.lib.UrlString v) with
    | none =>
      rw [concurrentMap.SetIfAbsent_of_absent _ _ _ hv] at h
      obtain ⟨h1, _⟩ := Prod.mk.inj (Option.some.inj h)
      subst h1
      simp at hin
    | some x =>
      rw [concurrentMap.SetIfAbsent_of_present _ _ _ (by simp [hv])] at h
      obtain ⟨h1, _⟩ := Prod.mk.inj (Option.some.inj h)
      subst h1
      simp at hin
  | claimed v =>
    rw [fire] at h
    by_cases hsc : shouldCrawl v = true
    · simp only [hsc, not_true_eq_false, if_false] at h
      by_cases hlt : s.connSem < c.maxConn
      · simp only [hlt, if_true] at h
        obtain ⟨h1, h2⟩ := Prod.mk.inj (Option.some.inj h)
        subst h1 h2
        simp only [List.mem_singleton, Task.fetching.injEq] at hin
        subst hin
        exact ⟨rfl, hlt, rfl⟩
      · simp only [hlt, if_false] at h
        exact Option.noConfusion h
    · simp only [hsc, not_false_eq_true, if_true] at h
      obtain ⟨h1, _⟩ := Prod.mk.inj (Option.some.inj h)
      subst h1
      simp at hin
  | fetching v =>
    rw [fire] at h
    cases hf : c.fetcher (c.lib.UrlString v) with
    | none =>
      simp only [hf] at h
      obtain ⟨h1, _⟩ := Prod.mk.inj (Option.some.inj h)
      subst h1
      simp at hin
    | some x =>
      simp only [hf] at h
      obtain ⟨h1, _⟩ := Prod.mk.inj (Option.some.inj h)
      subst h1
      simp at hin
  | fetched v x =>
    rw [fire] at h
    cases hd : derefAll (filter.Filter c.lib v x.links) with
    | none =>
      simp only [hd] at h
      obtain ⟨h1, _⟩ := Prod.mk.inj (Option.some.inj h)
      subst h1
      simp at hin
    | some urls =>
      simp only [hd] at h
      obtain ⟨h1, _⟩ := Prod.mk.inj (Option.some.inj h)
      subst h1
      simp at hin
  | recorded v urls =>
    rw [fire] at h
    obtain ⟨h1, _⟩ := Prod.mk.inj (Option.some.inj h)
    subst h1
    simp at hin

/-- A task inside the fetcher can always leave it, and it gives its slot back whether the
fetch failed or succeeded. -/
theorem leave_fetcher (c : crawler) (s : State) (u : URL) :
    ∃ ts r, fire c s (Task.fetching u) = some (ts, r) ∧ r.connSem = s.connSem - 1 ∧
      (∀ t ∈ ts, t.isFetching = false) ∧
      (c.fetcher (c.lib.UrlString u) = none → ts = []) := by
  rw [fire]
  cases hf : c.fetcher (c.lib.UrlString u) with
  | none => exact ⟨[], _, rfl, rfl, by simp, fun _ => rfl⟩
  | some x =>
    refine ⟨[Task.fetched u x], _, rfl, rfl, ?_, fun h => Option.noConfusion h⟩
    intro t ht
    simp only [List.mem_singleton] at ht
    subst ht
    rfl

/-- C11: in every state of a crawl the number of calls of the fetcher in flight is at most
`maxConn`: it equals the number of slots taken in the semaphore `connSem`, which never
exceeds the capacity `maxConn`; a task enters the fetcher only by taking a free slot, and a
task in the fetcher gives the slot back on both exits, the failed fetch included. -/
theorem fetch_bound (c : crawler) (s : State) (hreach : Reachable c s) :
    inFlight s ≤ c.maxConn ∧
    s.connSem = inFlight s ∧
    (∀ t ts r u, fire c s t = some (ts, r) → Task.fetching u ∈ ts →
      t = Task.claimed u ∧ s.connSem < c.maxConn ∧ r.connSem = s.connSem + 1) ∧
    (∀ u, Task.fetching u ∈ s.tasks →
      ∃ ts r, fire c s (Task.fetching u) = some (ts, r) ∧ r.connSem + 1 = s.connSem ∧
        (∀ t ∈ ts, t.isFetching = false) ∧
        (c.fetcher (c.lib.UrlString u) = none → ts = [])) ∧
    (∀ s', Step c s s' → inFlight s' ≤ c.maxConn ∧ s'.connSem = inFlight s') := by
  have inv := Inv_reachable c s hreach
  refine ⟨?_, inv.sem_eq, ?_, ?_, ?_⟩
  · unfold inFlight
    rw [← inv.sem_eq]
    exact inv.sem_le
  · intro t ts r u h hin
    exact enter_fetcher c s t ts r h u hin
  · intro u hu
    obtain ⟨ts, r, hfire, hsem, hts, hfail⟩ := leave_fetcher c s u
    have hpos : 0 < s.connSem := by
      rw [inv.sem_eq]
      exact List.countP_pos_iff.2 ⟨_, hu, rfl⟩
    exact ⟨ts, r, hfire, by omega, hts, hfail⟩
  · intro s' hstep
    have inv' := Inv_step c s s' inv hstep
    unfold inFlight
    rw [← inv'.sem_eq]
    exact ⟨inv'.sem_le, rfl⟩

/-- In `narrowBusy` the one slot is taken by the fetch in flight, the bound is reached,
and the second task that is eligible to fetch cannot take a step. -/
theorem fetch_bound_witness :
    (inFlight narrowBusy = 1 ∧ narrowCrawler.maxConn = 1 ∧
      (stepAt narrowCrawler 1 narrowBusy).isNone = true) ∧
    (inFlight narrowBusy ≤ narrowCrawler.maxConn ∧
      narrowBusy.connSem = inFlight narrowBusy ∧
      (∀ t ts r u, fire narrowCrawler narrowBusy t = some (ts, r) → Task.fetching u ∈ ts →
        t = Task.claimed u ∧ narrowBusy.connSem < narrowCrawler.maxConn ∧
          r.connSem = narrowBusy.connSem + 1) ∧
      (∀ u, Task.fetching u ∈ narrowBusy.tasks →
        ∃ ts r, fire narrowCrawler narrowBusy (Task.fetching u) = some (ts, r) ∧
          r.connSem + 1 = narrowBusy.connSem ∧ (∀ t ∈ ts, t.isFetching = false) ∧
          (narrowCrawler.fetcher (narrowCrawler.lib.UrlString u) = none → ts = [])) ∧
      (∀ s', Step narrowCrawler narrowBusy s' →
        inFlight s' ≤ narrowCrawler.maxConn ∧ s'.connSem = inFlight s')) :=
  ⟨⟨by decide, rfl, by decide⟩,
    fetch_bound narrowCrawler narrowBusy
      (runSchedule_reachable narrowCrawler [0, 0, 0, 0, 0, 0, 1, 0])⟩

end crawler

end Okto

namespace Okto

namespace crawler

/-! ## crawler.go: tasks are not held up -/

theorem stepAt_of_fire (c : crawler) (s : State) (i : Nat) (t : Task) (r : List Task × State)
    (hc : s.crashed = false) (ht : s.tasks[i]? = some t) (hf : fire c s t = some r) :
    stepAt c i s = some { r.2 with tasks := s.tasks.take i ++ r.1 ++ s.tasks.drop (i + 1) } := by
  unfold stepAt
  rw [hc, ht]
  simp only [Bool.false_eq_true, if_false, hf]

/-- The log of the calls of the fetcher only grows. -/
theorem fetchLog_step (c : crawler) (s s' : State) (h : Step c s s') (k : String)
    (hk : k ∈ s.fetchLog) : k ∈ s'.fetchLog := by
  refine Step_cases c s s' h ?claimOk ?claimFail ?skip ?acquire ?fetchErr ?fetchOk ?crash
    ?record ?spawn
  case claimOk => intro pre post u _ _ _ hs'; subst hs'; exact hk
  case claimFail => intro pre post u _ _ _ hs'; subst hs'; exact hk
  case skip => intro pre post u _ _ _ hs'; subst hs'; exact hk
  case acquire =>
    intro pre post u _ _ _ _ hs'
    subst hs'
    exact List.mem_append_left _ hk
  case fetchErr => intro pre post u _ _ _ hs'; subst hs'; exact hk
  case fetchOk => intro pre post u r _ _ _ hs'; subst hs'; exact hk
  case crash => intro pre post u r _ _ _ hs'; subst hs'; exact hk
  case record => intro pre post u r urls _ _ _ hs'; subst hs'; exact hk
  case spawn => intro pre post u urls _ _ hs'; subst hs'; exact hk

/-- The log of the claimed URLs only grows. -/
theorem claimedLog_step (c : crawler) (s s' : State) (h : Step c s s') (u : URL)
    (hu : u ∈ s.claimedLog) : u ∈ s'.claimedLog := by
  refine Step_cases c s s' h ?claimOk ?claimFail ?skip ?acquire ?fetchErr ?fetchOk ?crash
    ?record ?spawn
  case claimOk =>
    intro pre post v _ _ _ hs'
    subst hs'
    exact List.mem_append_left _ hu
  case claimFail => intro pre post v _ _ _ hs'; subst hs'; exact hu
  case skip => intro pre post v _ _ _ hs'; subst hs'; exact hu
  case acquire => intro pre post v _ _ _ _ hs'; subst hs'; exact hu
  case fetchErr => intro pre post v _ _ _ hs'; subst hs'; exact hu
  case fetchOk => intro pre post v r _ _ _ hs'; subst hs'; exact hu
  case crash => intro pre post v r _ _ _ hs'; subst hs'; exact hu
  case record => intro pre post v r urls _ _ _ hs'; subst hs'; exact hu
  case spawn => intro pre post v urls _ _ hs'; subst hs'; exact hu

/-- A `nil` record is never overwritten. -/
theorem nilRecord_step (c : crawler) (s s' : State) (inv : Inv c s) (h : Step c s s')
    (k : String) (hk : s.data.get k = some none) : s'.data.get k = some none := by
  refine Step_cases c s s' h ?claimOk ?claimFail ?skip ?acquire ?fetchErr ?fetchOk ?crash
    ?record ?spawn
  case claimOk => intro pre post v _ _ _ hs'; subst hs'; exact hk
  case claimFail => intro pre post v _ _ _ hs'; subst hs'; exact hk
  case skip =>
    intro pre post v _ _ _ hs'
    subst hs'
    show (s.data.set (c.lib.UrlString v) none).get k = some none
    rw [GoMap.get_set]
    split_ifs
    · rfl
    · exact hk
  case acquire => intro pre post v _ _ _ _ hs'; subst hs'; exact hk
  case fetchErr => intro pre post v _ _ _ hs'; subst hs'; exact hk
  case fetchOk => intro pre post v r _ _ _ hs'; subst hs'; exact hk
  case crash => intro pre post v r _ _ _ hs'; subst hs'; exact hk
  case record =>
    intro pre post v r urls _ htasks _ hs'
    subst hs'
    show (s.data.set (c.lib.UrlString v) _).get k = some none
    rw [GoMap.get_set]
    have hph := inv.phase (Task.fetched v r) (by rw [htasks]; simp)
    have hnone : s.data.get (c.lib.UrlString v) = none := hph.2.2.1
    split_ifs with hkv
    · rw [hkv, hnone] at hk
      exact Option.noConfusion hk
    · exact hk
  case spawn => intro pre post v urls _ _ hs'; subst hs'; exact hk

/-- Along a run the calls of the fetcher stay logged and a `nil` record stays stored. -/
theorem decided_steps (c : crawler) (s s' : State) (hs : Reachable c s)
    (h : Relation.ReflTransGen (Step c) s s') (k : String) :
    Reachable c s' ∧ (k ∈ s.fetchLog → k ∈ s'.fetchLog) ∧
      (s.data.get k = some none → s'.data.get k = some none) := by
  induction h with
  | refl => exact ⟨hs, id, id⟩
  | tail _ hstep ih =>
    obtain ⟨hr, h1, h2⟩ := ih
    exact ⟨Relation.ReflTransGen.tail hr hstep,
      fun hk => fetchLog_step c _ _ hstep k (h1 hk),
      fun hk => nilRecord_step c _ _ (Inv_reachable c _ hr) hstep k (h2 hk)⟩

/-- Once the task of a claimed URL has run, the whitelist decision is carried out. -/
theorem decided_of_finished (c : crawler) (s : State) (inv : Inv c s) (u : URL)
    (hu : u ∈ s.claimedLog) (hf : finished s u) : decided c s u := by
  refine ⟨fun hsc => (inv.done u hu hf).2 hsc, fun hsc => ?_⟩
  rw [(inv.done u hu hf).1, outcome_skip c u hsc]

/-- A task that has left `claimed` has called the fetcher. -/
theorem decided_of_active (c : crawler) (s : State) (inv : Inv c s) (u : URL) (t : Task)
    (ht : t ∈ s.tasks) (hact : t.active? = some u) (hne : t ≠ Task.claimed u) :
    decided c s u := by
  have hph := inv.phase t ht
  cases t with
  | spawned v => simp [Task.active?] at hact
  | claimed v =>
    simp only [Task.active?, Option.some.injEq] at hact
    subst hact
    exact absurd rfl hne
  | fetching v =>
    simp only [Task.active?, Option.some.injEq] at hact
    subst hact
    exact ⟨fun _ => hph.2.1, fun hsc => by rw [hph.1] at hsc; exact Bool.noConfusion hsc⟩
  | fetched v r =>
    simp only [Task.active?, Option.some.injEq] at hact
    subst hact
    exact ⟨fun _ => hph.2.1, fun hsc => by rw [hph.1] at hsc; exact Bool.noConfusion hsc⟩
  | recorded v urls =>
    simp only [Task.active?, Option.some.injEq] at hact
    subst hact
    exact ⟨fun _ => hph.2.1, fun hsc => by rw [hph.1] at hsc; exact Bool.noConfusion hsc⟩

/-- A task that waits in `claimed` gets its turn within two steps: it takes the skip or a
free slot at once, and when no slot is free, a task inside the fetcher leaves it and
frees one. -/
theorem claimed_can_decide (c : crawler) (s : State) (inv : Inv c s) (hconn : 0 < c.maxConn)
    (hcr : s.crashed = false) (u : URL) (ht : Task.claimed u ∈ s.tasks) :
    ∃ s', (s' = s ∨ Step c s s' ∨ ∃ s1, Step c s s1 ∧ Step c s1 s') ∧ decided c s' u := by
  obtain ⟨i, hi⟩ := List.mem_iff_getElem?.1 ht
  by_cases hsc : shouldCrawl u = true
  · -- a state in which the task is in the list and a slot is free
    have hacq : ∀ s1 : State, s1.crashed = false → Task.claimed u ∈ s1.tasks →
        s1.connSem < c.maxConn → ∃ s2, Step c s1 s2 ∧ decided c s2 u := by
      intro s1 hcr1 ht1 hlt
      obtain ⟨j, hj⟩ := List.mem_iff_getElem?.1 ht1
      have hfire : fire c s1 (Task.claimed u) =
          some ([Task.fetching u],
            { s1 with connSem := s1.connSem + 1,
                      fetchLog := s1.fetchLog ++ [c.lib.UrlString u] }) := by
        rw [fire]
        simp only [hsc, not_true_eq_false, if_false, hlt, if_true]
      refine ⟨_, ⟨j, stepAt_of_fire c s1 j _ _ hcr1 hj hfire⟩, fun _ => ?_, fun h => ?_⟩
      · exact List.mem_append_right _ (List.mem_singleton.2 rfl)
      · rw [hsc] at h
        exact Bool.noConfusion h
    by_cases hlt : s.connSem < c.maxConn
    · obtain ⟨s2, hstep, hdec⟩ := hacq s hcr ht hlt
      exact ⟨s2, Or.inr (Or.inl hstep), hdec⟩
    · have hpos : 0 < s.tasks.countP Task.isFetching := by
        rw [← inv.sem_eq]
        omega
      obtain ⟨t, htm, hfetch⟩ := List.countP_pos_iff.1 hpos
      obtain ⟨j, hj⟩ := List.mem_iff_getElem?.1 htm
      cases t with
      | spawned v => simp [Task.isFetching] at hfetch
      | claimed v => simp [Task.isFetching] at hfetch
      | fetched v r => simp [Task.isFetching] at hfetch
      | recorded v urls => simp [Task.isFetching] at hfetch
      | fetching v =>
        have hsplit := getElem?_split s.tasks j _ hj
        have hmem : Task.claimed u ∈ s.tasks.take j ∨ Task.claimed u ∈ s.tasks.drop (j + 1) := by
          rw [hsplit] at ht
          rcases List.mem_append.1 ht with h | h
          · exact Or.inl (by simpa using h)
          · rcases List.mem_cons.1 h with h | h
            · exact Task.noConfusion h
            · exact Or.inr (by simpa using h)
        have hle := inv.sem_le
        cases hf : c.fetcher (c.lib.UrlString v) with
        | none =>
          have hfire : fire c s (Task.fetching v) =
              some ([], { s with connSem := s.connSem - 1, wg := s.wg - 1 }) := by
            rw [fire]
            simp only [hf]
          have hstep := stepAt_of_fire c s j _ _ hcr hj hfire
          have hstep1 : Step c s
              { s with tasks := s.tasks.take j ++ [] ++ s.tasks.drop (j + 1),
                       connSem := s.connSem - 1, wg := s.wg - 1 } := ⟨j, hstep⟩
          obtain ⟨s2, hstep2, hdec⟩ := hacq
            { s with tasks := s.tasks.take j ++ [] ++ s.tasks.drop (j + 1),
                     connSem := s.connSem - 1, wg := s.wg - 1 } hcr
            (show Task.claimed u ∈ s.tasks.take j ++ [] ++ s.tasks.drop (j + 1) by
              rcases hmem with h | h
              · exact List.mem_append_left _ (List.mem_append_left _ h)
              · exact List.mem_append_right _ h)
            (show s.connSem - 1 < c.maxConn by omega)
          exact ⟨s2, Or.inr (Or.inr ⟨_, hstep1, hstep2⟩), hdec⟩
        | some r =>
          have hfire : fire c s (Task.fetching v) =
              some ([Task.fetched v r], { s with connSem := s.connSem - 1 }) := by
            rw [fire]
            simp only [hf]
          have hstep := stepAt_of_fire c s j _ _ hcr hj hfire
          have hstep1 : Step c s
              { s with tasks := s.tasks.take j ++ [Task.fetched v r] ++ s.tasks.drop (j + 1),
                       connSem := s.connSem - 1 } := ⟨j, hstep⟩
          obtain ⟨s2, hstep2, hdec⟩ := hacq
            { s with tasks := s.tasks.take j ++ [Task.fetched v r] ++ s.tasks.drop (j + 1),
                     connSem := s.connSem - 1 } hcr
            (show Task.claimed u ∈
                s.tasks.take j ++ [Task.fetched v r] ++ s.tasks.drop (j + 1) by
              rcases hmem with h | h
              · exact List.mem_append_left _ (List.mem_append_left _ h)
              · exact List.mem_append_right _ h)
            (show s.connSem - 1 < c.maxConn by omega)
          exact ⟨s2, Or.inr (Or.inr ⟨_, hstep1, hstep2⟩), hdec⟩
  · have hsc' : shouldCrawl u = false := by simpa using hsc
    have hfire : fire c s (Task.claimed u) =
        some ([],
          { s with data := concurrentMap.Set s.data (c.lib.UrlString u) none,
                   wg := s.wg - 1 }) := by
      rw [fire]
      simp only [hsc', Bool.false_eq_true, not_false_eq_true, if_true]
    refine ⟨_, Or.inr (Or.inl ⟨i, stepAt_of_fire c s i _ _ hcr hi hfire⟩),
      fun h => absurd h hsc, fun _ => ?_⟩
    show (s.data.set (c.lib.UrlString u) none).get (c.lib.UrlString u) = some none
    rw [GoMap.get_set, if_pos rfl]

/-- While the program has not died, the whitelist decision for a claimed URL can be
carried out within two steps. -/
theorem can_decide (c : crawler) (s : State) (inv : Inv c s) (hconn : 0 < c.maxConn)
    (hcr : s.crashed = false) (u : URL) (hu : u ∈ s.claimedLog) :
    ∃ s', (s' = s ∨ Step c s s' ∨ ∃ s1, Step c s s1 ∧ Step c s1 s') ∧ decided c s' u := by
  by_cases hf : finished s u
  · exact ⟨s, Or.inl rfl, decided_of_finished c s inv u hu hf⟩
  · unfold finished at hf
    push_neg at hf
    obtain ⟨t, ht, hact⟩ := hf
    by_cases hcl : t = Task.claimed u
    · subst hcl
      exact claimed_can_decide c s inv hconn hcr u ht
    · exact ⟨s, Or.inl rfl, decided_of_active c s inv u t ht hact hcl⟩

/-- A crawl that has not died stops only when no task is left. -/
theorem stopped_tasks (c : crawler) (s : State) (inv : Inv c s) (hconn : 0 < c.maxConn)
    (hcr : s.crashed = false) (hstop : ∀ s', ¬ Step c s s') : s.tasks = [] := by
  by_contra hne
  obtain ⟨s', hstep⟩ := progress c s inv hconn hcr hne
  exact hstop s' hstep

theorem finished_of_nil (s : State) (h : s.tasks = []) (u : URL) : finished s u := by
  intro t ht
  rw [h] at ht
  simp at ht

/-- No run from a state of the crawl goes on for ever. -/
theorem no_infinite_run_from (c : crawler) (R : List URL) (hclosed : closedUnder c R = true)
    (hinj : (R.map c.lib.UrlString).Nodup) (s : State) (hs : Reachable c s)
    (run : Nat → State) (h0 : run 0 = s) :
    ∃ n, ¬ Step c (run n) (run (n + 1)) := by
  by_contra hall
  have hall' : ∀ n, Step c (run n) (run (n + 1)) := by
    intro n
    by_contra hn
    exact hall ⟨n, hn⟩
  have hreach : ∀ n, Reachable c (run n) := by
    intro n
    induction n with
    | zero => rw [h0]; exact hs
    | succ k ih => exact Relation.ReflTransGen.tail ih (hall' k)
  have key : ∀ s, ∀ n, run n = s → False := by
    intro s
    induction s using (measure_wf c R).induction with
    | _ s ih =>
      intro n hn
      have hlt := measure_decreases c R hclosed hinj (run n) (run (n + 1)) (hreach n) (hall' n)
      rw [hn] at hlt
      exact ih (run (n + 1)) hlt (n + 1) rfl
  exact key (run 0) 0 rfl

/-- The states of a maximal run are states of the crawl, reached from its first state. -/
theorem MaximalRun_steps (c : crawler) (run : Nat → State) (hrun : MaximalRun c run) (n : Nat) :
    Relation.ReflTransGen (Step c) (run 0) (run n) := by
  induction n with
  | zero => exact Relation.ReflTransGen.refl
  | succ k ih =>
    rcases hrun k with h | ⟨_, h⟩
    · exact Relation.ReflTransGen.tail ih h
    · rw [h]; exact ih

theorem claimedLog_steps (c : crawler) (s s' : State)
    (h : Relation.ReflTransGen (Step c) s s') (u : URL) (hu : u ∈ s.claimedLog) :
    u ∈ s'.claimedLog := by
  induction h with
  | refl => exact hu
  | tail _ hstep ih => exact claimedLog_step c _ _ hstep u ih

/-- When finitely many URLs are reachable, every maximal run from a state of the crawl
comes to a state in which no task is left and `wg.Wait()` returns. -/
theorem MaximalRun_ends (c : crawler) (R : List URL) (hclosed : closedUnder c R = true)
    (hinj : (R.map c.lib.UrlString).Nodup) (hconn : 0 < c.maxConn) (s : State)
    (hs : Reachable c s) (run : Nat → State) (h0 : run 0 = s) (hrun : MaximalRun c run) :
    ∃ n, Reachable c (run n) ∧ (run n).tasks = [] ∧ joined (run n) = true := by
  obtain ⟨n, hn⟩ := no_infinite_run_from c R hclosed hinj s hs run h0
  have hsteps := MaximalRun_steps c run hrun n
  rw [h0] at hsteps
  have hreach : Reachable c (run n) := Relation.ReflTransGen.trans hs hsteps
  obtain ⟨inv, invR⟩ := InvR_reachable c R hclosed hinj (run n) hreach
  have hstop : ∀ s', ¬ Step c (run n) s' := by
    rcases hrun n with h | ⟨h, _⟩
    · exact absurd h hn
    · exact h
  have hnil := stopped_tasks c (run n) inv hconn invR.no_crash hstop
  exact ⟨n, hreach, hnil, (joined_iff c (run n) inv).2 ⟨hnil, invR.no_crash⟩⟩

end crawler

end Okto

namespace Okto

namespace crawler

/-! ## crawler.go: the whitelist decision is carried out -/

theorem MaximalRun_from (c : crawler) (run : Nat → State) (hrun : MaximalRun c run)
    (n d : Nat) : Relation.ReflTransGen (Step c) (run n) (run (n + d)) := by
  induction d with
  | zero => exact Relation.ReflTransGen.refl
  | succ k ih =>
    rcases hrun (n + k) with h | ⟨_, h⟩
    · exact Relation.ReflTransGen.tail ih h
    · rw [← Nat.add_assoc, h]; exact ih

theorem decided_persists (c : crawler) (s s' : State) (hs : Reachable c s)
    (h : Relation.ReflTransGen (Step c) s s') (u : URL) (hd : decided c s u) :
    decided c s' u := by
  obtain ⟨_, h1, h2⟩ := decided_steps c s s' hs h (c.lib.UrlString u)
  exact ⟨fun hsc => h1 (hd.1 hsc), fun hsc => h2 (hd.2 hsc)⟩

/-- With a semaphore of capacity zero the fetcher is never called. -/
theorem zero_no_fetch (c : crawler) (h0 : c.maxConn = 0) (s : State) (hs : Reachable c s) :
    s.fetchLog = [] := by
  induction hs with
  | refl => rfl
  | tail _ hstep ih =>
    refine Step_cases c _ _ hstep ?claimOk ?claimFail ?skip ?acquire ?fetchErr ?fetchOk ?crash
      ?record ?spawn
    case claimOk => intro pre post v _ _ _ hs'; subst hs'; exact ih
    case claimFail => intro pre post v _ _ _ hs'; subst hs'; exact ih
    case skip => intro pre post v _ _ _ hs'; subst hs'; exact ih
    case acquire =>
      intro pre post v _ _ _ hlt _
      rw [h0] at hlt
      exact absurd hlt (Nat.not_lt_zero _)
    case fetchErr => intro pre post v _ _ _ hs'; subst hs'; exact ih
    case fetchOk => intro pre post v r _ _ _ hs'; subst hs'; exact ih
    case crash => intro pre post v r _ _ _ hs'; subst hs'; exact ih
    case record => intro pre post v r urls _ _ _ hs'; subst hs'; exact ih
    case spawn => intro pre post v urls _ _ hs'; subst hs'; exact ih

/-- C8 (amended): with a semaphore of capacity at least one, for every URL `u` claimed
during a crawl: `u` passes the whitelist exactly when its path has no extension or its
extension (the suffix starting at the last `.` of the part of the path after the last
`/`) is exactly `.html`; the fetcher is called for `u` only if it passes, and never if it
does not; while the program has not died the decision can be carried out within the next
two steps of the crawl (the fetcher is called for `u` if it passes, the `nil` record is
stored if it does not), the crawl cannot stop before that, and it is so when `Crawl`
returns; once carried out it stays so; and when finitely many URLs are reachable, every
run that goes on while a task can take a step carries the decision out. -/
theorem extension_whitelist (c : crawler) (s : State) (hreach : Reachable c s)
    (hconn : 0 < c.maxConn) (u : URL) (hu : u ∈ s.claimedLog) :
    (shouldCrawl u = true ↔ (extensionOf u.Path = "" ∨ extensionOf u.Path = ".html")) ∧
    (c.lib.UrlString u ∈ s.fetchLog → shouldCrawl u = true) ∧
    (shouldCrawl u = false → c.lib.UrlString u ∉ s.fetchLog) ∧
    (s.crashed = false →
      ∃ s', (s' = s ∨ Step c s s' ∨ ∃ s1, Step c s s1 ∧ Step c s1 s') ∧ decided c s' u) ∧
    (s.crashed = false → (∀ s', ¬ Step c s s') → decided c s u) ∧
    (joined s = true → decided c s u) ∧
    (∀ s', Relation.ReflTransGen (Step c) s s' → decided c s u → decided c s' u) ∧
    (∀ R, closedUnder c R = true → (R.map c.lib.UrlString).Nodup →
      ∀ run : Nat → State, run 0 = s → MaximalRun c run →
        ∃ n, ∀ m, n ≤ m → decided c (run m) u) := by
  have inv := Inv_reachable c s hreach
  have hfetch : c.lib.UrlString u ∈ s.fetchLog → shouldCrawl u = true := by
    intro hk
    obtain ⟨u', hu', h, hsc⟩ := inv.fetch_claimed _ hk
    have := inj_of_nodup_map _ _ inv.claimed_nodup u' u hu' hu h
    rw [← this]
    exact hsc
  refine ⟨shouldCrawl_iff u, hfetch, ?_, ?_, ?_, ?_, ?_, ?_⟩
  · intro hsc hk
    rw [hfetch hk] at hsc
    exact Bool.noConfusion hsc
  · intro hcr
    exact can_decide c s inv hconn hcr u hu
  · intro hcr hstop
    have hnil := stopped_tasks c s inv hconn hcr hstop
    exact decided_of_finished c s inv u hu (finished_of_nil s hnil u)
  · intro hj
    exact decided_of_finished c s inv u hu (finished_of_joined c s inv hj u)
  · intro s' hsteps hd
    exact decided_persists c s s' hreach hsteps u hd
  · intro R hclosed hinj run h0 hrun
    obtain ⟨n, hrn, hnil, _⟩ := MaximalRun_ends c R hclosed hinj hconn s hreach run h0 hrun
    have hsteps := MaximalRun_steps c run hrun n
    rw [h0] at hsteps
    have hun := claimedLog_steps c s (run n) hsteps u hu
    have hdn := decided_of_finished c (run n) (Inv_reachable c _ hrn) u hun
      (finished_of_nil _ hnil u)
    refine ⟨n, fun m hm => ?_⟩
    obtain ⟨d, rfl⟩ := Nat.exists_eq_add_of_le hm
    exact decided_persists c (run n) (run (n + d)) hrn (MaximalRun_from c run hrun n d) u hdn

/-- In `narrowWaiting` the task of `/x.html` has claimed its URL, passes the whitelist, has
not called the fetcher and cannot take a step, as the one slot is taken; after the fetch
in flight has returned it calls the fetcher. The URL `/report.pdf` is claimed, fails the
whitelist, has the `nil` record and is not fetched. -/
theorem extension_whitelist_witness :
    (({ Scheme := "http", Host := "abcd.com", Path := "/x.html" } : URL) ∈
        narrowWaiting.claimedLog ∧
      shouldCrawl { Scheme := "http", Host := "abcd.com", Path := "/x.html" } = true ∧
      shouldCrawl { Scheme := "http", Host := "abcd.com", Path := "/x.HTML" } = false ∧
      shouldCrawl { Scheme := "http", Host := "abcd.com" } = true ∧
      "http://abcd.com/x.html" ∉ narrowWaiting.fetchLog ∧
      (stepAt narrowCrawler 1 narrowWaiting).isNone = true ∧
      (runSchedule narrowCrawler [0, 1] narrowWaiting).map State.fetchLog =
        some ["http://abcd.com", "http://abcd.com/ok", "http://abcd.com/x.html"] ∧
      ({ Scheme := "http", Host := "abcd.com", Path := "/report.pdf" } : URL) ∈
        narrowWaiting.claimedLog ∧
      shouldCrawl { Scheme := "http", Host := "abcd.com", Path := "/report.pdf" } = false ∧
      narrowWaiting.data.get "http://abcd.com/report.pdf" = some none ∧
      "http://abcd.com/report.pdf" ∉ narrowWaiting.fetchLog) ∧
    ((shouldCrawl { Scheme := "http", Host := "abcd.com", Path := "/x.html" } = true ↔
        (extensionOf "/x.html" = "" ∨ extensionOf "/x.html" = ".html")) ∧
      ("http://abcd.com/x.html" ∈ narrowWaiting.fetchLog →
        shouldCrawl { Scheme := "http", Host := "abcd.com", Path := "/x.html" } = true) ∧
      (shouldCrawl { Scheme := "http", Host := "abcd.com", Path := "/x.html" } = false →
        "http://abcd.com/x.html" ∉ narrowWaiting.fetchLog) ∧
      (narrowWaiting.crashed = false →
        ∃ s', (s' = narrowWaiting ∨ Step narrowCrawler narrowWaiting s' ∨
            ∃ s1, Step narrowCrawler narrowWaiting s1 ∧ Step narrowCrawler s1 s') ∧
          decided narrowCrawler s' { Scheme := "http", Host := "abcd.com", Path := "/x.html" }) ∧
      (narrowWaiting.crashed = false → (∀ s', ¬ Step narrowCrawler narrowWaiting s') →
        decided narrowCrawler narrowWaiting
          { Scheme := "http", Host := "abcd.com", Path := "/x.html" }) ∧
      (joined narrowWaiting = true →
        decided narrowCrawler narrowWaiting
          { Scheme := "http", Host := "abcd.com", Path := "/x.html" }) ∧
      (∀ s', Relation.ReflTransGen (Step narrowCrawler) narrowWaiting s' →
        decided narrowCrawler narrowWaiting
          { Scheme := "http", Host := "abcd.com", Path := "/x.html" } →
        decided narrowCrawler s' { Scheme := "http", Host := "abcd.com", Path := "/x.html" }) ∧
      (∀ R, closedUnder narrowCrawler R = true → (R.map narrowCrawler.lib.UrlString).Nodup →
        ∀ run : Nat → State, run 0 = narrowWaiting → MaximalRun narrowCrawler run →
          ∃ n, ∀ m, n ≤ m →
            decided narrowCrawler (run m)
              { Scheme := "http", Host := "abcd.com", Path := "/x.html" })) :=
  ⟨⟨by decide, by decide, by decide, by decide, by decide, by decide, by decide, by decide,
      by decide, by decide, by decide⟩,
    extension_whitelist narrowCrawler narrowWaiting
      (runSchedule_reachable narrowCrawler [0, 0, 0, 0, 0, 0, 1, 0, 2, 2]) (by decide)
      { Scheme := "http", Host := "abcd.com", Path := "/x.html" } (by decide)⟩

/-- C8 as stated fails: with `maxConn = 0` the seed of `TestCrawler` is claimed and passes
the whitelist (its path is empty), yet in no state of the crawl has the fetcher been
called for it: its task waits for a slot of the semaphore for ever. -/
theorem extension_whitelist_counterexample :
    Reachable zeroCrawler ((runSchedule zeroCrawler [0] (init zeroCrawler)).getD
      (init zeroCrawler)) ∧
    zeroCrawler.seed ∈ ((runSchedule zeroCrawler [0] (init zeroCrawler)).getD
      (init zeroCrawler)).claimedLog ∧
    shouldCrawl zeroCrawler.seed = true ∧
    (extensionOf zeroCrawler.seed.Path = "" ∨ extensionOf zeroCrawler.seed.Path = ".html") ∧
    ∀ s, Reachable zeroCrawler s →
      zeroCrawler.lib.UrlString zeroCrawler.seed ∉ s.fetchLog ∧ joined s = false := by
  refine ⟨runSchedule_reachable zeroCrawler [0], by decide, by decide, by decide, ?_⟩
  intro s hs
  refine ⟨?_, ?_⟩
  · rw [zero_no_fetch zeroCrawler rfl s hs]
    exact List.not_mem_nil _
  · have h := zero_stuck s hs
    unfold joined
    rw [h.1]
    rfl

end crawler

end Okto

namespace Okto

namespace crawler

/-! ## crawler.go: a failed fetch -/

/-- No record is ever written for a claimed URL whose fetch fails. -/
theorem failed_no_record (c : crawler) (s : State) (inv : Inv c s) (u : URL)
    (hu : u ∈ s.claimedLog) (hsc : shouldCrawl u = true)
    (hfail : c.fetcher (c.lib.UrlString u) = none) :
    s.data.get (c.lib.UrlString u) = none := by
  by_cases hf : finished s u
  · rw [(inv.done u hu hf).1, outcome_failed c u hsc hfail]
  · unfold finished at hf
    push_neg at hf
    obtain ⟨t, ht, hact⟩ := hf
    have hph := inv.phase t ht
    cases t with
    | spawned v => simp [Task.active?] at hact
    | claimed v =>
      simp only [Task.active?, Option.some.injEq] at hact
      subst hact
      exact hph.2
    | fetching v =>
      simp only [Task.active?, Option.some.injEq] at hact
      subst hact
      exact hph.2.2
    | fetched v r =>
      simp only [Task.active?, Option.some.injEq] at hact
      subst hact
      have hr := hph.2.2.2
      rw [hfail] at hr
      exact Option.noConfusion hr
    | recorded v urls =>
      simp only [Task.active?, Option.some.injEq] at hact
      subst hact
      obtain ⟨r, hr, _⟩ := hph.2.2
      rw [hfail] at hr
      exact Option.noConfusion hr

/-- The step of a task whose fetch fails: the task ends and gives its slot back; the
other tasks, the visited set and the records stay as they are. -/
theorem stepAt_fetchErr (c : crawler) (s : State) (i : Nat) (u : URL)
    (hcr : s.crashed = false) (hi : s.tasks[i]? = some (Task.fetching u))
    (hfail : c.fetcher (c.lib.UrlString u) = none) :
    stepAt c i s =
      some { s with tasks := s.tasks.take i ++ [] ++ s.tasks.drop (i + 1),
                    connSem := s.connSem - 1, wg := s.wg - 1 } := by
  have hfire : fire c s (Task.fetching u) =
      some ([], { s with connSem := s.connSem - 1, wg := s.wg - 1 }) := by
    rw [fire]
    simp only [hfail]
  exact stepAt_of_fire c s i _ _ hcr hi hfire

/-- C9: in every state of a crawl, a claimed URL that passes the whitelist and whose fetch
fails has no record, so it is a key of neither result map, yet it is in the visited set
and the fetcher is called for it at most once (exactly once when its task has run); a
claimed URL skipped by the whitelist is never fetched and, once its task has run, is a key
of both maps with an empty list; a claimed URL whose fetch succeeded has, once its task
has run, its own record (the strings of its filtered children and its raw assets)
whatever failed elsewhere; when `Crawl` returns every task has run. The step of a failed
fetch ends the task, gives the slot back and changes no record, no other task and not the
visited set, and after it every task that is left can take its next step; with a
semaphore of capacity at least one the crawl is never stuck while tasks are left, and when
finitely many URLs are reachable every run that goes on while a task can take a step
comes to the state in which `wg.Wait()` returns. -/
theorem failure_and_skip (c : crawler) (s : State) (hreach : Reachable c s) (u : URL)
    (hu : u ∈ s.claimedLog) :
    (shouldCrawl u = true → c.fetcher (c.lib.UrlString u) = none →
      s.data.get (c.lib.UrlString u) = none ∧
      (buildResult c s.data).Links.get (c.lib.UrlString u) = none ∧
      (buildResult c s.data).Assets.get (c.lib.UrlString u) = none ∧
      s.visited.get (c.lib.UrlString u) = some () ∧
      s.fetchLog.count (c.lib.UrlString u) ≤ 1 ∧
      (finished s u → s.fetchLog.count (c.lib.UrlString u) = 1)) ∧
    (shouldCrawl u = false →
      c.lib.UrlString u ∉ s.fetchLog ∧
      (finished s u →
        (buildResult c s.data).Links.get (c.lib.UrlString u) = some [] ∧
        (buildResult c s.data).Assets.get (c.lib.UrlString u) = some [])) ∧
    (shouldCrawl u = true → ∀ r, c.fetcher (c.lib.UrlString u) = some r →
      finished s u → s.crashed = false →
      (buildResult c s.data).Links.get (c.lib.UrlString u) =
        some (filter.urlStrings c.lib (filter.Filter c.lib u r.links)) ∧
      (buildResult c s.data).Assets.get (c.lib.UrlString u) = some r.assets) ∧
    (joined s = true → finished s u ∧ s.crashed = false) ∧
    (∀ i, s.tasks[i]? = some (Task.fetching u) → c.fetcher (c.lib.UrlString u) = none →
      s.crashed = false →
      ∃ s', stepAt c i s = some s' ∧
        s'.tasks = s.tasks.take i ++ s.tasks.drop (i + 1) ∧
        s'.data = s.data ∧ s'.visited = s.visited ∧ s'.fetchLog = s.fetchLog ∧
        s'.crashed = false ∧ s'.connSem + 1 = s.connSem ∧ s'.wg + 1 = s.wg ∧
        s'.connSem < c.maxConn ∧ ∀ t ∈ s'.tasks, ∃ r, fire c s' t = some r) ∧
    (0 < c.maxConn → s.crashed = false → s.tasks ≠ [] → ∃ s', Step c s s') ∧
    (0 < c.maxConn → ∀ R, closedUnder c R = true → (R.map c.lib.UrlString).Nodup →
      ∀ run : Nat → State, run 0 = s → MaximalRun c run → ∃ n, joined (run n) = true) := by
  have inv := Inv_reachable c s hreach
  have hres := buildResult_get c s.data (c.lib.UrlString u) inv.data_nodup
  refine ⟨?_, ?_, ?_, ?_, ?_, ?_, ?_⟩
  · intro hsc hfail
    have hnone := failed_no_record c s inv u hu hsc hfail
    rw [hnone] at hres
    refine ⟨hnone, hres.1, hres.2, ?_, ?_, ?_⟩
    · have : s.visited.get (c.lib.UrlString u) ≠ none :=
        (inv.visited_iff _).2 (List.mem_map.2 ⟨u, hu, rfl⟩)
      cases hv : s.visited.get (c.lib.UrlString u) with
      | none => exact absurd hv this
      | some x => rfl
    · exact List.nodup_iff_count_le_one.1 inv.fetch_nodup _
    · intro hf
      exact List.count_eq_one_of_mem inv.fetch_nodup ((inv.done u hu hf).2 hsc)
  · intro hsc
    refine ⟨?_, ?_⟩
    · intro hk
      obtain ⟨u', hu', h, hsc'⟩ := inv.fetch_claimed _ hk
      have := inj_of_nodup_map _ _ inv.claimed_nodup u' u hu' hu h
      rw [this, hsc] at hsc'
      exact Bool.noConfusion hsc'
    · intro hf
      rw [(inv.done u hu hf).1, outcome_skip c u hsc] at hres
      exact hres
  · intro hsc r hr hf hcr
    have hne := inv.done_deref hcr u hu hf hsc r hr
    obtain ⟨urls, hurls⟩ := Option.ne_none_iff_exists'.1 hne
    rw [(inv.done u hu hf).1, outcome_fetched c u r hsc hr, hurls] at hres
    rw [(derefAll_map c.lib _ urls hurls).2]
    exact hres
  · intro hj
    exact ⟨finished_of_joined c s inv hj u, ((joined_iff c s inv).1 hj).2⟩
  · intro i hi hfail hcr
    have hmem : Task.fetching u ∈ s.tasks := List.mem_iff_getElem?.2 ⟨i, hi⟩
    have hpos : 0 < s.connSem := by
      rw [inv.sem_eq]
      exact List.countP_pos_iff.2 ⟨_, hmem, rfl⟩
    have hwg : 0 < s.wg := by
      rw [inv.wg_eq]
      exact List.length_pos_of_mem hmem
    have hle := inv.sem_le
    refine ⟨_, stepAt_fetchErr c s i u hcr hi hfail, ?_, rfl, rfl, rfl, hcr, ?_, ?_, ?_, ?_⟩
    · show s.tasks.take i ++ [] ++ s.tasks.drop (i + 1) = _
      rw [List.append_nil]
    · show s.connSem - 1 + 1 = s.connSem
      omega
    · show s.wg - 1 + 1 = s.wg
      omega
    · show s.connSem - 1 < c.maxConn
      omega
    · intro t _
      exact fire_of_lt c _ t (show s.connSem - 1 < c.maxConn by omega)
  · intro hconn hcr hne
    exact progress c s inv hconn hcr hne
  · intro hconn R hclosed hinj run h0 hrun
    obtain ⟨n, _, _, hj⟩ := MaximalRun_ends c R hclosed hinj hconn s hreach run h0 hrun
    exact ⟨n, hj⟩

/-- In `narrowFailing` the fetch of `/x.html`, which fails, holds the one slot and the task
of `/ok` waits for it; the failure gives the slot back and the task of `/ok` calls the
fetcher. When the crawl has ended, `/x.html` is a key of neither map and `/report.pdf` is a
key of both with an empty list. -/
theorem failure_and_skip_witness :
    (({ Scheme := "http", Host := "abcd.com", Path := "/x.html" } : URL) ∈
        narrowFailing.claimedLog ∧
      narrowCrawler.fetcher "http://abcd.com/x.html" = none ∧
      narrowFailing.tasks[1]? =
        some (Task.fetching { Scheme := "http", Host := "abcd.com", Path := "/x.html" }) ∧
      narrowFailing.tasks[0]? =
        some (Task.claimed { Scheme := "http", Host := "abcd.com", Path := "/ok" }) ∧
      (stepAt narrowCrawler 0 narrowFailing).isNone = true ∧
      (runSchedule narrowCrawler [1, 0] narrowFailing).map State.fetchLog =
        some ["http://abcd.com", "http://abcd.com/x.html", "http://abcd.com/ok"] ∧
      joined demoFinal = true ∧
      (buildResult demoCrawler demoFinal.data).Links.get "http://abcd.com/x.html" = none ∧
      (buildResult demoCrawler demoFinal.data).Assets.get "http://abcd.com/x.html" = none ∧
      (buildResult demoCrawler demoFinal.data).Links.get "http://abcd.com/report.pdf" =
        some [] ∧
      (buildResult demoCrawler demoFinal.data).Assets.get "http://abcd.com/report.pdf" =
        some [] ∧
      (buildResult demoCrawler demoFinal.data).Assets.get "http://abcd.com/ok" =
        some ["/img.png"]) ∧
    ((shouldCrawl { Scheme := "http", Host := "abcd.com", Path := "/x.html" } = true →
        narrowCrawler.fetcher "http://abcd.com/x.html" = none →
        narrowFailing.data.get "http://abcd.com/x.html" = none ∧
        (buildResult narrowCrawler narrowFailing.data).Links.get "http://abcd.com/x.html" =
          none ∧
        (buildResult narrowCrawler narrowFailing.data).Assets.get "http://abcd.com/x.html" =
          none ∧
        narrowFailing.visited.get "http://abcd.com/x.html" = some () ∧
        narrowFailing.fetchLog.count "http://abcd.com/x.html" ≤ 1 ∧
        (finished narrowFailing { Scheme := "http", Host := "abcd.com", Path := "/x.html" } →
          narrowFailing.fetchLog.count "http://abcd.com/x.html" = 1)) ∧
      (shouldCrawl { Scheme := "http", Host := "abcd.com", Path := "/x.html" } = false →
        "http://abcd.com/x.html" ∉ narrowFailing.fetchLog ∧
        (finished narrowFailing { Scheme := "http", Host := "abcd.com", Path := "/x.html" } →
          (buildResult narrowCrawler narrowFailing.data).Links.get "http://abcd.com/x.html" =
            some [] ∧
          (buildResult narrowCrawler narrowFailing.data).Assets.get "http://abcd.com/x.html" =
            some [])) ∧
      (shouldCrawl { Scheme := "http", Host := "abcd.com", Path := "/x.html" } = true →
        ∀ r, narrowCrawler.fetcher "http://abcd.com/x.html" = some r →
        finished narrowFailing { Scheme := "http", Host := "abcd.com", Path := "/x.html" } →
        narrowFailing.crashed = false →
        (buildResult narrowCrawler narrowFailing.data).Links.get "http://abcd.com/x.html" =
          some (filter.urlStrings goUrl (filter.Filter goUrl
            { Scheme := "http", Host := "abcd.com", Path := "/x.html" } r.links)) ∧
        (buildResult narrowCrawler narrowFailing.data).Assets.get "http://abcd.com/x.html" =
          some r.assets) ∧
      (joined narrowFailing = true →
        finished narrowFailing { Scheme := "http", Host := "abcd.com", Path := "/x.html" } ∧
        narrowFailing.crashed = false) ∧
      (∀ i, narrowFailing.tasks[i]? =
          some (Task.fetching { Scheme := "http", Host := "abcd.com", Path := "/x.html" }) →
        narrowCrawler.fetcher "http://abcd.com/x.html" = none →
        narrowFailing.crashed = false →
        ∃ s', stepAt narrowCrawler i narrowFailing = some s' ∧
          s'.tasks = narrowFailing.tasks.take i ++ narrowFailing.tasks.drop (i + 1) ∧
          s'.data = narrowFailing.data ∧ s'.visited = narrowFailing.visited ∧
          s'.fetchLog = narrowFailing.fetchLog ∧
          s'.crashed = false ∧ s'.connSem + 1 = narrowFailing.connSem ∧
          s'.wg + 1 = narrowFailing.wg ∧
          s'.connSem < narrowCrawler.maxConn ∧
          ∀ t ∈ s'.tasks, ∃ r, fire narrowCrawler s' t = some r) ∧
      (0 < narrowCrawler.maxConn → narrowFailing.crashed = false → narrowFailing.tasks ≠ [] →
        ∃ s', Step narrowCrawler narrowFailing s') ∧
      (0 < narrowCrawler.maxConn → ∀ R, closedUnder narrowCrawler R = true →
        (R.map narrowCrawler.lib.UrlString).Nodup →
        ∀ run : Nat → State, run 0 = narrowFailing → MaximalRun narrowCrawler run →
          ∃ n, joined (run n) = true)) :=
  ⟨⟨by decide, by decide, by decide, by decide, by decide, by decide, by decide, by decide,
      by decide, by decide, by decide, by decide⟩,
    failure_and_skip narrowCrawler narrowFailing
      (runSchedule_reachable narrowCrawler [0, 0, 0, 0, 0, 0, 1, 1])
      { Scheme := "http", Host := "abcd.com", Path := "/x.html" } (by decide)⟩

end crawler

end Okto
namespace Okto

namespace GoUrl

/-! ## The concrete URL library: cutting and splitting -/

theorem cut_of_not_mem (sep : Char) (l : List Char) (h : sep ∉ l) : cut sep l = (l, none) := by
  induction l with
  | nil => rfl
  | cons c cs ih =>
    have hc : c ≠ sep := fun e => h (by rw [e]; exact List.mem_cons_self _ _)
    have hcs : sep ∉ cs := fun e => h (List.mem_cons_of_mem _ e)
    rw [cut, if_neg hc, ih hcs]

theorem cut_append (sep : Char) (a b : List Char) (h : sep ∉ a) :
    cut sep (a ++ sep :: b) = (a, some b) := by
  induction a with
  | nil => simp [cut]
  | cons c cs ih =>
    have hc : c ≠ sep := fun e => h (by rw [e]; exact List.mem_cons_self _ _)
    have hcs : sep ∉ cs := fun e => h (List.mem_cons_of_mem _ e)
    rw [List.cons_append, cut, if_neg hc, ih hcs]

theorem cut_fst_not_mem (sep : Char) (l : List Char) : sep ∉ (cut sep l).1 := by
  induction l with
  | nil => simp [cut]
  | cons c cs ih =>
    rw [cut]
    split_ifs with h
    · simp
    · intro hm
      rcases List.mem_cons.1 hm with e | e
      · exact h e.symm
      · exact ih e

theorem cut_fst_subset (sep : Char) (l : List Char) : ∀ c ∈ (cut sep l).1, c ∈ l := by
  induction l with
  | nil => simp [cut]
  | cons c cs ih =>
    rw [cut]
    split_ifs with h
    · simp
    · intro x hx
      rcases List.mem_cons.1 hx with e | e
      · rw [e]; exact List.mem_cons_self _ _
      · exact List.mem_cons_of_mem _ (ih x e)

theorem cut_snd_subset (sep : Char) (l r : List Char) (h : (cut sep l).2 = some r) :
    ∀ c ∈ r, c ∈ l := by
  induction l with
  | nil => simp [cut] at h
  | cons c cs ih =>
    rw [cut] at h
    split_ifs at h with hc
    · simp only [Option.some.injEq] at h
      subst h
      intro x hx
      exact List.mem_cons_of_mem _ hx
    · intro x hx
      exact List.mem_cons_of_mem _ (ih h x hx)

theorem splitUser_of_not_mem (l : List Char) (h : '@' ∉ l) : splitUser l = (none, l) := by
  induction l with
  | nil => rfl
  | cons c cs ih =>
    have hc : c ≠ '@' := fun e => h (by rw [e]; exact List.mem_cons_self _ _)
    have hcs : '@' ∉ cs := fun e => h (List.mem_cons_of_mem _ e)
    rw [splitUser, ih hcs]
    simp only [hc, if_false]

theorem splitUser_append (a b : List Char) (h : '@' ∉ b) :
    splitUser (a ++ '@' :: b) = (some a, b) := by
  induction a with
  | nil =>
    rw [List.nil_append, splitUser, splitUser_of_not_mem b h]
    simp
  | cons c cs ih =>
    rw [List.cons_append, splitUser, ih]

theorem splitUser_subset (l : List Char) :
    (∀ c ∈ (splitUser l).2, c ∈ l) ∧ (∀ u, (splitUser l).1 = some u → ∀ c ∈ u, c ∈ l) := by
  induction l with
  | nil => simp [splitUser]
  | cons c cs ih =>
    obtain ⟨ih1, ih2⟩ := ih
    rw [splitUser]
    cases hs : splitUser cs with
    | mk o h' =>
      rw [hs] at ih1 ih2
      cases o with
      | some u =>
        refine ⟨fun x hx => List.mem_cons_of_mem _ (ih1 x hx), ?_⟩
        intro u' hu' x hx
        simp only [Option.some.injEq] at hu'
        subst hu'
        rcases List.mem_cons.1 hx with e | e
        · rw [e]; exact List.mem_cons_self _ _
        · exact List.mem_cons_of_mem _ (ih2 u rfl x e)
      | none =>
        dsimp only
        split_ifs with hc
        · refine ⟨fun x hx => List.mem_cons_of_mem _ (ih1 x hx), ?_⟩
          intro u' hu' x hx
          simp only [Option.some.injEq] at hu'
          subst hu'
          simp at hx
        · refine ⟨?_, ?_⟩
          · intro x hx
            rcases List.mem_cons.1 hx with e | e
            · rw [e]; exact List.mem_cons_self _ _
            · exact List.mem_cons_of_mem _ (ih1 x e)
          · intro u' hu'
            simp at hu'

theorem getSchemeAux_subset (raw : List Char) (acc l s r : List Char)
    (h : getSchemeAux raw acc l = some (s, r)) : ∀ c ∈ r, c ∈ raw ∨ c ∈ l := by
  induction l generalizing acc with
  | nil =>
    simp only [getSchemeAux, Option.some.injEq, Prod.mk.injEq] at h
    obtain ⟨_, rfl⟩ := h
    exact fun c hc => Or.inl hc
  | cons x xs ih =>
    rw [getSchemeAux] at h
    split_ifs at h with h1 h2 h3 h4 h5
    · exact fun c hc => (ih _ h c hc).imp id (List.mem_cons_of_mem _)
    · simp only [Option.some.injEq, Prod.mk.injEq] at h
      obtain ⟨_, rfl⟩ := h
      exact fun c hc => Or.inl hc
    · exact fun c hc => (ih _ h c hc).imp id (List.mem_cons_of_mem _)
    · simp only [Option.some.injEq, Prod.mk.injEq] at h
      obtain ⟨_, rfl⟩ := h
      exact fun c hc => Or.inr (List.mem_cons_of_mem _ hc)
    · simp only [Option.some.injEq, Prod.mk.injEq] at h
      obtain ⟨_, rfl⟩ := h
      exact fun c hc => Or.inl hc

theorem getScheme_subset (raw s r : List Char) (h : getScheme raw = some (s, r)) :
    ∀ c ∈ r, c ∈ raw := by
  intro c hc
  rcases getSchemeAux_subset raw [] raw s r h c hc with e | e <;> exact e

theorem getScheme_http (tail : List Char) :
    getScheme ('h' :: 't' :: 't' :: 'p' :: ':' :: tail) = some (['h', 't', 't', 'p'], tail) := by
  simp [getScheme, getSchemeAux, isAlpha, isSchemeTail]

theorem getScheme_https (tail : List Char) :
    getScheme ('h' :: 't' :: 't' :: 'p' :: 's' :: ':' :: tail) =
      some (['h', 't', 't', 'p', 's'], tail) := by
  simp [getScheme, getSchemeAux, isAlpha, isSchemeTail]

end GoUrl

end Okto

namespace Okto

namespace GoUrl

/-! ## The concrete URL library: parsing a canonical string -/

theorem splitUser_authText (user : Option (List Char)) (H : List Char) (h : '@' ∉ H) :
    splitUser (authText user H) = (user, H) := by
  cases user with
  | none => exact splitUser_of_not_mem H h
  | some ui =>
    show splitUser ((ui ++ ['@']) ++ H) = _
    rw [List.append_assoc, List.singleton_append]
    exact splitUser_append ui H h

theorem force_false (body Q : List Char) (hb : '?' ∉ body) :
    ¬ ((body ++ queryText Q).getLast? = some '?' ∧ (body ++ queryText Q).count '?' = 1) := by
  rintro ⟨hlast, hcount⟩
  unfold queryText at hlast hcount
  by_cases hQ : Q = []
  · rw [if_pos hQ, List.append_nil] at hcount
    rw [List.count_eq_zero_of_not_mem hb] at hcount
    exact absurd hcount (by decide)
  · rw [if_neg hQ] at hlast hcount
    rw [List.count_append, List.count_eq_zero_of_not_mem hb, List.count_cons_self] at hcount
    have hq0 : Q.count '?' = 0 := by omega
    have hnq : '?' ∉ Q := List.count_eq_zero.1 hq0
    have : (body ++ '?' :: Q).getLast? = Q.getLast? := by
      rw [List.getLast?_append]
      cases Q with
      | nil => exact absurd rfl hQ
      | cons x xs =>
        rw [List.getLast?_cons_cons]
        cases h : (x :: xs).getLast? with
        | none => simp at h
        | some y => rfl
    rw [this] at hlast
    exact hnq (List.mem_of_getLast?_eq_some hlast)

theorem cut_query (body Q : List Char) (hb : '?' ∉ body) :
    (cut '?' (body ++ queryText Q)).1 = body ∧
      ((cut '?' (body ++ queryText Q)).2).getD [] = Q := by
  unfold queryText
  by_cases hQ : Q = []
  · rw [if_pos hQ, List.append_nil, cut_of_not_mem _ _ hb, hQ]
    exact ⟨rfl, rfl⟩
  · rw [if_neg hQ, cut_append _ _ _ hb]
    exact ⟨rfl, rfl⟩

end GoUrl

end Okto

namespace Okto

namespace GoUrl

theorem parse_hier (S : List Char) (hS : ∀ tail, getScheme (S ++ ':' :: tail) = some (S, tail))
    (hlow : toLower S = S) (hne : S ≠ []) (hSctl : ∀ c ∈ S, isCTL c = false)
    (user : Option (List Char)) (H P Q : List Char)
    (hctl : ∀ c ∈ authText user H ++ P ++ Q, isCTL c = false)
    (hq : ∀ c ∈ authText user H ++ P, c ≠ '?')
    (hslash : ∀ c ∈ authText user H, c ≠ '/')
    (hat : '@' ∉ H)
    (hP : P = [] ∨ ∃ p, P = '/' :: p) :
    parse (S ++ ':' :: '/' :: '/' :: (authText user H ++ P ++ queryText Q)) =
      some { Scheme := String.mk S, User := user.map String.mk, Host := String.mk H,
             Path := String.mk P, ForceQuery := false, RawQuery := String.mk Q } := by
  have hbody : '?' ∉ '/' :: '/' :: (authText user H ++ P) := by
    intro hm
    rcases List.mem_cons.1 hm with e | hm
    · exact absurd e (by decide)
    rcases List.mem_cons.1 hm with e | hm
    · exact absurd e (by decide)
    exact hq _ hm rfl
  have hrest : '/' :: '/' :: (authText user H ++ P ++ queryText Q) =
      ('/' :: '/' :: (authText user H ++ P)) ++ queryText Q := by simp
  have hforce := force_false _ Q hbody
  obtain ⟨hc1, hc2⟩ := cut_query _ Q hbody
  have hany : (S ++ ':' :: '/' :: '/' :: (authText user H ++ P ++ queryText Q)).any isCTL
      = false := by
    rw [List.any_eq_false]
    intro c hc
    have : isCTL c = false := by
      rcases List.mem_append.1 hc with h | h
      · exact hSctl c h
      rcases List.mem_cons.1 h with e | h
      · rw [e]; decide
      rcases List.mem_cons.1 h with e | h
      · rw [e]; decide
      rcases List.mem_cons.1 h with e | h
      · rw [e]; decide
      rcases List.mem_append.1 h with h | h
      · exact hctl c (List.mem_append_left _ h)
      · unfold queryText at h
        split_ifs at h
        · simp at h
        · rcases List.mem_cons.1 h with e | h
          · rw [e]; decide
          · exact hctl c (List.mem_append_right _ h)
    simp [this]
  have hstar : S ++ ':' :: ('/' :: '/' :: (authText user H ++ P) ++ queryText Q) ≠ ['*'] := by
    intro e
    have := congrArg List.length e
    simp at this
    omega
  have hn : '/' ∉ authText user H := fun hm => hslash _ hm rfl
  have hauth : cut '/' (authText user H ++ P) =
      (authText user H, if P = [] then none else some P.tail) := by
    rcases hP with hP | ⟨p, hP⟩
    · subst hP
      rw [List.append_nil, cut_of_not_mem _ _ hn]
      rfl
    · subst hP
      rw [cut_append _ _ _ hn]
      rfl
  unfold parse
  rw [hany, hS, hrest]
  simp only [Bool.false_eq_true, if_false, hstar, hforce, decide_False, hc1, hc2, hlow,
    List.head?_cons, ne_eq, not_true_eq_false, false_and, List.take_succ_cons, List.take_zero,
    hne, not_false_eq_true, true_or, and_self, if_true, List.drop_succ_cons, List.drop_zero,
    hauth, splitUser_authText user H hat]
  rcases hP with hP | ⟨p, hP⟩
  · subst hP
    rfl
  · subst hP
    rfl

end GoUrl

end Okto

namespace Okto

namespace GoUrl

theorem parse_opaquePart (S : List Char)
    (hS : ∀ tail, getScheme (S ++ ':' :: tail) = some (S, tail))
    (hlow : toLower S = S) (hne : S ≠ []) (hSctl : ∀ c ∈ S, isCTL c = false)
    (O Q : List Char) (hO : O ≠ []) (hhead : O.head? ≠ some '/')
    (hctl : ∀ c ∈ O ++ Q, isCTL c = false) (hq : '?' ∉ O) :
    parse (S ++ ':' :: (O ++ queryText Q)) =
      some { Scheme := String.mk S, Opaque := String.mk O, ForceQuery := false,
             RawQuery := String.mk Q } := by
  have hforce := force_false O Q hq
  obtain ⟨hc1, hc2⟩ := cut_query O Q hq
  have hany : (S ++ ':' :: (O ++ queryText Q)).any isCTL = false := by
    rw [List.any_eq_false]
    intro c hc
    have : isCTL c = false := by
      rcases List.mem_append.1 hc with h | h
      · exact hSctl c h
      rcases List.mem_cons.1 h with e | h
      · rw [e]; decide
      rcases List.mem_append.1 h with h | h
      · exact hctl c (List.mem_append_left _ h)
      · unfold queryText at h
        split_ifs at h
        · simp at h
        · rcases List.mem_cons.1 h with e | h
          · rw [e]; decide
          · exact hctl c (List.mem_append_right _ h)
    simp [this]
  have hstar : S ++ ':' :: (O ++ queryText Q) ≠ ['*'] := by
    intro e
    have := congrArg List.length e
    have h0 : 0 < O.length := List.length_pos.2 hO
    simp at this
    omega
  unfold parse
  rw [hany, hS]
  simp only [Bool.false_eq_true, if_false, hstar, hforce, decide_False, hc1, hc2, hlow,
    ne_eq, hhead, not_false_eq_true, hne, and_self, if_true]

theorem Parse_of_no_fragment (raw : List Char) (h : '#' ∉ raw) :
    Parse (String.mk raw) = (parse raw).map (fun u => { u with Fragment := "" }) := by
  unfold Parse
  rw [show (String.mk raw).data = raw from rfl, cut_of_not_mem _ _ h]
  cases parse raw <;> rfl

end GoUrl

end Okto

namespace Okto

namespace GoUrl

/-! ## The concrete URL library: duplicate and trailing slashes -/

theorem removeDupSlashes_head (l : List Char) : (removeDupSlashes l).head? = l.head? := by
  induction l with
  | nil => rfl
  | cons c cs ih =>
    rw [removeDupSlashes]
    split_ifs with h
    · rw [ih, h.2, h.1]
      rfl
    · rfl

theorem removeDupSlashes_subset (l : List Char) : ∀ c ∈ removeDupSlashes l, c ∈ l := by
  induction l with
  | nil => simp [removeDupSlashes]
  | cons c cs ih =>
    rw [removeDupSlashes]
    split_ifs with h
    · exact fun x hx => List.mem_cons_of_mem _ (ih x hx)
    · intro x hx
      rcases List.mem_cons.1 hx with e | e
      · rw [e]; exact List.mem_cons_self _ _
      · exact List.mem_cons_of_mem _ (ih x e)

theorem removeDupSlashes_noDup (l : List Char) : noDupSlash (removeDupSlashes l) := by
  induction l with
  | nil => exact List.chain'_nil
  | cons c cs ih =>
    rw [removeDupSlashes]
    split_ifs with h
    · exact ih
    · unfold noDupSlash
      rw [List.chain'_cons']
      refine ⟨?_, ih⟩
      intro y hy
      rw [removeDupSlashes_head] at hy
      rintro ⟨h1, h2⟩
      exact h ⟨h1, by rw [← h2]; exact hy⟩

theorem removeDupSlashes_of_noDup (l : List Char) (h : noDupSlash l) :
    removeDupSlashes l = l := by
  induction l with
  | nil => rfl
  | cons c cs ih =>
    unfold noDupSlash at h
    rw [List.chain'_cons'] at h
    rw [removeDupSlashes, if_neg, ih h.2]
    rintro ⟨h1, h2⟩
    exact h.1 '/' h2 ⟨h1, rfl⟩

theorem noDupSlash_dropLast (l : List Char) (h : noDupSlash l) : noDupSlash l.dropLast :=
  List.Chain'.prefix h (List.dropLast_prefix l)

theorem noDupSlash_cons (l : List Char) (h : noDupSlash l) (hh : l.head? ≠ some '/') :
    noDupSlash ('/' :: l) := by
  unfold noDupSlash
  rw [List.chain'_cons']
  refine ⟨?_, h⟩
  rintro y hy ⟨_, h2⟩
  exact hh (by rw [← h2]; exact hy)

theorem dropLast_getLast (l : List Char) (h : noDupSlash l) (hl : l.getLast? = some '/') :
    l.dropLast.getLast? ≠ some '/' := by
  induction l with
  | nil => simp
  | cons a rest ih =>
    cases rest with
    | nil => simp
    | cons b rest' =>
      unfold noDupSlash at h
      rw [List.chain'_cons'] at h
      rw [List.getLast?_cons_cons] at hl
      cases rest' with
      | nil =>
        simp only [List.getLast?_singleton, Option.some.injEq] at hl
        simp only [List.dropLast_cons₂, List.dropLast_single, List.getLast?_singleton, ne_eq,
          Option.some.injEq]
        intro ha
        exact h.1 b rfl ⟨ha, hl⟩
      | cons d rest'' =>
        have := ih h.2 hl
        rw [List.dropLast_cons₂, List.dropLast_cons₂, List.getLast?_cons_cons]
        rw [List.dropLast_cons₂] at this
        exact this

end GoUrl

end Okto

namespace Okto

namespace GoUrl

/-! ## The concrete URL library: sorting -/

theorem leChars_total (a b : List Char) : leChars a b = true ∨ leChars b a = true := by
  induction a generalizing b with
  | nil => exact Or.inl rfl
  | cons x xs ih =>
    cases b with
    | nil => exact Or.inr rfl
    | cons y ys =>
      simp only [leChars]
      by_cases h1 : x.toNat < y.toNat
      · simp [h1]
      · by_cases h2 : y.toNat < x.toNat
        · simp [h2]
        · simp only [h1, h2, if_false]
          exact ih ys

theorem leChars_trans (a b c : List Char) (h1 : leChars a b = true) (h2 : leChars b c = true) :
    leChars a c = true := by
  induction a generalizing b c with
  | nil => rfl
  | cons x xs ih =>
    cases b with
    | nil => simp [leChars] at h1
    | cons y ys =>
      cases c with
      | nil => simp [leChars] at h2
      | cons z zs =>
        simp only [leChars] at h1 h2 ⊢
        by_cases hxy : x.toNat < y.toNat
        · by_cases hyz : y.toNat < z.toNat
          · rw [if_pos (by omega)]
          · rw [if_neg hyz] at h2
            by_cases hzy : z.toNat < y.toNat
            · rw [if_pos hzy] at h2
              exact absurd h2 (by decide)
            · rw [if_pos (by omega)]
        · rw [if_neg hxy] at h1
          by_cases hyx : y.toNat < x.toNat
          · rw [if_pos hyx] at h1
            exact absurd h1 (by decide)
          · rw [if_neg hyx] at h1
            by_cases hyz : y.toNat < z.toNat
            · rw [if_pos (by omega)]
            · rw [if_neg hyz] at h2
              by_cases hzy : z.toNat < y.toNat
              · rw [if_pos hzy] at h2
                exact absurd h2 (by decide)
              · rw [if_neg hzy] at h2
                rw [if_neg (by omega), if_neg (by omega)]
                exact ih ys zs h1 h2

theorem insertSorted_eq (x : List Char) (l : List (List Char)) :
    insertSorted x l = List.orderedInsert (fun a b => leChars a b = true) x l := by
  induction l with
  | nil => rfl
  | cons y ys ih =>
    rw [insertSorted, List.orderedInsert]
    split_ifs
    · rfl
    · rw [ih]

theorem sortStrings_eq (l : List (List Char)) :
    sortStrings l = List.insertionSort (fun a b => leChars a b = true) l := by
  induction l with
  | nil => rfl
  | cons x xs ih =>
    show insertSorted x (sortStrings xs) = _
    rw [List.insertionSort, insertSorted_eq, ih]

theorem sortStrings_perm (l : List (List Char)) : (sortStrings l).Perm l := by
  rw [sortStrings_eq]
  exact List.perm_insertionSort _ l

theorem sortStrings_sorted (l : List (List Char)) :
    List.Sorted (fun a b => leChars a b = true) (sortStrings l) := by
  rw [sortStrings_eq]
  exact @List.sorted_insertionSort _ (fun a b => leChars a b = true) _
    ⟨leChars_total⟩ ⟨leChars_trans⟩ l

theorem sortStrings_idem (l : List (List Char)) : sortStrings (sortStrings l) = sortStrings l := by
  have h := sortStrings_sorted l
  rw [sortStrings_eq (sortStrings l)]
  exact List.Sorted.insertionSort_eq h

theorem mem_sortStrings (l : List (List Char)) (x : List Char) : x ∈ sortStrings l ↔ x ∈ l :=
  (sortStrings_perm l).mem_iff

end GoUrl

end Okto

namespace Okto

namespace GoUrl

/-! ## The concrete URL library: the query -/

theorem splitOn_ne_nil (sep : Char) (l : List Char) : splitOn sep l ≠ [] := by
  induction l with
  | nil => simp [splitOn]
  | cons c cs ih =>
    rw [splitOn]
    split_ifs
    · simp
    · cases h : splitOn sep cs with
      | nil => simp
      | cons p ps => simp

theorem splitOn_of_not_mem (sep : Char) (l : List Char) (h : sep ∉ l) : splitOn sep l = [l] := by
  induction l with
  | nil => rfl
  | cons c cs ih =>
    have hc : c ≠ sep := fun e => h (by rw [e]; exact List.mem_cons_self _ _)
    have hcs : sep ∉ cs := fun e => h (List.mem_cons_of_mem _ e)
    rw [splitOn, if_neg hc, ih hcs]

theorem splitOn_append (sep : Char) (a rest : List Char) (h : sep ∉ a) :
    splitOn sep (a ++ sep :: rest) = a :: splitOn sep rest := by
  induction a with
  | nil => simp [splitOn]
  | cons c cs ih =>
    have hc : c ≠ sep := fun e => h (by rw [e]; exact List.mem_cons_self _ _)
    have hcs : sep ∉ cs := fun e => h (List.mem_cons_of_mem _ e)
    rw [List.cons_append, splitOn, if_neg hc, ih hcs]

theorem splitOn_pieces (sep : Char) (l : List Char) :
    ∀ p ∈ splitOn sep l, sep ∉ p ∧ ∀ c ∈ p, c ∈ l := by
  induction l with
  | nil =>
    intro p hp
    simp only [splitOn, List.mem_singleton] at hp
    subst hp
    simp
  | cons c cs ih =>
    rw [splitOn]
    split_ifs with hc
    · intro p hp
      rcases List.mem_cons.1 hp with e | e
      · subst e
        simp
      · exact ⟨(ih p e).1, fun x hx => List.mem_cons_of_mem _ ((ih p e).2 x hx)⟩
    · cases hs : splitOn sep cs with
      | nil => exact absurd hs (splitOn_ne_nil sep cs)
      | cons q qs =>
        rw [hs] at ih
        intro p hp
        rcases List.mem_cons.1 hp with e | e
        · subst e
          have hq := ih q (List.mem_cons_self _ _)
          refine ⟨?_, ?_⟩
          · intro hm
            rcases List.mem_cons.1 hm with e' | e'
            · exact hc e'.symm
            · exact hq.1 e'
          · intro x hx
            rcases List.mem_cons.1 hx with e' | e'
            · rw [e']; exact List.mem_cons_self _ _
            · exact List.mem_cons_of_mem _ (hq.2 x e')
        · have hp' := ih p (List.mem_cons_of_mem _ e)
          exact ⟨hp'.1, fun x hx => List.mem_cons_of_mem _ (hp'.2 x hx)⟩

theorem splitOn_joinAmp (items : List (List Char)) (hne : items ≠ [])
    (h : ∀ it ∈ items, '&' ∉ it) : splitOn '&' (joinAmp items) = items := by
  induction items with
  | nil => exact absurd rfl hne
  | cons x rest ih =>
    cases rest with
    | nil =>
      rw [joinAmp]
      exact splitOn_of_not_mem _ _ (h x (List.mem_cons_self _ _))
    | cons y rest' =>
      rw [joinAmp, splitOn_append _ _ _ (h x (List.mem_cons_self _ _)),
        ih (by simp) (fun it hit => h it (List.mem_cons_of_mem _ hit))]

theorem joinAmp_subset (items : List (List Char)) :
    ∀ c ∈ joinAmp items, c = '&' ∨ ∃ it ∈ items, c ∈ it := by
  induction items with
  | nil => simp [joinAmp]
  | cons x rest ih =>
    cases rest with
    | nil =>
      intro c hc
      rw [joinAmp] at hc
      exact Or.inr ⟨x, List.mem_cons_self _ _, hc⟩
    | cons y rest' =>
      intro c hc
      rw [joinAmp] at hc
      rcases List.mem_append.1 hc with h | h
      · exact Or.inr ⟨x, List.mem_cons_self _ _, h⟩
      · rcases List.mem_cons.1 h with e | e
        · exact Or.inl e
        · rcases ih c e with e' | ⟨it, hit, hc'⟩
          · exact Or.inl e'
          · exact Or.inr ⟨it, List.mem_cons_of_mem _ hit, hc'⟩

theorem joinAmp_ne_nil (items : List (List Char)) (hne : items ≠ [])
    (h : ∀ it ∈ items, it ≠ []) : joinAmp items ≠ [] := by
  cases items with
  | nil => exact absurd rfl hne
  | cons x rest =>
    cases rest with
    | nil =>
      rw [joinAmp]
      exact h x (List.mem_cons_self _ _)
    | cons y rest' =>
      rw [joinAmp]
      simp

theorem parseQuery_good (q : List Char) :
    ∀ p ∈ parseQuery q, goodPair p ∧ (∀ c ∈ p.1, c ∈ q) ∧ (∀ c ∈ p.2, c ∈ q) := by
  intro p hp
  unfold parseQuery at hp
  obtain ⟨piece, hpiece, rfl⟩ := List.mem_map.1 hp
  have hmem := (List.mem_filter.1 hpiece).1
  obtain ⟨hsep, hsub⟩ := splitOn_pieces '&' q piece hmem
  refine ⟨⟨cut_fst_not_mem _ _, ?_, ?_⟩, ?_, ?_⟩
  · exact fun hm => hsep (cut_fst_subset _ _ _ hm)
  · cases hc : (cut '=' piece).2 with
    | none => simp
    | some r =>
      exact fun hm => hsep (cut_snd_subset _ _ r hc _ hm)
  · exact fun c hc => hsub c (cut_fst_subset _ _ _ hc)
  · cases hc : (cut '=' piece).2 with
    | none => simp
    | some r =>
      exact fun c hm => hsub c (cut_snd_subset _ _ r hc _ hm)

end GoUrl

end Okto

namespace Okto

namespace GoUrl

theorem flatMap_congr_mem {α β : Type} (l : List α) (f g : α → List β)
    (h : ∀ a ∈ l, f a = g a) : l.flatMap f = l.flatMap g := by
  induction l with
  | nil => rfl
  | cons a rest ih =>
    rw [List.flatMap_cons, List.flatMap_cons, h a (List.mem_cons_self _ _),
      ih (fun b hb => h b (List.mem_cons_of_mem _ hb))]

theorem sortQuery_eq (q : List Char) :
    sortQuery q =
      if parseQuery q = [] then q else joinAmp ((sortedPairs (parseQuery q)).map renderPair) := by
  unfold sortQuery sortedPairs queryKeys queryVals renderPair
  simp only [List.map_flatMap, List.map_map]
  rfl

theorem queryKeys_nodup (pairs : List (List Char × List Char)) : (queryKeys pairs).Nodup :=
  (sortStrings_perm _).nodup_iff.2 (List.nodup_dedup _)

theorem mem_queryKeys (pairs : List (List Char × List Char)) (k : List Char) :
    k ∈ queryKeys pairs ↔ ∃ v, (k, v) ∈ pairs := by
  unfold queryKeys
  rw [mem_sortStrings, List.mem_dedup, List.mem_map]
  constructor
  · rintro ⟨⟨k', v⟩, hp, rfl⟩
    exact ⟨v, hp⟩
  · rintro ⟨v, hp⟩
    exact ⟨(k, v), hp, rfl⟩

theorem mem_queryVals (pairs : List (List Char × List Char)) (k v : List Char) :
    v ∈ queryVals pairs k ↔ (k, v) ∈ pairs := by
  unfold queryVals
  rw [mem_sortStrings, List.mem_map]
  constructor
  · rintro ⟨⟨k', v'⟩, hp, rfl⟩
    obtain ⟨h1, h2⟩ := List.mem_filter.1 hp
    have : k' = k := by simpa using h2
    subst this
    exact h1
  · intro hp
    exact ⟨(k, v), List.mem_filter.2 ⟨hp, by simp⟩, rfl⟩

theorem mem_sortedPairs (pairs : List (List Char × List Char)) (p : List Char × List Char) :
    p ∈ sortedPairs pairs ↔ p ∈ pairs := by
  unfold sortedPairs
  rw [List.mem_flatMap]
  constructor
  · rintro ⟨k, _, hp⟩
    obtain ⟨v, hv, rfl⟩ := List.mem_map.1 hp
    exact (mem_queryVals pairs k v).1 hv
  · intro hp
    obtain ⟨k, v⟩ := p
    exact ⟨k, (mem_queryKeys pairs k).2 ⟨v, hp⟩,
      List.mem_map.2 ⟨v, (mem_queryVals pairs k v).2 hp, rfl⟩⟩

theorem dedup_replicate_append (k : List Char) (n : Nat) (rest : List (List Char))
    (h : k ∉ rest) : (List.replicate (n + 1) k ++ rest).dedup = k :: rest.dedup := by
  induction n with
  | zero =>
    show (k :: rest).dedup = _
    exact List.dedup_cons_of_not_mem h
  | succ m ih =>
    rw [List.replicate_succ, List.cons_append, List.dedup_cons_of_mem, ih]
    rw [List.replicate_succ, List.cons_append]
    exact List.mem_cons_self _ _

theorem dedup_blocks (L : List (List Char)) (V : List Char → List (List Char))
    (hnd : L.Nodup) (hV : ∀ k ∈ L, V k ≠ []) :
    (L.flatMap (fun k => (V k).map (fun _ => k))).dedup = L := by
  induction L with
  | nil => rfl
  | cons k rest ih =>
    rw [List.nodup_cons] at hnd
    rw [List.flatMap_cons]
    have hlen : 0 < (V k).length := List.length_pos.2 (hV k (List.mem_cons_self _ _))
    obtain ⟨n, hn⟩ := Nat.exists_eq_succ_of_ne_zero (Nat.pos_iff_ne_zero.1 hlen)
    have hrep : (V k).map (fun _ => k) = List.replicate (n + 1) k := by
      rw [List.map_const', hn]
    have hnot : k ∉ rest.flatMap (fun k' => (V k').map (fun _ => k')) := by
      intro hm
      obtain ⟨k', hk', hmem⟩ := List.mem_flatMap.1 hm
      obtain ⟨_, _, e⟩ := List.mem_map.1 hmem
      rw [e] at hk'
      exact hnd.1 hk'
    rw [hrep, dedup_replicate_append k n _ hnot,
      ih hnd.2 (fun k' hk' => hV k' (List.mem_cons_of_mem _ hk'))]

theorem vals_blocks (L : List (List Char)) (V : List Char → List (List Char)) (k : List Char)
    (hnd : L.Nodup) :
    ((L.flatMap (fun k' => (V k').map (fun v => (k', v)))).filter
      (fun p => decide (p.1 = k))).map Prod.snd = if k ∈ L then V k else [] := by
  induction L with
  | nil => rfl
  | cons a rest ih =>
    rw [List.nodup_cons] at hnd
    rw [List.flatMap_cons, List.filter_append, List.map_append, ih hnd.2]
    by_cases hak : a = k
    · subst hak
      have h1 : ((V a).map (fun v => (a, v))).filter (fun p => decide (p.1 = a)) =
          (V a).map (fun v => (a, v)) := by
        rw [List.filter_eq_self]
        intro p hp
        obtain ⟨v, _, rfl⟩ := List.mem_map.1 hp
        simp
      rw [h1, if_neg hnd.1, if_pos (List.mem_cons_self _ _), List.append_nil, List.map_map]
      simp
    · have h1 : ((V a).map (fun v => (a, v))).filter (fun p => decide (p.1 = k)) = [] := by
        rw [List.filter_eq_nil_iff]
        intro p hp
        obtain ⟨v, _, rfl⟩ := List.mem_map.1 hp
        simpa using hak
      rw [h1, List.map_nil, List.nil_append]
      have : (k ∈ a :: rest) ↔ k ∈ rest := by
        rw [List.mem_cons]
        exact ⟨fun h => h.resolve_left (fun e => hak e.symm), Or.inr⟩
      simp only [this]

theorem queryVals_ne_nil (pairs : List (List Char × List Char)) (k : List Char)
    (hk : k ∈ queryKeys pairs) : queryVals pairs k ≠ [] := by
  obtain ⟨v, hv⟩ := (mem_queryKeys pairs k).1 hk
  exact List.ne_nil_of_mem ((mem_queryVals pairs k v).2 hv)

theorem queryKeys_sortedPairs (pairs : List (List Char × List Char)) :
    queryKeys (sortedPairs pairs) = queryKeys pairs := by
  have h : (sortedPairs pairs).map Prod.fst =
      (queryKeys pairs).flatMap (fun k => (queryVals pairs k).map (fun _ => k)) := by
    unfold sortedPairs
    rw [List.map_flatMap]
    simp only [List.map_map]
    rfl
  show sortStrings (((sortedPairs pairs).map Prod.fst).dedup) = _
  rw [h, dedup_blocks _ _ (queryKeys_nodup pairs) (queryVals_ne_nil pairs)]
  exact sortStrings_idem _

theorem queryVals_sortedPairs (pairs : List (List Char × List Char)) (k : List Char)
    (hk : k ∈ queryKeys pairs) : queryVals (sortedPairs pairs) k = queryVals pairs k := by
  show sortStrings ((((sortedPairs pairs)).filter (fun p => decide (p.1 = k))).map Prod.snd) = _
  unfold sortedPairs
  rw [vals_blocks _ _ k (queryKeys_nodup pairs), if_pos hk]
  exact sortStrings_idem _

theorem sortedPairs_idem (pairs : List (List Char × List Char)) :
    sortedPairs (sortedPairs pairs) = sortedPairs pairs := by
  show (queryKeys (sortedPairs pairs)).flatMap _ = (queryKeys pairs).flatMap _
  rw [queryKeys_sortedPairs]
  exact flatMap_congr_mem _ _ _ (fun k hk => by rw [queryVals_sortedPairs pairs k hk])

theorem sortedPairs_ne_nil (pairs : List (List Char × List Char)) (h : pairs ≠ []) :
    sortedPairs pairs ≠ [] := by
  obtain ⟨p, hp⟩ := List.exists_mem_of_ne_nil _ h
  exact List.ne_nil_of_mem ((mem_sortedPairs pairs p).2 hp)

theorem cut_renderPair (p : List Char × List Char) (h : '=' ∉ p.1) :
    ((cut '=' (renderPair p)).1, ((cut '=' (renderPair p)).2).getD []) = p := by
  unfold renderPair
  rw [cut_append _ _ _ h]
  rfl

theorem parseQuery_render (ps : List (List Char × List Char)) (hne : ps ≠ [])
    (hgood : ∀ p ∈ ps, goodPair p) : parseQuery (joinAmp (ps.map renderPair)) = ps := by
  unfold parseQuery
  rw [splitOn_joinAmp _ (by simpa using hne)]
  · have hf : (ps.map renderPair).filter (fun p => decide (p ≠ [])) = ps.map renderPair := by
      rw [List.filter_eq_self]
      intro it hit
      obtain ⟨p, _, rfl⟩ := List.mem_map.1 hit
      simp [renderPair]
    rw [hf, List.map_map]
    have : ∀ p ∈ ps, ((fun p => ((cut '=' p).1, ((cut '=' p).2).getD [])) ∘ renderPair) p =
        id p := fun p hp => cut_renderPair p (hgood p hp).1
    rw [List.map_congr_left this, List.map_id]
  · intro it hit
    obtain ⟨p, hp, rfl⟩ := List.mem_map.1 hit
    obtain ⟨_, h2, h3⟩ := hgood p hp
    unfold renderPair
    intro hm
    rcases List.mem_append.1 hm with e | e
    · exact h2 e
    · rcases List.mem_cons.1 e with e' | e'
      · exact absurd e' (by decide)
      · exact h3 e'

/-- Sorting a sorted query changes nothing. -/
theorem sortQuery_idem (q : List Char) : sortQuery (sortQuery q) = sortQuery q := by
  by_cases hq : parseQuery q = []
  · have : sortQuery q = q := by rw [sortQuery_eq, if_pos hq]
    rw [this, this]
  · have hs : sortQuery q = joinAmp ((sortedPairs (parseQuery q)).map renderPair) := by
      rw [sortQuery_eq, if_neg hq]
    have hgood : ∀ p ∈ sortedPairs (parseQuery q), goodPair p := fun p hp =>
      (parseQuery_good q p ((mem_sortedPairs _ p).1 hp)).1
    have hparse := parseQuery_render _ (sortedPairs_ne_nil _ hq) hgood
    rw [hs, sortQuery_eq, hparse, if_neg (sortedPairs_ne_nil _ hq), sortedPairs_idem]

/-- Every byte of a sorted query is a byte of the query, `=` or `&`. -/
theorem sortQuery_subset (q : List Char) :
    ∀ c ∈ sortQuery q, c ∈ q ∨ c = '=' ∨ c = '&' := by
  intro c hc
  rw [sortQuery_eq] at hc
  split_ifs at hc with hq
  · exact Or.inl hc
  · rcases joinAmp_subset _ c hc with e | ⟨it, hit, hcit⟩
    · exact Or.inr (Or.inr e)
    · obtain ⟨p, hp, rfl⟩ := List.mem_map.1 hit
      obtain ⟨_, h1, h2⟩ := parseQuery_good q p ((mem_sortedPairs _ p).1 hp)
      unfold renderPair at hcit
      rcases List.mem_append.1 hcit with e | e
      · exact Or.inl (h1 c e)
      · rcases List.mem_cons.1 e with e' | e'
        · exact Or.inr (Or.inl e')
        · exact Or.inl (h2 c e')

end GoUrl

end Okto

namespace Okto

namespace GoUrl

/-! ## The concrete URL library: what the parser returns -/

theorem dropLast_not_mem (l : List Char) (x : Char) (hl : l.getLast? = some x)
    (hc : l.count x = 1) : x ∉ l.dropLast := by
  have h := List.dropLast_append_getLast? x hl
  rw [← h, List.count_append] at hc
  simp only [List.count_cons_self, List.count_nil] at hc
  exact List.count_eq_zero.1 (by omega)

theorem rest_facts (rest0 : List Char) (force : Bool)
    (hforce : force = true → rest0.getLast? = some '?' ∧ rest0.count '?' = 1) :
    (∀ c ∈ (if force = true then rest0.dropLast else (cut '?' rest0).1), c ∈ rest0) ∧
    '?' ∉ (if force = true then rest0.dropLast else (cut '?' rest0).1) ∧
    (∀ c ∈ (if force = true then [] else ((cut '?' rest0).2).getD []), c ∈ rest0) := by
  cases force with
  | true =>
    obtain ⟨h1, h2⟩ := hforce rfl
    simp only [if_true]
    exact ⟨fun c hc => List.mem_of_mem_dropLast hc, dropLast_not_mem _ _ h1 h2, by simp⟩
  | false =>
    simp only [Bool.false_eq_true, if_false]
    refine ⟨cut_fst_subset _ _, cut_fst_not_mem _ _, ?_⟩
    cases hc : (cut '?' rest0).2 with
    | none => simp
    | some r => exact cut_snd_subset _ _ r hc

theorem parse_wf (raw : List Char) (p : URL) (h : parse raw = some p) :
    raw.any isCTL = false ∧
    (∀ c ∈ p.Opaque.data ++ userChars p ++ p.Path.data ++ p.RawQuery.data, c ∈ raw) ∧
    '?' ∉ p.Opaque.data ++ userChars p ++ p.Path.data ∧
    '/' ∉ userChars p ∧
    p.Opaque.data.head? ≠ some '/' := by
  unfold parse at h
  by_cases hctl : raw.any isCTL = true
  · rw [if_pos hctl] at h
    exact Option.noConfusion h
  rw [if_neg hctl] at h
  have hctl' : raw.any isCTL = false := by simpa using hctl
  refine ⟨hctl', ?_⟩
  by_cases hstar : raw = ['*']
  · rw [if_pos hstar] at h
    cases h
    subst hstar
    refine ⟨?_, ?_, ?_, ?_⟩ <;> simp [userChars]
  rw [if_neg hstar] at h
  cases hs : getScheme raw with
  | none =>
    rw [hs] at h
    exact Option.noConfusion h
  | some sr =>
    obtain ⟨scheme, rest0⟩ := sr
    rw [hs] at h
    have hsub0 := getScheme_subset raw scheme rest0 hs
    dsimp only at h
    obtain ⟨hr1, hr2, hr3⟩ := rest_facts rest0
      (decide (rest0.getLast? = some '?' ∧ rest0.count '?' = 1)) (fun hf => by simpa using hf)
    generalize (if decide (rest0.getLast? = some '?' ∧ rest0.count '?' = 1) = true
      then rest0.dropLast else (cut '?' rest0).1) = rest1 at h hr1 hr2
    generalize (if decide (rest0.getLast? = some '?' ∧ rest0.count '?' = 1) = true
      then [] else ((cut '?' rest0).2).getD []) = query at h hr3
    have hraw1 : ∀ c ∈ rest1, c ∈ raw := fun c hc => hsub0 c (hr1 c hc)
    have hrawq : ∀ c ∈ query, c ∈ raw := fun c hc => hsub0 c (hr3 c hc)
    by_cases hb1 : rest1.head? ≠ some '/' ∧ toLower scheme ≠ []
    · rw [if_pos hb1] at h
      cases h
      refine ⟨?_, ?_, ?_, ?_⟩
      · intro c hc
        simp only [userChars, List.append_nil, List.mem_append] at hc
        rcases hc with hc | hc
        · exact hraw1 c hc
        · exact hrawq c hc
      · simpa [userChars] using hr2
      · simp [userChars]
      · exact hb1.1
    rw [if_neg hb1] at h
    by_cases hb2 : rest1.head? ≠ some '/' ∧ ':' ∈ (cut '/' rest1).1
    · rw [if_pos hb2] at h
      exact Option.noConfusion h
    rw [if_neg hb2] at h
    by_cases hb3 : (toLower scheme ≠ [] ∨ rest1.take 3 ≠ ['/', '/', '/']) ∧
        rest1.take 2 = ['/', '/']
    · rw [if_pos hb3] at h
      cases h
      have hdrop : ∀ c ∈ rest1.drop 2, c ∈ rest1 := fun c hc => List.mem_of_mem_drop hc
      have hauth : ∀ c ∈ (cut '/' (rest1.drop 2)).1, c ∈ rest1 :=
        fun c hc => hdrop c (cut_fst_subset _ _ c hc)
      have hslash : '/' ∈ rest1 := by
        have : '/' ∈ rest1.take 2 := by rw [hb3.2]; simp
        exact List.mem_of_mem_take this
      obtain ⟨hsu1, hsu2⟩ := splitUser_subset (cut '/' (rest1.drop 2)).1
      have huser : ∀ c ∈ userChars
          { Scheme := String.mk (toLower scheme),
            User := (splitUser (cut '/' (rest1.drop 2)).1).1.map String.mk,
            Host := String.mk (splitUser (cut '/' (rest1.drop 2)).1).2,
            Path := String.mk (match (cut '/' (rest1.drop 2)).2 with
              | none => []
              | some p => '/' :: p),
            ForceQuery := decide (rest0.getLast? = some '?' ∧ rest0.count '?' = 1),
            RawQuery := String.mk query },
          c ∈ (cut '/' (rest1.drop 2)).1 := by
        intro c hc
        unfold userChars at hc
        cases hu : (splitUser (cut '/' (rest1.drop 2)).1).1 with
        | none => simp [hu] at hc
        | some ui =>
          simp only [hu, Option.map_some'] at hc
          exact hsu2 ui hu c hc
      have hpath : ∀ c ∈ (match (cut '/' (rest1.drop 2)).2 with
          | none => []
          | some p => '/' :: p), c ∈ rest1 := by
        intro c hc
        cases hcut : (cut '/' (rest1.drop 2)).2 with
        | none => simp [hcut] at hc
        | some r =>
          simp only [hcut] at hc
          rcases List.mem_cons.1 hc with e | e
          · rw [e]; exact hslash
          · exact hdrop c (cut_snd_subset _ _ r hcut c e)
      refine ⟨?_, ?_, ?_, ?_⟩
      · intro c hc
        simp only [List.append_assoc, List.mem_append] at hc
        rcases hc with hc | hc | hc | hc
        · simp at hc
        · exact hraw1 c (hauth c (huser c hc))
        · exact hraw1 c (hpath c hc)
        · exact hrawq c hc
      · intro hm
        simp only [List.append_assoc, List.mem_append] at hm
        rcases hm with hc | hc | hc
        · simp at hc
        · exact hr2 (hauth _ (huser _ hc))
        · exact hr2 (hpath _ hc)
      · exact fun hm => cut_fst_not_mem _ _ (huser _ hm)
      · simp
    · rw [if_neg hb3] at h
      cases h
      refine ⟨?_, ?_, ?_, ?_⟩
      · intro c hc
        simp only [userChars, List.append_nil, List.nil_append, List.mem_append] at hc
        rcases hc with hc | hc
        · exact hraw1 c hc
        · exact hrawq c hc
      · simpa [userChars] using hr2
      · simp [userChars]
      · simp

end GoUrl

end Okto

namespace Okto

namespace GoUrl

/-! ## The concrete URL library: printing a canonical URL -/

theorem mk_ne_empty (l : List Char) : String.mk l ≠ "" ↔ l ≠ [] := by
  constructor
  · intro h e
    subst e
    exact h rfl
  · intro h e
    exact h (congrArg String.data e)

theorem mk_eq_empty (l : List Char) : String.mk l = "" ↔ l = [] := by
  constructor
  · intro e
    exact congrArg String.data e
  · intro e
    subst e
    rfl

theorem hierPart_eq (u : URL) (slashes : Bool) (S : List Char) (user : Option (List Char))
    (H P : List Char) (hS : S ≠ [])
    (hs : u.Scheme = String.mk S) (hu : u.User = user.map String.mk) (hh : u.Host = String.mk H)
    (hp : u.Path = String.mk P) :
    hierPart u slashes = (if slashes then ['/', '/'] else []) ++ authText user H ++
      (if P ≠ [] ∧ P.head? ≠ some '/' ∧ H ≠ [] then ['/'] else []) := by
  unfold hierPart authText
  rw [hs, hu, hh, hp]
  have h1 : String.mk S ≠ "" := (mk_ne_empty S).2 hS
  simp only [ne_eq, h1, not_false_eq_true, true_or, if_true, mk_eq_empty]
  cases user <;> simp

theorem Escape_hier (S : List Char) (user : Option (List Char)) (H P Q : List Char)
    (hS : S ≠ []) (u : URL) (hs : u.Scheme = String.mk S) (ho : u.Opaque = "")
    (hu : u.User = user.map String.mk) (hh : u.Host = String.mk H)
    (hp : u.Path = String.mk P) (hq : u.RawQuery = String.mk Q) (hf : u.Fragment = "") :
    Escape u = String.mk (hierText S user H
      ((if P ≠ [] ∧ P.head? ≠ some '/' ∧ H ≠ [] then ['/'] else []) ++ P) Q) := by
  unfold Escape
  rw [hierPart_eq u true S user H P hS hs hu hh hp]
  rw [hs, ho, hp, hq, hf]
  have h1 : String.mk S ≠ "" := (mk_ne_empty S).2 hS
  unfold hierText queryText
  simp only [ne_eq, h1, not_false_eq_true, if_true, not_true_eq_false, if_false, mk_eq_empty]
  congr 1
  by_cases hQ : Q = [] <;> simp [hQ]

theorem Escape_opaquePart (S O Q : List Char) (hS : S ≠ []) (hO : O ≠ []) (u : URL)
    (hs : u.Scheme = String.mk S) (ho : u.Opaque = String.mk O)
    (hq : u.RawQuery = String.mk Q) (hf : u.Fragment = "") :
    Escape u = String.mk (opaqueText S O Q) := by
  unfold Escape
  rw [hs, ho, hq, hf]
  have h1 : String.mk S ≠ "" := (mk_ne_empty S).2 hS
  have h2 : String.mk O ≠ "" := (mk_ne_empty O).2 hO
  unfold opaqueText queryText
  simp only [ne_eq, h1, h2, not_false_eq_true, if_true, not_true_eq_false, if_false,
    mk_eq_empty]
  congr 1
  by_cases hQ : Q = [] <;> simp [hQ]

theorem UrlString_hier (S : List Char) (user : Option (List Char)) (H P Q : List Char)
    (hS : S ≠ []) (hH : H ≠ []) (hP : P = [] ∨ ∃ p, P = '/' :: p) :
    UrlString (hierURL S user H P Q) = String.mk (hierText S user H P Q) := by
  unfold UrlString
  rw [hierPart_eq (hierURL S user H P Q) _ S user H P hS rfl rfl rfl rfl]
  have h1 : String.mk S ≠ "" := (mk_ne_empty S).2 hS
  have h2 : String.mk H ≠ "" := (mk_ne_empty H).2 hH
  have hsep : ¬ (P ≠ [] ∧ P.head? ≠ some '/' ∧ H ≠ []) := by
    rcases hP with e | ⟨p, e⟩ <;> subst e <;> simp
  unfold hierText queryText hierURL
  simp only [ne_eq, h1, h2, not_false_eq_true, if_true, not_true_eq_false, if_false,
    mk_eq_empty, true_or, decide_True, hsep, false_and, Bool.false_eq_true, false_or]
  congr 1
  by_cases hQ : Q = [] <;> simp [hQ, hS]

theorem UrlString_opaquePart (S O Q : List Char) (hS : S ≠ []) (hO : O ≠ []) :
    UrlString (opaqueURL S O Q) = String.mk (opaqueText S O Q) := by
  unfold UrlString
  have h1 : String.mk S ≠ "" := (mk_ne_empty S).2 hS
  have h2 : String.mk O ≠ "" := (mk_ne_empty O).2 hO
  unfold opaqueText queryText opaqueURL
  simp only [ne_eq, h1, h2, not_false_eq_true, if_true, not_true_eq_false, if_false,
    mk_eq_empty, Bool.false_eq_true, false_or]
  congr 1
  by_cases hQ : Q = [] <;> simp [hQ]

end GoUrl

end Okto

namespace Okto

namespace GoUrl

/-! ## The concrete URL library: the canonical string -/

theorem removeTrailingSlash_fields (u : URL) :
    (removeTrailingSlash u).Scheme = u.Scheme ∧ (removeTrailingSlash u).Opaque = u.Opaque ∧
    (removeTrailingSlash u).User = u.User ∧ (removeTrailingSlash u).RawQuery = u.RawQuery ∧
    (removeTrailingSlash u).Fragment = u.Fragment := by
  unfold removeTrailingSlash
  split_ifs <;> exact ⟨rfl, rfl, rfl, rfl, rfl⟩

theorem removeTrailingSlash_path (u : URL) (H X : List Char) (hh : u.Host = String.mk H)
    (hp : u.Path = String.mk X) (hH : '/' ∉ H) :
    (removeTrailingSlash u).Host = String.mk H ∧
    (removeTrailingSlash u).Path =
      String.mk (if X.getLast? = some '/' then X.dropLast else X) := by
  unfold removeTrailingSlash
  rw [hh, hp]
  by_cases hX : X = []
  · subst hX
    have hne : ¬ (String.mk [] ≠ "") := fun h => h rfl
    rw [if_neg hne]
    have hlast : ¬ (String.mk H ≠ "" ∧ (String.mk H).data.getLast? = some '/') := by
      rintro ⟨_, h2⟩
      exact hH (List.mem_of_getLast?_eq_some h2)
    rw [if_neg hlast]
    exact ⟨hh, by simpa using hp⟩
  · rw [if_pos ((mk_ne_empty X).2 hX)]
    show (if X.getLast? = some '/' then _ else u).Host = _ ∧
      (if X.getLast? = some '/' then _ else u).Path = _
    split_ifs
    · exact ⟨rfl, rfl⟩
    · exact ⟨hh, hp⟩

theorem NormalizeURL_hier (u : URL) (S : List Char) (user : Option (List Char))
    (H P Q : List Char) (hs : u.Scheme = String.mk S) (ho : u.Opaque = "")
    (hu : u.User = user.map String.mk) (hh : u.Host = String.mk H)
    (hp : u.Path = String.mk P) (hq : u.RawQuery = String.mk Q)
    (hS : S ≠ []) (hlowS : toLower S = S) (hlowH : toLower H = H) (hH : '/' ∉ H) :
    NormalizeURL u =
      String.mk (hierText S user H (pathSep (cleanPath P) H ++ cleanPath P) (sortQuery Q)) := by
  unfold NormalizeURL
  dsimp only
  rw [hs, hh, hp, hq]
  simp only [show (String.mk S).data = S from rfl, show (String.mk H).data = H from rfl,
    show (String.mk P).data = P from rfl, show (String.mk Q).data = Q from rfl, hlowS, hlowH]
  have hf := removeTrailingSlash_fields
    { u with Scheme := String.mk S, Host := String.mk H, Fragment := "",
             Path := String.mk (removeDupSlashes P), RawQuery := String.mk (sortQuery Q) }
  have hpth := removeTrailingSlash_path
    { u with Scheme := String.mk S, Host := String.mk H, Fragment := "",
             Path := String.mk (removeDupSlashes P), RawQuery := String.mk (sortQuery Q) }
    H (removeDupSlashes P) rfl rfl hH
  exact Escape_hier S user H (cleanPath P) (sortQuery Q) hS _ hf.1 (hf.2.1.trans ho)
    (hf.2.2.1.trans hu) hpth.1 hpth.2 hf.2.2.2.1 hf.2.2.2.2

theorem NormalizeURL_opaquePart (u : URL) (S O Q : List Char) (hs : u.Scheme = String.mk S)
    (ho : u.Opaque = String.mk O) (hq : u.RawQuery = String.mk Q)
    (hS : S ≠ []) (hO : O ≠ []) (hlowS : toLower S = S) :
    NormalizeURL u = String.mk (opaqueText S O (sortQuery Q)) := by
  unfold NormalizeURL
  dsimp only
  rw [hs, hq]
  simp only [show (String.mk S).data = S from rfl, show (String.mk Q).data = Q from rfl, hlowS]
  have hf := removeTrailingSlash_fields
    { u with Scheme := String.mk S, Host := String.mk (toLower u.Host.data), Fragment := "",
             Path := String.mk (removeDupSlashes u.Path.data),
             RawQuery := String.mk (sortQuery Q) }
  exact Escape_opaquePart S O (sortQuery Q) hS hO _ hf.1 (hf.2.1.trans ho) hf.2.2.2.1 hf.2.2.2.2

end GoUrl

end Okto

namespace Okto

namespace GoUrl

theorem cleanHost_facts (h : String) (hc : cleanHost h = true) :
    h.data ≠ [] ∧ toLower h.data = h.data ∧
      ∀ c ∈ h.data, isCTL c = false ∧ c ≠ '/' ∧ c ≠ '?' ∧ c ≠ '#' ∧ c ≠ '@' := by
  unfold cleanHost at hc
  simp only [Bool.and_eq_true, decide_eq_true_eq, List.all_eq_true, Bool.not_eq_true',
    ne_eq] at hc
  obtain ⟨h1, h2⟩ := hc
  refine ⟨fun e => h1 ((mk_eq_empty h.data).2 e), ?_, ?_⟩
  · unfold toLower
    have : ∀ c ∈ h.data, Char.toLower c = id c := fun c hcm => (h2 c hcm).1.1.1.1.1.1.2
    rw [List.map_congr_left this, List.map_id]
  · intro c hcm
    obtain ⟨⟨⟨⟨⟨⟨_, a2⟩, a3⟩, a4⟩, a5⟩, a6⟩, _⟩ := h2 c hcm
    exact ⟨a2, a3, a4, a5, a6⟩

theorem cleanPath_facts (P : List Char) :
    noDupSlash (cleanPath P) ∧ (cleanPath P).getLast? ≠ some '/' ∧
      ∀ c ∈ cleanPath P, c ∈ P := by
  unfold cleanPath
  split_ifs with h
  · exact ⟨noDupSlash_dropLast _ (removeDupSlashes_noDup P),
      dropLast_getLast _ (removeDupSlashes_noDup P) h,
      fun c hc => removeDupSlashes_subset P c (List.mem_of_mem_dropLast hc)⟩
  · exact ⟨removeDupSlashes_noDup P, h, removeDupSlashes_subset P⟩

theorem fullPath_facts (P H : List Char) (hH : H ≠ []) (h1 : noDupSlash P)
    (h2 : P.getLast? ≠ some '/') :
    (pathSep P H ++ P = [] ∨ ∃ p, pathSep P H ++ P = '/' :: p) ∧
    (∀ c ∈ pathSep P H ++ P, c = '/' ∨ c ∈ P) ∧
    cleanPath (pathSep P H ++ P) = pathSep P H ++ P ∧
    pathSep (pathSep P H ++ P) H = [] := by
  have key : ∀ PP : List Char, noDupSlash PP → PP.getLast? ≠ some '/' →
      (PP = [] ∨ ∃ p, PP = '/' :: p) → cleanPath PP = PP ∧ pathSep PP H = [] := by
    intro PP hn hl hform
    refine ⟨?_, ?_⟩
    · unfold cleanPath
      rw [removeDupSlashes_of_noDup PP hn, if_neg hl]
    · unfold pathSep
      rcases hform with e | ⟨p, e⟩ <;> subst e <;> simp
  cases P with
  | nil =>
    have hs : pathSep [] H = [] := by simp [pathSep]
    rw [hs]
    exact ⟨Or.inl rfl, by simp, key [] h1 h2 (Or.inl rfl)⟩
  | cons c p =>
    by_cases hc : c = '/'
    · subst hc
      have hs : pathSep ('/' :: p) H = [] := by simp [pathSep]
      rw [hs]
      exact ⟨Or.inr ⟨p, rfl⟩, fun x hx => Or.inr hx, key _ h1 h2 (Or.inr ⟨p, rfl⟩)⟩
    · have hs : pathSep (c :: p) H = ['/'] := by simp [pathSep, hc, hH]
      rw [hs]
      refine ⟨Or.inr ⟨c :: p, rfl⟩, ?_, key _ ?_ ?_ (Or.inr ⟨c :: p, rfl⟩)⟩
      · intro x hx
        rcases List.mem_cons.1 hx with e | e
        · exact Or.inl e
        · exact Or.inr e
      · exact noDupSlash_cons _ h1 (by simpa using hc)
      · show ('/' :: c :: p).getLast? ≠ some '/'
        rw [List.getLast?_cons_cons]
        exact h2

end GoUrl

end Okto

namespace Okto

namespace GoUrl

/-! ## The concrete URL library: a canonical string is reproduced -/

theorem Parse_wellFormed (s : String) (p : URL) (h : Parse s = some p) : wellFormed p := by
  unfold Parse at h
  cases hp : parse (cut '#' s.data).1 with
  | none => simp [hp] at h
  | some p0 =>
    simp only [hp, Option.some.injEq] at h
    subst h
    obtain ⟨hctl, hsub, hq, hslash, hhead⟩ := parse_wf _ p0 hp
    refine ⟨?_, hq, hslash, hhead⟩
    intro c hc
    have hraw := hsub c hc
    rw [List.any_eq_false] at hctl
    refine ⟨by simpa using hctl c hraw, ?_⟩
    intro e
    rw [e] at hraw
    exact cut_fst_not_mem _ _ hraw

theorem scheme_facts (S : List Char)
    (h : S = ['h', 't', 't', 'p'] ∨ S = ['h', 't', 't', 'p', 's']) :
    (∀ tail, getScheme (S ++ ':' :: tail) = some (S, tail)) ∧ toLower S = S ∧ S ≠ [] ∧
    (∀ c ∈ S, isCTL c = false ∧ c ≠ '#' ∧ c ≠ '?') ∧
    (String.mk S = "http" ∨ String.mk S = "https") := by
  rcases h with h | h
  · subst h
    exact ⟨getScheme_http, by decide, by decide, by decide, Or.inl rfl⟩
  · subst h
    exact ⟨getScheme_https, by decide, by decide, by decide, Or.inr rfl⟩

theorem mem_authText (user : Option (List Char)) (H : List Char) (c : Char)
    (hc : c ∈ authText user H) :
    c ∈ (match user with
      | none => []
      | some ui => ui) ∨ c = '@' ∨ c ∈ H := by
  unfold authText at hc
  cases user with
  | none => exact Or.inr (Or.inr (by simpa using hc))
  | some ui =>
    simp only [List.append_assoc, List.mem_append, List.mem_singleton] at hc
    rcases hc with h | h | h
    · exact Or.inl h
    · exact Or.inr (Or.inl h)
    · exact Or.inr (Or.inr h)

theorem userChars_eq (u : URL) :
    userChars u = (match u.User.map String.data with
      | none => []
      | some ui => ui) := by
  unfold userChars
  cases u.User <;> rfl

theorem user_eq (u : URL) : u.User = (u.User.map String.data).map String.mk := by
  cases u.User <;> rfl

end GoUrl

end Okto

namespace Okto

namespace GoUrl

theorem Parse_hierText (S : List Char)
    (hS : S = ['h', 't', 't', 'p'] ∨ S = ['h', 't', 't', 'p', 's'])
    (user : Option (List Char)) (H P Q : List Char)
    (hok : ∀ c ∈ authText user H ++ P ++ Q, isCTL c = false ∧ c ≠ '#')
    (hq : ∀ c ∈ authText user H ++ P, c ≠ '?')
    (hslash : ∀ c ∈ authText user H, c ≠ '/')
    (hat : '@' ∉ H)
    (hP : P = [] ∨ ∃ p, P = '/' :: p) :
    Parse (String.mk (hierText S user H P Q)) = some (hierURL S user H P Q) := by
  obtain ⟨h1, h2, h3, h4, _⟩ := scheme_facts S hS
  have hhash : '#' ∉ hierText S user H P Q := by
    unfold hierText
    intro hm
    rcases List.mem_append.1 hm with h | h
    · exact (h4 _ h).2.1 rfl
    rcases List.mem_cons.1 h with e | h
    · exact absurd e (by decide)
    rcases List.mem_cons.1 h with e | h
    · exact absurd e (by decide)
    rcases List.mem_cons.1 h with e | h
    · exact absurd e (by decide)
    rcases List.mem_append.1 h with h | h
    · exact (hok _ (List.mem_append_left _ h)).2 rfl
    · unfold queryText at h
      split_ifs at h
      · simp at h
      · rcases List.mem_cons.1 h with e | h
        · exact absurd e (by decide)
        · exact (hok _ (List.mem_append_right _ h)).2 rfl
  rw [Parse_of_no_fragment _ hhash]
  unfold hierText
  rw [parse_hier S h1 h2 h3 (fun c hc => (h4 c hc).1) user H P Q (fun c hc => (hok c hc).1)
    hq hslash hat hP]
  rfl

theorem Parse_opaqueText (S : List Char)
    (hS : S = ['h', 't', 't', 'p'] ∨ S = ['h', 't', 't', 'p', 's'])
    (O Q : List Char) (hO : O ≠ []) (hhead : O.head? ≠ some '/')
    (hok : ∀ c ∈ O ++ Q, isCTL c = false ∧ c ≠ '#') (hq : '?' ∉ O) :
    Parse (String.mk (opaqueText S O Q)) = some (opaqueURL S O Q) := by
  obtain ⟨h1, h2, h3, h4, _⟩ := scheme_facts S hS
  have hhash : '#' ∉ opaqueText S O Q := by
    unfold opaqueText
    intro hm
    rcases List.mem_append.1 hm with h | h
    · exact (h4 _ h).2.1 rfl
    rcases List.mem_cons.1 h with e | h
    · exact absurd e (by decide)
    rcases List.mem_append.1 h with h | h
    · exact (hok _ (List.mem_append_left _ h)).2 rfl
    · unfold queryText at h
      split_ifs at h
      · simp at h
      · rcases List.mem_cons.1 h with e | h
        · exact absurd e (by decide)
        · exact (hok _ (List.mem_append_right _ h)).2 rfl
  rw [Parse_of_no_fragment _ hhash]
  unfold opaqueText
  rw [parse_opaquePart S h1 h2 h3 (fun c hc => (h4 c hc).1) O Q hO hhead
    (fun c hc => (hok c hc).1) hq]
  rfl

end GoUrl

namespace filter

open GoUrl

/-- Under a parent with a clean host, a URL that `url.Parse` returned and that took (or
has) the host of the parent and the scheme http or https has a canonical string that is
reproduced: it parses, and the URL it parses to, printed, parsed and normalized again
under the same parent, gives the same canonical string. -/
theorem canonical_reproduced (parent : URL)
    (hhost : cleanHost parent.Host = true) (u : URL) (hwf : wellFormed u)
    (S : List Char) (hS : S = ['h', 't', 't', 'p'] ∨ S = ['h', 't', 't', 'p', 's'])
    (hus : u.Scheme = String.mk S) (huh : u.Host = parent.Host) :
    reproduced goUrl parent (NormalizeURL u) = true := by
  obtain ⟨hH, hlowH, hHc⟩ := cleanHost_facts parent.Host hhost
  obtain ⟨hS1, hlowS, hSne, hSc, hSs⟩ := scheme_facts S hS
  obtain ⟨hok, hq, hslash, hhead⟩ := hwf
  have hHslash : '/' ∉ parent.Host.data := fun hm => (hHc _ hm).2.1 rfl
  have hHat : '@' ∉ parent.Host.data := fun hm => (hHc _ hm).2.2.2.2 rfl
  have hQok : ∀ c ∈ sortQuery u.RawQuery.data, isCTL c = false ∧ c ≠ '#' := by
    intro c hc
    rcases sortQuery_subset _ c hc with h | h | h
    · exact hok c (List.mem_append_right _ h)
    · rw [h]; decide
    · rw [h]; decide
  -- what the reparsed URL is normalized to
  have hnorm : ∀ v : URL, v.Scheme = String.mk S → (v.Host = "" ∨ v.Host = parent.Host) →
      normalize goUrl parent v = NormalizeURL { v with Host := parent.Host } := by
    intro v hvs hvh
    rw [normalize_eq]
    have h1 : ¬ (v.Host ≠ "" ∧ v.Host ≠ parent.Host) := by
      rintro ⟨a, b⟩
      rcases hvh with e | e
      · exact a e
      · exact b e
    have h2 : ¬ (v.Scheme ≠ "" ∧ v.Scheme ≠ "http" ∧ v.Scheme ≠ "https") := by
      rintro ⟨_, b, c⟩
      rw [hvs] at b c
      rcases hSs with e | e
      · exact b e
      · exact c e
    have h3 : v.Scheme ≠ "" := by
      rw [hvs]
      exact (mk_ne_empty S).2 hSne
    rw [if_neg h1, if_neg h2, if_neg h3]
    show NormalizeURL _ = NormalizeURL _
    congr 1
    rcases hvh with e | e
    · rw [if_pos e]
    · by_cases e' : v.Host = ""
      · rw [if_pos e']
      · rw [if_neg e', e]
  by_cases hO : u.Opaque.data = []
  · -- a URL with an authority
    have hk := NormalizeURL_hier u S (u.User.map String.data) parent.Host.data u.Path.data
      u.RawQuery.data hus ((mk_eq_empty _).2 hO) (user_eq u) huh rfl rfl hSne hlowS hlowH
      hHslash
    obtain ⟨hc1, hc2, hc3⟩ := cleanPath_facts u.Path.data
    obtain ⟨hf1, hf2, hf3, hf4⟩ := fullPath_facts (cleanPath u.Path.data) parent.Host.data hH
      hc1 hc2
    generalize hPP : pathSep (cleanPath u.Path.data) parent.Host.data ++ cleanPath u.Path.data
      = PP at hk hf1 hf2 hf3 hf4
    have hauth : ∀ c ∈ authText (u.User.map String.data) parent.Host.data,
        isCTL c = false ∧ c ≠ '#' ∧ c ≠ '?' ∧ c ≠ '/' := by
      intro c hc
      rcases mem_authText _ _ c hc with h | h | h
      · rw [← userChars_eq] at h
        have hm : c ∈ u.Opaque.data ++ userChars u ++ u.Path.data :=
          List.mem_append_left _ (List.mem_append_right _ h)
        refine ⟨(hok c (List.mem_append_left _ hm)).1, (hok c (List.mem_append_left _ hm)).2,
          fun e => hq (by rw [← e]; exact hm), fun e => hslash (by rw [← e]; exact h)⟩
      · rw [h]; decide
      · exact ⟨(hHc c h).1, (hHc c h).2.2.2.1, (hHc c h).2.2.1, (hHc c h).2.1⟩
    have hpath : ∀ c ∈ PP, isCTL c = false ∧ c ≠ '#' ∧ c ≠ '?' := by
      intro c hc
      rcases hf2 c hc with h | h
      · rw [h]; decide
      · have hm : c ∈ u.Opaque.data ++ userChars u ++ u.Path.data :=
          List.mem_append_right _ (hc3 c h)
        exact ⟨(hok c (List.mem_append_left _ hm)).1, (hok c (List.mem_append_left _ hm)).2,
          fun e => hq (by rw [← e]; exact hm)⟩
    have hparse := Parse_hierText S hS (u.User.map String.data) parent.Host.data PP
      (sortQuery u.RawQuery.data)
      (by
        intro c hc
        rcases List.mem_append.1 hc with h | h
        · rcases List.mem_append.1 h with h | h
          · exact ⟨(hauth c h).1, (hauth c h).2.1⟩
          · exact ⟨(hpath c h).1, (hpath c h).2.1⟩
        · exact hQok c h)
      (by
        intro c hc
        rcases List.mem_append.1 hc with h | h
        · exact (hauth c h).2.2.1
        · exact (hpath c h).2.2)
      (fun c hc => (hauth c hc).2.2.2) hHat hf1
    have hstr := UrlString_hier S (u.User.map String.data) parent.Host.data PP
      (sortQuery u.RawQuery.data) hSne hH hf1
    have hn := hnorm (hierURL S (u.User.map String.data) parent.Host.data PP
      (sortQuery u.RawQuery.data)) rfl (Or.inr rfl)
    have hn2 := NormalizeURL_hier
      { hierURL S (u.User.map String.data) parent.Host.data PP (sortQuery u.RawQuery.data)
          with Host := parent.Host }
      S (u.User.map String.data) parent.Host.data PP (sortQuery u.RawQuery.data)
      rfl rfl rfl rfl rfl rfl hSne hlowS hlowH hHslash
    rw [hf3, hf4, List.nil_append, sortQuery_idem] at hn2
    unfold reproduced
    rw [hk]
    show (match Parse _ with
      | none => false
      | some v =>
        match Parse (UrlString v) with
        | none => false
        | some w => decide (normalize goUrl parent w = _)) = true
    rw [hparse]
    dsimp only
    rw [hstr, hparse]
    dsimp only
    rw [hn, hn2]
    simp
  · -- a URL with an opaque part
    have hk := NormalizeURL_opaquePart u S u.Opaque.data u.RawQuery.data hus rfl rfl hSne hO hlowS
    have hOok : ∀ c ∈ u.Opaque.data, isCTL c = false ∧ c ≠ '#' := fun c hc =>
      hok c (List.mem_append_left _ (List.mem_append_left _ (List.mem_append_left _ hc)))
    have hparse := Parse_opaqueText S hS u.Opaque.data (sortQuery u.RawQuery.data) hO hhead
      (by
        intro c hc
        rcases List.mem_append.1 hc with h | h
        · exact hOok c h
        · exact hQok c h)
      (fun hm => hq (List.mem_append_left _ (List.mem_append_left _ hm)))
    have hstr := UrlString_opaquePart S u.Opaque.data (sortQuery u.RawQuery.data) hSne hO
    have hn := hnorm (opaqueURL S u.Opaque.data (sortQuery u.RawQuery.data)) rfl (Or.inl rfl)
    have hn2 := NormalizeURL_opaquePart
      { opaqueURL S u.Opaque.data (sortQuery u.RawQuery.data) with Host := parent.Host }
      S u.Opaque.data (sortQuery u.RawQuery.data) rfl rfl rfl hSne hO hlowS
    rw [sortQuery_idem] at hn2
    unfold reproduced
    rw [hk]
    show (match Parse _ with
      | none => false
      | some v =>
        match Parse (UrlString v) with
        | none => false
        | some w => decide (normalize goUrl parent w = _)) = true
    rw [hparse]
    dsimp only
    rw [hstr, hparse]
    dsimp only
    rw [hn, hn2]
    simp

end filter

end Okto

namespace Okto

namespace filter

open GoUrl

/-! ## filter.go: filtering the output again -/

/-- Under an http(s) parent with a clean host every canonical string that `Filter`
accepts is reproduced. -/
theorem FilterKeys_reproduced (parent : URL)
    (hscheme : parent.Scheme = "http" ∨ parent.Scheme = "https")
    (hhost : cleanHost parent.Host = true) (children : List String) (k : String)
    (hk : k ∈ FilterKeys goUrl parent children) : reproduced goUrl parent k = true := by
  obtain ⟨_, c, _, hc⟩ := mem_FilterKeys goUrl parent children k hk
  unfold canonicalInScope at hc
  cases hp : goUrl.Parse c with
  | none => simp [hp] at hc
  | some u =>
    rw [hp, Option.some_bind] at hc
    have hwf : wellFormed u := Parse_wellFormed c u hp
    by_cases h1 : u.Host ≠ "" ∧ u.Host ≠ parent.Host
    · rw [if_pos h1] at hc
      exact Option.noConfusion hc
    rw [if_neg h1] at hc
    by_cases h2 : u.Scheme ≠ "" ∧ u.Scheme ≠ "http" ∧ u.Scheme ≠ "https"
    · rw [if_pos h2] at hc
      exact Option.noConfusion hc
    rw [if_neg h2] at hc
    have hk' := Option.some.inj hc
    rw [← hk']
    have hsch : (if u.Scheme = "" then parent.Scheme else u.Scheme) = "http" ∨
        (if u.Scheme = "" then parent.Scheme else u.Scheme) = "https" := by
      by_cases h3 : u.Scheme = ""
      · rw [if_pos h3]
        exact hscheme
      · rw [if_neg h3]
        by_contra hcon
        exact h2 ⟨h3, fun e => hcon (Or.inl e), fun e => hcon (Or.inr e)⟩
    have hhst : (if u.Host = "" then parent.Host else u.Host) = parent.Host := by
      by_cases h3 : u.Host = ""
      · rw [if_pos h3]
      · rw [if_neg h3]
        by_contra hcon
        exact h1 ⟨h3, hcon⟩
    have hS : ∃ S : List Char, (S = ['h', 't', 't', 'p'] ∨ S = ['h', 't', 't', 'p', 's']) ∧
        (if u.Scheme = "" then parent.Scheme else u.Scheme) = String.mk S := by
      rcases hsch with e | e
      · exact ⟨_, Or.inl rfl, e⟩
      · exact ⟨_, Or.inr rfl, e⟩
    obtain ⟨S, hS1, hS2⟩ := hS
    exact canonical_reproduced parent hhost
      { u with Host := if u.Host = "" then parent.Host else u.Host,
               Scheme := if u.Scheme = "" then parent.Scheme else u.Scheme }
      hwf S hS1 hS2 hhst

/-- C3 (amended): with the URL library `goUrl`, for every parent URL whose scheme is http
or https and whose host is clean (not empty, ASCII, no upper-case letter, no control byte,
none of `/`, `?`, `#`, `@`, `%`) and for every list of child strings without a percent
sign, filtering the strings of the URLs returned by `Filter(parent, children)` with the
same parent returns that same list: the same URLs in the same order. The condition on the
children keeps the statement to the URLs that `goUrl` covers: it has no percent-encoding,
so a percent sign is an ordinary byte to it and the proof does not use the condition. -/
theorem Filter_idempotent (parent : URL)
    (hscheme : parent.Scheme = "http" ∨ parent.Scheme = "https")
    (hhost : cleanHost parent.Host = true) (children : List String)
    (_ : ∀ c ∈ children, '%' ∉ c.data) :
    Filter goUrl parent (urlStrings goUrl (Filter goUrl parent children)) =
      Filter goUrl parent children :=
  Filter_refilter goUrl parent children
    (fun k hk => FilterKeys_reproduced parent hscheme hhost children k hk)

theorem Filter_idempotent_witness :
    (({ Scheme := "http", Host := "abcd.com" } : URL).Scheme = "http" ∨
      ({ Scheme := "http", Host := "abcd.com" } : URL).Scheme = "https") ∧
    cleanHost ({ Scheme := "http", Host := "abcd.com" } : URL).Host = true ∧
    (∀ c ∈ ["http://abcd.com/", "/a//b/?z=1&y=2#f", "HTTP://abcd.com/a/b/?y=2&z=1", "c/d",
        "https:opaque", "//user@abcd.com/e/"], '%' ∉ c.data) ∧
    Filter goUrl { Scheme := "http", Host := "abcd.com" }
        ["http://abcd.com/", "/a//b/?z=1&y=2#f", "HTTP://abcd.com/a/b/?y=2&z=1", "c/d",
          "https:opaque", "//user@abcd.com/e/"] =
      [some { Scheme := "http", Host := "abcd.com" },
       some { Scheme := "http", Host := "abcd.com", Path := "/a/b", RawQuery := "y=2&z=1" },
       some { Scheme := "http", Host := "abcd.com", Path := "/c/d" },
       some { Scheme := "https", Opaque := "opaque" },
       some { Scheme := "http", User := some "user", Host := "abcd.com", Path := "/e" }] ∧
    Filter goUrl { Scheme := "http", Host := "abcd.com" }
        (urlStrings goUrl (Filter goUrl { Scheme := "http", Host := "abcd.com" }
          ["http://abcd.com/", "/a//b/?z=1&y=2#f", "HTTP://abcd.com/a/b/?y=2&z=1", "c/d",
            "https:opaque", "//user@abcd.com/e/"])) =
      Filter goUrl { Scheme := "http", Host := "abcd.com" }
        ["http://abcd.com/", "/a//b/?z=1&y=2#f", "HTTP://abcd.com/a/b/?y=2&z=1", "c/d",
          "https:opaque", "//user@abcd.com/e/"] :=
  ⟨by decide, by decide, by decide, by decide,
   Filter_idempotent { Scheme := "http", Host := "abcd.com" } (by decide) (by decide)
    ["http://abcd.com/", "/a//b/?z=1&y=2#f", "HTTP://abcd.com/a/b/?y=2&z=1", "c/d",
      "https:opaque", "//user@abcd.com/e/"] (by decide)⟩

/-- C3 as stated fails. Under a parent whose host has an upper-case letter the returned
URL has the lower-cased host, which differs from the parent host, so filtering the output
again returns the empty list. The same happens under a parent with another scheme than
http(s) (a relative child inherits the scheme, and the output is then dropped for its
scheme) and under a parent without a host (the first segment of a relative path is read
back as the host). -/
theorem Filter_idempotent_counterexample :
    (Filter goUrl { Scheme := "http", Host := "ABCD.com" } ["http://ABCD.com/x"] =
        [some { Scheme := "http", Host := "abcd.com", Path := "/x" }] ∧
      Filter goUrl { Scheme := "http", Host := "ABCD.com" }
          (urlStrings goUrl
            (Filter goUrl { Scheme := "http", Host := "ABCD.com" } ["http://ABCD.com/x"])) =
        []) ∧
    (Filter goUrl { Scheme := "ftp", Host := "abcd.com" } ["/x"] =
        [some { Scheme := "ftp", Host := "abcd.com", Path := "/x" }] ∧
      Filter goUrl { Scheme := "ftp", Host := "abcd.com" }
          (urlStrings goUrl (Filter goUrl { Scheme := "ftp", Host := "abcd.com" } ["/x"])) =
        []) ∧
    (Filter goUrl { Scheme := "http" } ["x"] = [some { Scheme := "http", Host := "x" }] ∧
      Filter goUrl { Scheme := "http" }
          (urlStrings goUrl (Filter goUrl { Scheme := "http" } ["x"])) =
        []) := by
  decide

end filter

end Okto
